import Mathlib

/-!
# LFTC-Lexer: the lexer and the recursive-descent recognizer

A shallow embedding of `src/lexer.h`, `src/lexer.c` and `src/parser.c`.

* A C `char` is a `Char`; the input buffer of `tokenize` is a `List Char`
  followed by the terminating NUL, and a `const char *` into that buffer is the
  suffix of the list that starts at the pointed character.
* The global token array is a `List Token` (its first `nTokens` entries). The
  `int` counters are `Nat`: `nTokens` stays within `MAX_TOKENS`, the cursor
  `iTk` within `nTokens`, and `line` would need 2^31 newlines to overflow.
* `err` and `tkerr` print a diagnostic and end the process: they are the
  `fatal` results of the two phases.
* A read of `tokens[iTk]` outside the part of the array that `tokenize` filled
  is a result of its own (`outOfRange`).
* Loops and the recursion of the grammar procedures run on a fuel counter;
  running out of it is a result of its own (`outOfFuel`), never a verdict.
  More fuel never changes a result that was reached (`monoAll`,
  `program_mono`).
-/

namespace LFTC

/-! ## lexer.h -/

/-- Token codes: the anonymous enum of `lexer.h`, in its order. -/
inductive Code
  | ID | VAR | INT | REAL | STR
  | FUNCTION | IF | ELSE | WHILE | END | RETURN | BEGIN
  | TYPE_INT | TYPE_REAL | TYPE_STR
  | COMMA | FINISH
  | COLON | SEMICOLON | LPAR | RPAR
  | ASSIGN | EQUAL
  | ADD | SUB | MUL | DIV | AND | OR | NOT | NOTEQ | LESS | GREATER | GREATEREQ
  | SPACE | COMMENT
  deriving DecidableEq, Repr

/-- `MAX_STR` of `lexer.h`. -/
def MAX_STR : Nat := 127

/-- `MAX_TOKENS` of `lexer.h`. -/
def MAX_TOKENS : Nat := 4096

/-- The union of `Token`: what the lexer last stored in it. `text` for ID and
STR, `i` for INT; `r` stands for the double `atof` returns and keeps the
decimal text handed to `atof` (the embedding has no floating point); `none`
for a token whose union the lexer never writes. -/
inductive Payload
  | none
  | text (s : List Char)
  | i (v : Int)
  | r (lexeme : List Char)
  deriving DecidableEq, Repr

/-- The struct `Token` of `lexer.h`. -/
structure Token where
  code : Code
  line : Nat
  payload : Payload
  deriving DecidableEq, Repr

/-! ## lexer.c -/

/-- The fatal diagnostics of the lexer, one per call of `err` in `lexer.c`. -/
inductive LexError
  /-- "Too many tokens." -/
  | tooManyTokens
  /-- "String too long." -/
  | stringTooLong
  /-- "Missing \" on line %d" -/
  | missingQuote (line : Nat)
  /-- "Real number without digits after decimal on line %d" -/
  | realWithoutDigits (line : Nat)
  /-- "Unknown symbol '%c' (ASCII: %d) on line %d" -/
  | unknownSymbol (c : Char) (line : Nat)
  deriving DecidableEq, Repr

/-- Modelled from the spec: `err` of `utils.h` is not among the sources; by the
spec every fatal condition prints its diagnostic and terminates the process at
once, so a call of `err` ends the run with that diagnostic. What `tokenize`
yields: the filled token array, a fatal diagnostic, or no result because the
fuel of the model ran out. -/
inductive Lexed
  | tokens (ts : List Token)
  | fatal (e : LexError)
  | outOfFuel
  deriving DecidableEq, Repr

/-- The globals `tokens`, `nTokens` (the length of the list) and `line`. -/
structure LexState where
  tokens : List Token
  line : Nat
  deriving DecidableEq, Repr

/-- The terminator of a C string. -/
def NUL : Char := '\x00'

/-- The character `*pch`: the head of the rest of the buffer, NUL at its end. -/
def cur (pch : List Char) : Char := pch.headD NUL

/-- The characters from pointer `b` up to pointer `e` further on in the same
buffer. -/
def between (b e : List Char) : List Char := b.take (b.length - e.length)

/-- `isdigit` in the C locale. -/
def isdigit (c : Char) : Bool := c.isDigit

/-- `isalpha` in the C locale. -/
def isalpha (c : Char) : Bool := c.isAlpha

/-- `isalnum` in the C locale. -/
def isalnum (c : Char) : Bool := c.isAlphanum

/-- `addTk`: fatal when the array is full, else appends a token with the given
code and the current line; the new token is the last of the list. -/
def addTk (st : LexState) (code : Code) : Except LexError LexState :=
  if st.tokens.length = MAX_TOKENS then .error .tooManyTokens
  else .ok { st with tokens := st.tokens ++ [{ code := code, line := st.line, payload := .none }] }

/-- A store through the pointer `tk` that `addTk` just returned: the union of
the last token is overwritten. -/
def setPayload : List Token → Payload → List Token
  | [], _ => []
  | [t], p => [{ t with payload := p }]
  | t :: u :: ts, p => t :: setPayload (u :: ts) p

/-- `copyn(dst, begin, end)`: fatal when more than `MAX_STR` characters lie
between the two pointers, else the copied text. -/
def copyn (b e : List Char) : Except LexError (List Char) :=
  if b.length - e.length > MAX_STR then .error .stringTooLong
  else .ok (between b e)

/-- The value of a run of decimal digits. -/
def decimalValue (ds : List Char) : Nat :=
  ds.foldl (fun acc c => 10 * acc + (c.toNat - 48)) 0

/-- `atoi` on a run of decimal digits (the only texts `tokenize` hands to it).
A value outside `int` is undefined in C; the model follows glibc, where `atoi`
is `strtol` (which saturates at `LONG_MAX`) cast to `int`. -/
def atoi (text : List Char) : Int :=
  let m : Nat := min (decimalValue text) (2 ^ 63 - 1) % 2 ^ 32
  if m < 2 ^ 31 then (m : Int) else (m : Int) - 2 ^ 32

/-- The `strcmp` chain of `tokenize`: the code of a keyword, `none` for any
other text. -/
def keyword (text : List Char) : Option Code :=
  if text = ['i', 'n', 't'] then some .TYPE_INT
  else if text = ['r', 'e', 'a', 'l'] then some .TYPE_REAL
  else if text = ['s', 't', 'r'] then some .TYPE_STR
  else if text = ['v', 'a', 'r'] then some .VAR
  else if text = ['i', 'f'] then some .IF
  else if text = ['e', 'l', 's', 'e'] then some .ELSE
  else if text = ['w', 'h', 'i', 'l', 'e'] then some .WHILE
  else if text = ['r', 'e', 't', 'u', 'r', 'n'] then some .RETURN
  else if text = ['f', 'u', 'n', 'c', 't', 'i', 'o', 'n'] then some .FUNCTION
  else if text = ['e', 'n', 'd'] then some .END
  else if text = ['a', 'n', 'd'] then some .AND
  else if text = ['o', 'r'] then some .OR
  else none

/-- The shape `addTk(code); pch += k; break;` of the one- and two-character
cases: `rest` is the pointer after the step. -/
def emit (st : LexState) (code : Code) (rest : List Char) :
    Except LexError (List Char × LexState) :=
  match addTk st code with
  | .error e => .error e
  | .ok st => .ok (rest, st)

/-- The case of an opening double quote in `tokenize`: scan to the closing
quote or the end of the input (newlines in between are skipped like any other
character), then `addTk(STR)` and `copyn` of the characters in between. -/
def lexString (pch : List Char) (st : LexState) : Except LexError (List Char × LexState) :=
  let start := pch.tail
  let p := start.dropWhile (fun x => x != NUL && x != '"')
  if cur p = '"' then
    match addTk st .STR with
    | .error e => .error e
    | .ok st =>
      match copyn start p with
      | .error e => .error e
      | .ok text => .ok (p.tail, { st with tokens := setPayload st.tokens (.text text) })
  else .error (.missingQuote st.line)

/-- The branch `if (isdigit(*pch))` of the default case: an integer or a real
literal. -/
def lexNumber (pch : List Char) (st : LexState) : Except LexError (List Char × LexState) :=
  let start := pch
  let p := pch.dropWhile isdigit
  if cur p = '.' then
    let p := p.tail
    if !isdigit (cur p) then .error (.realWithoutDigits st.line)
    else
      let p := p.dropWhile isdigit
      match addTk st .REAL with
      | .error e => .error e
      | .ok st =>
        match copyn start p with
        | .error e => .error e
        | .ok text => .ok (p, { st with tokens := setPayload st.tokens (.r text) })
  else
    match addTk st .INT with
    | .error e => .error e
    | .ok st =>
      match copyn start p with
      | .error e => .error e
      | .ok text => .ok (p, { st with tokens := setPayload st.tokens (.i (atoi text)) })

/-- The branch `else if (isalpha(*pch) || *pch == '_')` of the default case: a
keyword or an identifier. -/
def lexWord (pch : List Char) (st : LexState) : Except LexError (List Char × LexState) :=
  let start := pch
  let p := pch.tail.dropWhile (fun x => isalnum x || x == '_')
  match copyn start p with
  | .error e => .error e
  | .ok text =>
    match keyword text with
    | some k => emit st k p
    | none =>
      match addTk st .ID with
      | .error e => .error e
      | .ok st => .ok (p, { st with tokens := setPayload st.tokens (.text text) })

/-- One round of the `while (*pch)` loop of `tokenize`, entered with
`*pch != 0`: the `switch`. It yields the advanced pointer and the new globals,
or the fatal diagnostic. -/
def lexStep (pch : List Char) (st : LexState) : Except LexError (List Char × LexState) :=
  let c := cur pch
  if c = ' ' ∨ c = '\t' ∨ c = '\r' then .ok (pch.tail, st)
  else if c = '\n' then .ok (pch.tail, { st with line := st.line + 1 })
  else if c = '#' then .ok (pch.dropWhile (fun x => x != NUL && x != '\n'), st)
  else if c = '"' then lexString pch st
  else if c = ',' then emit st .COMMA pch.tail
  else if c = ':' then emit st .COLON pch.tail
  else if c = ';' then emit st .SEMICOLON pch.tail
  else if c = '(' then emit st .LPAR pch.tail
  else if c = ')' then emit st .RPAR pch.tail
  else if c = '=' then
    if cur pch.tail = '=' then emit st .EQUAL pch.tail.tail
    else emit st .ASSIGN pch.tail
  else if c = '+' then emit st .ADD pch.tail
  else if c = '-' then emit st .SUB pch.tail
  else if c = '*' then emit st .MUL pch.tail
  else if c = '/' then emit st .DIV pch.tail
  else if c = '!' then
    if cur pch.tail = '=' then emit st .NOTEQ pch.tail.tail
    else emit st .NOT pch.tail
  else if c = '<' then emit st .LESS pch.tail
  else if c = '>' then
    if cur pch.tail = '=' then emit st .GREATEREQ pch.tail.tail
    else emit st .GREATER pch.tail
  else if isdigit c then lexNumber pch st
  else if isalpha c ∨ c = '_' then lexWord pch st
  else .error (.unknownSymbol c st.line)

/-- The loop `while (*pch) { switch ... }` of `tokenize` and the closing
`addTk(FINISH)`. -/
def tokenizeLoop : Nat → List Char → LexState → Lexed
  | 0, _, _ => .outOfFuel
  | fuel + 1, pch, st =>
    if cur pch = NUL then
      match addTk st .FINISH with
      | .error e => .fatal e
      | .ok st => .tokens st.tokens
    else
      match lexStep pch st with
      | .error e => .fatal e
      | .ok (pch, st) => tokenizeLoop fuel pch st

/-- `tokenize(pch)`, run once on the initial globals `nTokens = 0`, `line = 1`.
Every round of the loop moves the pointer forward, so one unit of fuel per
character and one for the end is enough (`tokenizeLoop_fuel`). -/
def tokenize (pch : List Char) : Lexed :=
  tokenizeLoop (pch.length + 1) pch { tokens := [], line := 1 }

/-! ## parser.c -/

/-- How a grammar procedure ends. `ret b iTk`: it returned `b`, leaving the
cursor at `iTk`. `fatal iTk line msg`: `tkerr(msg)` was called with the cursor
at `iTk`, printed `tokens[iTk].line` and ended the process. `outOfRange iTk`:
`tokens[iTk]` was read at or beyond `nTokens`, outside the part of the array
that `tokenize` filled. `outOfFuel`: the fuel of the model ran out. -/
inductive Res
  | ret (b : Bool) (iTk : Nat)
  | fatal (iTk : Nat) (line : Nat) (msg : String)
  | outOfRange (iTk : Nat)
  | outOfFuel
  deriving DecidableEq, Repr

/-- The statement `if (r) t else e`, where `r` is a call that returns a
`bool`; `t` and `e` go on from the cursor the call left. -/
def Res.branch (r : Res) (t e : Nat → Res) : Res :=
  match r with
  | .ret true i => t i
  | .ret false i => e i
  | .fatal i l m => .fatal i l m
  | .outOfRange i => .outOfRange i
  | .outOfFuel => .outOfFuel

/-- The short-circuit `r || e`. -/
def Res.orElse (r : Res) (e : Nat → Res) : Res :=
  r.branch (fun i => .ret true i) e

/-- The sequence `r; k`, where the value of `r` is dropped. -/
def Res.andThen (r : Res) (k : Nat → Res) : Res :=
  r.branch k k

/-- `tkerr`: reads `tokens[iTk].line` for the message and exits. -/
def tkerr (toks : List Token) (msg : String) (iTk : Nat) : Res :=
  match toks[iTk]? with
  | none => .outOfRange iTk
  | some t => .fatal iTk t.line msg

/-- `consume`: compares `tokens[iTk].code` with `code` and steps over the
token when they agree. (The global `consumed` is written here and read
nowhere, so it is not kept.) -/
def consume (toks : List Token) (code : Code) (iTk : Nat) : Res :=
  match toks[iTk]? with
  | none => .outOfRange iTk
  | some t => if t.code = code then .ret true (iTk + 1) else .ret false iTk

/-- `baseType ::= TYPE_INT | TYPE_REAL | TYPE_STR` -/
def baseType (toks : List Token) (i : Nat) : Res :=
  (consume toks .TYPE_INT i).orElse fun i =>
    (consume toks .TYPE_REAL i).orElse fun i => consume toks .TYPE_STR i

/-- `defVar ::= VAR ID COLON baseType SEMICOLON` -/
def defVar (toks : List Token) (i : Nat) : Res :=
  (consume toks .VAR i).branch
    (fun i => (consume toks .ID i).branch
      (fun i => (consume toks .COLON i).branch
        (fun i => (baseType toks i).branch
          (fun i => (consume toks .SEMICOLON i).branch
            (fun i => .ret true i)
            (tkerr toks "Expected ';' after variable declaration"))
          (tkerr toks "Expected base type after ':' in variable declaration"))
        (tkerr toks "Expected ':' after variable name in declaration"))
      (tkerr toks "Expected identifier after 'var'"))
    (fun i => .ret false i)

/-- The loop `while (defVar()) {}` of `defFunc`. -/
def defVarLoop (toks : List Token) : Nat → Nat → Res
  | 0, _ => .outOfFuel
  | fuel + 1, i =>
    (defVar toks i).branch (fun i => defVarLoop toks fuel i) (fun i => .ret true i)

/-- `funcParam ::= ID COLON baseType` -/
def funcParam (toks : List Token) (i : Nat) : Res :=
  (consume toks .ID i).branch
    (fun i => (consume toks .COLON i).branch
      (fun i => (baseType toks i).branch
        (fun i => .ret true i)
        (tkerr toks "Expected base type after ':' in parameter declaration"))
      (tkerr toks "Expected ':' after parameter name"))
    (fun i => .ret false i)

/-- The loop `while (consume(COMMA)) { if (!funcParam()) tkerr(...); }` of
`funcParams`. -/
def funcParamsLoop (toks : List Token) : Nat → Nat → Res
  | 0, _ => .outOfFuel
  | fuel + 1, i =>
    (consume toks .COMMA i).branch
      (fun i => (funcParam toks i).branch
        (fun i => funcParamsLoop toks fuel i)
        (tkerr toks "Expected parameter after ','"))
      (fun i => .ret true i)

/-- `funcParams ::= funcParam ( COMMA funcParam )*` -/
def funcParams (toks : List Token) (fuel : Nat) (i : Nat) : Res :=
  (funcParam toks i).branch
    (fun i => (funcParamsLoop toks fuel i).andThen fun i => .ret true i)
    (fun i => .ret false i)

mutual

/-- `block ::= instr+` -/
def block (toks : List Token) : Nat → Nat → Res
  | 0, _ => .outOfFuel
  | fuel + 1, i =>
    (instr toks fuel i).branch
      (fun i => (blockLoop toks fuel i).andThen fun i => .ret true i)
      (fun i => .ret false i)
termination_by structural fuel => fuel

/-- The loop `while (instr()) {}` of `block`. -/
def blockLoop (toks : List Token) : Nat → Nat → Res
  | 0, _ => .outOfFuel
  | fuel + 1, i =>
    (instr toks fuel i).branch (fun i => blockLoop toks fuel i) (fun i => .ret true i)
termination_by structural fuel => fuel

/-- The procedure `instr`, whose comment in the source reads
`instr ::= expr? SEMICOLON | IF LPAR expr RPAR block ( ELSE block )? END
| RETURN expr SEMICOLON | WHILE LPAR expr RPAR block END`. -/
def instr (toks : List Token) : Nat → Nat → Res
  | 0, _ => .outOfFuel
  | fuel + 1, i =>
    (expr toks fuel i).branch
      (fun i => (consume toks .SEMICOLON i).branch
        (fun i => .ret true i)
        (tkerr toks "Expected ';' after expression"))
      (fun i => (consume toks .IF i).branch
        (fun i => (consume toks .LPAR i).branch
          (fun i => (expr toks fuel i).branch
            (fun i => (consume toks .RPAR i).branch
              (fun i => (block toks fuel i).branch
                (fun i =>
                  ((consume toks .ELSE i).branch
                    (fun i => (block toks fuel i).branch
                      (fun i => .ret true i)
                      (tkerr toks "Expected block after 'else'"))
                    (fun i => .ret false i)).andThen fun i =>
                  (consume toks .END i).branch
                    (fun i => .ret true i)
                    (tkerr toks "Expected 'end' after 'if' block"))
                (tkerr toks "Expected block after 'if' condition"))
              (tkerr toks "Expected ')' after 'if' condition"))
            (tkerr toks "Expected expression after '(' in 'if' condition"))
          (tkerr toks "Expected '(' after 'if'"))
        (fun i => (consume toks .RETURN i).branch
          (fun i => (expr toks fuel i).branch
            (fun i => (consume toks .SEMICOLON i).branch
              (fun i => .ret true i)
              (tkerr toks "Expected ';' after 'return' expression"))
            (tkerr toks "Expected expression after 'return'"))
          (fun i => (consume toks .WHILE i).branch
            (fun i => (consume toks .LPAR i).branch
              (fun i => (expr toks fuel i).branch
                (fun i => (consume toks .RPAR i).branch
                  (fun i => (block toks fuel i).branch
                    (fun i => (consume toks .END i).branch
                      (fun i => .ret true i)
                      (tkerr toks "Expected 'end' after 'while' block"))
                    (tkerr toks "Expected block after 'while' condition"))
                  (tkerr toks "Expected ')' after 'while' condition"))
                (tkerr toks "Expected expression after '(' in 'while' condition"))
              (tkerr toks "Expected '(' after 'while'"))
            (fun i => .ret false i))))
termination_by structural fuel => fuel

/-- `expr ::= exprLogic` -/
def expr (toks : List Token) : Nat → Nat → Res
  | 0, _ => .outOfFuel
  | fuel + 1, i => exprLogic toks fuel i
termination_by structural fuel => fuel

/-- `exprLogic ::= exprAssign ( ( AND | OR ) exprAssign )*` -/
def exprLogic (toks : List Token) : Nat → Nat → Res
  | 0, _ => .outOfFuel
  | fuel + 1, i =>
    (exprAssign toks fuel i).branch
      (fun i => (exprLogicLoop toks fuel i).andThen fun i => .ret true i)
      (fun i => .ret false i)
termination_by structural fuel => fuel

/-- The loop `while (consume(AND) || consume(OR)) { ... }` of `exprLogic`. -/
def exprLogicLoop (toks : List Token) : Nat → Nat → Res
  | 0, _ => .outOfFuel
  | fuel + 1, i =>
    ((consume toks .AND i).orElse fun i => consume toks .OR i).branch
      (fun i => (exprAssign toks fuel i).branch
        (fun i => exprLogicLoop toks fuel i)
        (tkerr toks "Expected expression after '&&' or '||'"))
      (fun i => .ret true i)
termination_by structural fuel => fuel

/-- `exprAssign ::= ( ID ASSIGN )? exprComp`, with the step back `iTk--` when
the identifier is not followed by ASSIGN. -/
def exprAssign (toks : List Token) : Nat → Nat → Res
  | 0, _ => .outOfFuel
  | fuel + 1, i =>
    (consume toks .ID i).branch
      (fun i => (consume toks .ASSIGN i).branch
        (fun i => (exprComp toks fuel i).branch
          (fun i => .ret true i)
          (tkerr toks "Expected expression after '='"))
        (fun i => exprComp toks fuel (i - 1)))
      (fun i => exprComp toks fuel i)
termination_by structural fuel => fuel

/-- `exprComp ::= exprAdd ( ( LESS | EQUAL ) exprAdd )?` -/
def exprComp (toks : List Token) : Nat → Nat → Res
  | 0, _ => .outOfFuel
  | fuel + 1, i =>
    (exprAdd toks fuel i).branch
      (fun i => ((consume toks .LESS i).orElse fun i => consume toks .EQUAL i).branch
        (fun i => (exprAdd toks fuel i).branch
          (fun i => .ret true i)
          (tkerr toks "Expected expression after comparison operator"))
        (fun i => .ret true i))
      (fun i => .ret false i)
termination_by structural fuel => fuel

/-- `exprAdd ::= exprMul ( ( ADD | SUB ) exprMul )*` -/
def exprAdd (toks : List Token) : Nat → Nat → Res
  | 0, _ => .outOfFuel
  | fuel + 1, i =>
    (exprMul toks fuel i).branch
      (fun i => (exprAddLoop toks fuel i).andThen fun i => .ret true i)
      (fun i => .ret false i)
termination_by structural fuel => fuel

/-- The loop `while (consume(ADD) || consume(SUB)) { ... }` of `exprAdd`. -/
def exprAddLoop (toks : List Token) : Nat → Nat → Res
  | 0, _ => .outOfFuel
  | fuel + 1, i =>
    ((consume toks .ADD i).orElse fun i => consume toks .SUB i).branch
      (fun i => (exprMul toks fuel i).branch
        (fun i => exprAddLoop toks fuel i)
        (tkerr toks "Expected expression after '+' or '-'"))
      (fun i => .ret true i)
termination_by structural fuel => fuel

/-- `exprMul ::= exprPrefix ( ( MUL | DIV ) exprPrefix )*` -/
def exprMul (toks : List Token) : Nat → Nat → Res
  | 0, _ => .outOfFuel
  | fuel + 1, i =>
    ( exprPrefix toks fuel i).branch
      (fun i => (exprMulLoop toks fuel i).andThen fun i => .ret true i)
      (fun i => .ret false i)
termination_by structural fuel => fuel

/-- The loop `while (consume(MUL) || consume(DIV)) { ... }` of `exprMul`. -/
def exprMulLoop (toks : List Token) : Nat → Nat → Res
  | 0, _ => .outOfFuel
  | fuel + 1, i =>
    ((consume toks .MUL i).orElse fun i => consume toks .DIV i).branch
      (fun i => ( exprPrefix toks fuel i).branch
        (fun i => exprMulLoop toks fuel i)
        (tkerr toks "Expected expression after '*' or '/'"))
      (fun i => .ret true i)
termination_by structural fuel => fuel

/-- `exprPrefix ::= ( SUB | NOT )? factor`: the statement
`consume(SUB) || consume(NOT);` and then `return factor();`. -/
def exprPrefix (toks : List Token) : Nat → Nat → Res
  | 0, _ => .outOfFuel
  | fuel + 1, i =>
    ((consume toks .SUB i).orElse fun i => consume toks .NOT i).andThen fun i =>
      factor toks fuel i
termination_by structural fuel => fuel

/-- `factor ::= INT | REAL | STR | LPAR expr RPAR
| ID ( LPAR ( expr ( COMMA expr )* )? RPAR )?` -/
def factor (toks : List Token) : Nat → Nat → Res
  | 0, _ => .outOfFuel
  | fuel + 1, i =>
    ((consume toks .INT i).orElse fun i =>
      (consume toks .REAL i).orElse fun i => consume toks .STR i).branch
      (fun i => .ret true i)
      (fun i => (consume toks .LPAR i).branch
        (fun i => (expr toks fuel i).branch
          (fun i => (consume toks .RPAR i).branch
            (fun i => .ret true i)
            (tkerr toks "Expected ')' after expression"))
          (tkerr toks "Expected expression after '('"))
        (fun i => (consume toks .ID i).branch
          (fun i => (consume toks .LPAR i).branch
            (fun i =>
              ((expr toks fuel i).branch
                (fun i => factorArgsLoop toks fuel i)
                (fun i => .ret false i)).andThen fun i =>
              (consume toks .RPAR i).branch
                (fun i => .ret true i)
                (tkerr toks "Expected ')' after function call arguments"))
            (fun i => .ret true i))
          (fun i => .ret false i)))
termination_by structural fuel => fuel

/-- The loop `while (consume(COMMA)) { if (!expr()) tkerr(...); }` of
`factor`. -/
def factorArgsLoop (toks : List Token) : Nat → Nat → Res
  | 0, _ => .outOfFuel
  | fuel + 1, i =>
    (consume toks .COMMA i).branch
      (fun i => (expr toks fuel i).branch
        (fun i => factorArgsLoop toks fuel i)
        (tkerr toks "Expected expression after ','"))
      (fun i => .ret true i)
termination_by structural fuel => fuel

end

/-- `defFunc ::= FUNCTION ID LPAR funcParams? RPAR COLON baseType defVar* block END` -/
def defFunc (toks : List Token) (fuel : Nat) (i : Nat) : Res :=
  (consume toks .FUNCTION i).branch
    (fun i => (consume toks .ID i).branch
      (fun i => (consume toks .LPAR i).branch
        (fun i => (funcParams toks fuel i).andThen fun i =>
          (consume toks .RPAR i).branch
            (fun i => (consume toks .COLON i).branch
              (fun i => (baseType toks i).branch
                (fun i => (defVarLoop toks fuel i).andThen fun i =>
                  (block toks fuel i).branch
                    (fun i => (consume toks .END i).branch
                      (fun i => .ret true i)
                      (tkerr toks "Expected 'end' after function block"))
                    (tkerr toks "Expected block in function body"))
                (tkerr toks "Expected base type after ':' in function return type"))
              (tkerr toks "Expected ':' after function parameters"))
            (tkerr toks "Expected ')' after function parameters"))
        (tkerr toks "Expected '(' after function name"))
      (tkerr toks "Expected identifier after 'function'"))
    (fun i => .ret false i)

/-- The loop `while (defVar() || defFunc() || block()) {}` of `program`. -/
def programLoop (toks : List Token) : Nat → Nat → Res
  | 0, _ => .outOfFuel
  | fuel + 1, i =>
    ((defVar toks i).orElse fun i =>
      (defFunc toks fuel i).orElse fun i => block toks fuel i).branch
      (fun i => programLoop toks fuel i)
      (fun i => .ret true i)


/-- `program ::= ( defVar | defFunc | block )* FINISH` -/
def program (toks : List Token) (fuel : Nat) (i : Nat) : Res :=
  (programLoop toks fuel i).andThen fun i =>
    (consume toks .FINISH i).branch
      (fun i => .ret true i)
      (tkerr toks "Expected end of program")

/-- The fuel `parse` runs on: twelve procedures can be entered one inside the
other before a token is consumed. -/
def parseFuel (toks : List Token) : Nat := 12 * (toks.length + 1)

/-- `parse`: `iTk = 0`, then `program()`; the success line is printed exactly
when the result is `ret true _`. -/
def parse (toks : List Token) : Res := program toks (parseFuel toks) 0

/-- The token sequence with the given codes, every token on line 1 and without
payload: the recognizer reads the codes only. -/
def ofCodes (cs : List Code) : List Token :=
  cs.map fun c => { code := c, line := 1, payload := .none }

/-! ## The grammar of the specification -/

/-- The rules of the grammar of the specification (section 4.2). Two more
names spell out repetitions the rules write inline: `defVars` is `defVar*`,
`args` is `expr ( ',' expr )*`. -/
inductive NT
  | program | defVar | baseType | defFunc | funcParams | funcParam | block | instr
  | expr | exprLogic | exprAssign | exprComp | exprAdd | exprMul | exprPrefix | factor
  | defVars | args
  deriving DecidableEq, Repr

/-- The grammar of the specification read as a context-free grammar over token
codes: `Derives n w` says that the rule `n` derives the code sequence `w`.
A repetition `x*` is unfolded one `x` at a time from the left, an option `x?`
is two alternatives. -/
inductive Derives : NT → List Code → Prop
  | program_end : Derives .program [.FINISH]
  | program_defVar {u v} : Derives .defVar u → Derives .program v → Derives .program (u ++ v)
  | program_defFunc {u v} : Derives .defFunc u → Derives .program v → Derives .program (u ++ v)
  | program_block {u v} : Derives .block u → Derives .program v → Derives .program (u ++ v)
  | defVar {b} : Derives .baseType b →
      Derives .defVar ([.VAR, .ID, .COLON] ++ b ++ [.SEMICOLON])
  | baseType_int : Derives .baseType [.TYPE_INT]
  | baseType_real : Derives .baseType [.TYPE_REAL]
  | baseType_str : Derives .baseType [.TYPE_STR]
  | defFunc {b d k} : Derives .baseType b → Derives .defVars d → Derives .block k →
      Derives .defFunc ([.FUNCTION, .ID, .LPAR, .RPAR, .COLON] ++ b ++ d ++ k ++ [.END])
  | defFunc_params {ps b d k} : Derives .funcParams ps → Derives .baseType b →
      Derives .defVars d → Derives .block k →
      Derives .defFunc ([.FUNCTION, .ID, .LPAR] ++ ps ++ [.RPAR, .COLON] ++ b ++ d ++ k ++ [.END])
  | defVars_nil : Derives .defVars []
  | defVars_cons {u v} : Derives .defVar u → Derives .defVars v → Derives .defVars (u ++ v)
  | funcParams_one {p} : Derives .funcParam p → Derives .funcParams p
  | funcParams_cons {p ps} : Derives .funcParam p → Derives .funcParams ps →
      Derives .funcParams (p ++ [.COMMA] ++ ps)
  | funcParam {b} : Derives .baseType b → Derives .funcParam ([.ID, .COLON] ++ b)
  | block_one {u} : Derives .instr u → Derives .block u
  | block_cons {u v} : Derives .instr u → Derives .block v → Derives .block (u ++ v)
  | instr_empty : Derives .instr [.SEMICOLON]
  | instr_expr {e} : Derives .expr e → Derives .instr (e ++ [.SEMICOLON])
  | instr_if {e b} : Derives .expr e → Derives .block b →
      Derives .instr ([.IF, .LPAR] ++ e ++ [.RPAR] ++ b ++ [.END])
  | instr_if_else {e b c} : Derives .expr e → Derives .block b → Derives .block c →
      Derives .instr ([.IF, .LPAR] ++ e ++ [.RPAR] ++ b ++ [.ELSE] ++ c ++ [.END])
  | instr_return {e} : Derives .expr e → Derives .instr ([.RETURN] ++ e ++ [.SEMICOLON])
  | instr_while {e b} : Derives .expr e → Derives .block b →
      Derives .instr ([.WHILE, .LPAR] ++ e ++ [.RPAR] ++ b ++ [.END])
  | expr {e} : Derives .exprLogic e → Derives .expr e
  | exprLogic_one {a} : Derives .exprAssign a → Derives .exprLogic a
  | exprLogic_and {a l} : Derives .exprAssign a → Derives .exprLogic l →
      Derives .exprLogic (a ++ [.AND] ++ l)
  | exprLogic_or {a l} : Derives .exprAssign a → Derives .exprLogic l →
      Derives .exprLogic (a ++ [.OR] ++ l)
  | exprAssign_plain {c} : Derives .exprComp c → Derives .exprAssign c
  | exprAssign_assign {c} : Derives .exprComp c → Derives .exprAssign ([.ID, .ASSIGN] ++ c)
  | exprComp_one {a} : Derives .exprAdd a → Derives .exprComp a
  | exprComp_less {a b} : Derives .exprAdd a → Derives .exprAdd b →
      Derives .exprComp (a ++ [.LESS] ++ b)
  | exprComp_equal {a b} : Derives .exprAdd a → Derives .exprAdd b →
      Derives .exprComp (a ++ [.EQUAL] ++ b)
  | exprAdd_one {m} : Derives .exprMul m → Derives .exprAdd m
  | exprAdd_add {m a} : Derives .exprMul m → Derives .exprAdd a →
      Derives .exprAdd (m ++ [.ADD] ++ a)
  | exprAdd_sub {m a} : Derives .exprMul m → Derives .exprAdd a →
      Derives .exprAdd (m ++ [.SUB] ++ a)
  | exprMul_one {p} : Derives .exprPrefix p → Derives .exprMul p
  | exprMul_mul {p m} : Derives .exprPrefix p → Derives .exprMul m →
      Derives .exprMul (p ++ [.MUL] ++ m)
  | exprMul_div {p m} : Derives .exprPrefix p → Derives .exprMul m →
      Derives .exprMul (p ++ [.DIV] ++ m)
  | exprPrefix_plain {f} : Derives .factor f → Derives .exprPrefix f
  | exprPrefix_sub {f} : Derives .factor f → Derives .exprPrefix ([.SUB] ++ f)
  | exprPrefix_not {f} : Derives .factor f → Derives .exprPrefix ([.NOT] ++ f)
  | factor_int : Derives .factor [.INT]
  | factor_real : Derives .factor [.REAL]
  | factor_str : Derives .factor [.STR]
  | factor_paren {e} : Derives .expr e → Derives .factor ([.LPAR] ++ e ++ [.RPAR])
  | factor_id : Derives .factor [.ID]
  | factor_call : Derives .factor [.ID, .LPAR, .RPAR]
  | factor_call_args {a} : Derives .args a → Derives .factor ([.ID, .LPAR] ++ a ++ [.RPAR])
  | args_one {e} : Derives .expr e → Derives .args e
  | args_cons {e a} : Derives .expr e → Derives .args a → Derives .args (e ++ [.COMMA] ++ a)

/-- The codes of a token sequence: all the recognizer and the grammar look at. -/
def codes (toks : List Token) : List Code := toks.map (·.code)

/-- `parse` prints its success line: `program()` returned true. -/
def Accepts (toks : List Token) : Prop := ∃ j, parse toks = .ret true j

/-! ## Definitions for the statements and proofs -/

/-- What a round of the loop that does not end in a diagnostic has done: the
pointer moved forward, the line counter did not go down, and at most one token
was added, on the current line and not the end-marker. -/
def StepInv (pch : List Char) (st : LexState) (r : Except LexError (List Char × LexState)) :
    Prop :=
  ∀ pch' st', r = .ok (pch', st') →
    pch'.length < pch.length ∧ st.line ≤ st'.line ∧
    (st'.tokens = st.tokens ∨
      ∃ t, st'.tokens = st.tokens ++ [t] ∧ t.code ≠ .FINISH ∧ t.line = st.line)

/-- The characters that have a case of their own in the `switch` of
`tokenize`. -/
def specials : List Char :=
  [' ', '\t', '\r', '\n', '#', '"', ',', ':', ';', '(', ')', '=', '+', '-', '*', '/', '!',
    '<', '>']

/-- The keywords of the specification (section 4.1) with their token codes. -/
def keywordTable : List (List Char × Code) :=
  [(['i', 'n', 't'], .TYPE_INT), (['r', 'e', 'a', 'l'], .TYPE_REAL),
   (['s', 't', 'r'], .TYPE_STR), (['v', 'a', 'r'], .VAR), (['i', 'f'], .IF),
   (['e', 'l', 's', 'e'], .ELSE), (['w', 'h', 'i', 'l', 'e'], .WHILE),
   (['r', 'e', 't', 'u', 'r', 'n'], .RETURN),
   (['f', 'u', 'n', 'c', 't', 'i', 'o', 'n'], .FUNCTION), (['e', 'n', 'd'], .END),
   (['a', 'n', 'd'], .AND), (['o', 'r'], .OR)]

/-- A call started at cursor `p` ends with the result `r`: some amount of fuel
is enough for it. -/
def Returns (f : Nat → Nat → Res) (p : Nat) (r : Res) : Prop :=
  ∃ fuel, f fuel p = r ∧ r ≠ .outOfFuel

/-- The result `r` of a run agrees with the result `r'` of a run on more fuel:
either the first run ran out of fuel, or both ended the same way. -/
def FuelLe (r r' : Res) : Prop := r = .outOfFuel ∨ r = r'

/-- The fifteen procedures and loops of the mutual recursion, run on `n` and
on `m` units of fuel, agree wherever the first run ends. -/
structure MonoAll (toks : List Token) (n m : Nat) : Prop where
  hblock : ∀ i, FuelLe (block toks n i) (block toks m i)
  hblockLoop : ∀ i, FuelLe (blockLoop toks n i) (blockLoop toks m i)
  hinstr : ∀ i, FuelLe (instr toks n i) (instr toks m i)
  hexpr : ∀ i, FuelLe (expr toks n i) (expr toks m i)
  hexprLogic : ∀ i, FuelLe (exprLogic toks n i) (exprLogic toks m i)
  hexprLogicLoop : ∀ i, FuelLe (exprLogicLoop toks n i) (exprLogicLoop toks m i)
  hexprAssign : ∀ i, FuelLe (exprAssign toks n i) (exprAssign toks m i)
  hexprComp : ∀ i, FuelLe (exprComp toks n i) (exprComp toks m i)
  hexprAdd : ∀ i, FuelLe (exprAdd toks n i) (exprAdd toks m i)
  hexprAddLoop : ∀ i, FuelLe (exprAddLoop toks n i) (exprAddLoop toks m i)
  hexprMul : ∀ i, FuelLe (exprMul toks n i) (exprMul toks m i)
  hexprMulLoop : ∀ i, FuelLe (exprMulLoop toks n i) (exprMulLoop toks m i)
  hexprPre : ∀ i, FuelLe ( exprPrefix toks n i) ( exprPrefix toks m i)
  hfactor : ∀ i, FuelLe (factor toks n i) (factor toks m i)
  hfactorArgsLoop : ∀ i, FuelLe (factorArgsLoop toks n i) (factorArgsLoop toks m i)

/-- The result `r` leaves the cursor at or before `k` whenever it is a
return. -/
structure Below (k : Nat) (r : Res) : Prop where
  le : ∀ b j, r = .ret b j → j ≤ k

/-- The codes that no `consume` of the recognizer asks for, or only the
`consume` that opens a definite construct: FUNCTION in `defFunc`, IF and
WHILE in `instr`. -/
def wallCode : Code → Bool
  | .FUNCTION | .IF | .WHILE | .NOTEQ | .GREATER | .GREATEREQ | .BEGIN | .SPACE | .COMMENT => true
  | _ => false

/-- The rest of `defFunc` once `consume(FUNCTION)` has succeeded. -/
def defFuncTail (toks : List Token) (fuel : Nat) (i : Nat) : Res :=
  (consume toks .ID i).branch
    (fun i => (consume toks .LPAR i).branch
      (fun i => (funcParams toks fuel i).andThen fun i =>
        (consume toks .RPAR i).branch
          (fun i => (consume toks .COLON i).branch
            (fun i => (baseType toks i).branch
              (fun i => (defVarLoop toks fuel i).andThen fun i =>
                (block toks fuel i).branch
                  (fun i => (consume toks .END i).branch
                    (fun i => .ret true i)
                    (tkerr toks "Expected 'end' after function block"))
                  (tkerr toks "Expected block in function body"))
              (tkerr toks "Expected base type after ':' in function return type"))
            (tkerr toks "Expected ':' after function parameters"))
          (tkerr toks "Expected ')' after function parameters"))
      (tkerr toks "Expected '(' after function name"))
    (tkerr toks "Expected identifier after 'function'")

/-- The rest of the IF alternative of `instr` once `consume(IF)` has
succeeded; `fuel` is the fuel of the calls `instr` makes. -/
def ifTail (toks : List Token) (fuel : Nat) (i : Nat) : Res :=
  (consume toks .LPAR i).branch
    (fun i => (expr toks fuel i).branch
      (fun i => (consume toks .RPAR i).branch
        (fun i => (block toks fuel i).branch
          (fun i =>
            ((consume toks .ELSE i).branch
              (fun i => (block toks fuel i).branch
                (fun i => .ret true i)
                (tkerr toks "Expected block after 'else'"))
              (fun i => .ret false i)).andThen fun i =>
            (consume toks .END i).branch
              (fun i => .ret true i)
              (tkerr toks "Expected 'end' after 'if' block"))
          (tkerr toks "Expected block after 'if' condition"))
        (tkerr toks "Expected ')' after 'if' condition"))
      (tkerr toks "Expected expression after '(' in 'if' condition"))
    (tkerr toks "Expected '(' after 'if'")

/-- The rest of the WHILE alternative of `instr` once `consume(WHILE)` has
succeeded; `fuel` is the fuel of the calls `instr` makes. -/
def whileTail (toks : List Token) (fuel : Nat) (i : Nat) : Res :=
  (consume toks .LPAR i).branch
    (fun i => (expr toks fuel i).branch
      (fun i => (consume toks .RPAR i).branch
        (fun i => (block toks fuel i).branch
          (fun i => (consume toks .END i).branch
            (fun i => .ret true i)
            (tkerr toks "Expected 'end' after 'while' block"))
          (tkerr toks "Expected block after 'while' condition"))
        (tkerr toks "Expected ')' after 'while' condition"))
      (tkerr toks "Expected expression after '(' in 'while' condition"))
    (tkerr toks "Expected '(' after 'while'")

/-- Every procedure and loop of the mutual recursion, started at or before
`k` on `fuel` units of fuel, returns at or before `k`. -/
structure BelowAll (toks : List Token) (k fuel : Nat) : Prop where
  hblock : ∀ i, i ≤ k → Below k (block toks fuel i)
  hblockLoop : ∀ i, i ≤ k → Below k (blockLoop toks fuel i)
  hinstr : ∀ i, i ≤ k → Below k (instr toks fuel i)
  hexpr : ∀ i, i ≤ k → Below k (expr toks fuel i)
  hexprLogic : ∀ i, i ≤ k → Below k (exprLogic toks fuel i)
  hexprLogicLoop : ∀ i, i ≤ k → Below k (exprLogicLoop toks fuel i)
  hexprAssign : ∀ i, i ≤ k → Below k (exprAssign toks fuel i)
  hexprComp : ∀ i, i ≤ k → Below k (exprComp toks fuel i)
  hexprAdd : ∀ i, i ≤ k → Below k (exprAdd toks fuel i)
  hexprAddLoop : ∀ i, i ≤ k → Below k (exprAddLoop toks fuel i)
  hexprMul : ∀ i, i ≤ k → Below k (exprMul toks fuel i)
  hexprMulLoop : ∀ i, i ≤ k → Below k (exprMulLoop toks fuel i)
  hexprPre : ∀ i, i ≤ k → Below k ( exprPrefix toks fuel i)
  hfactor : ∀ i, i ≤ k → Below k (factor toks fuel i)
  hfactorArgsLoop : ∀ i, i ≤ k → Below k (factorArgsLoop toks fuel i)

/-- A token the cursor cannot pass: its code is one no procedure consumes
except to open a function definition, an `if` or a `while`, and the construct
it opens (if any) never returns past it. -/
structure Wall (toks : List Token) (k : Nat) (t : Token) : Prop where
  tok : toks[k]? = some t
  code : wallCode t.code = true
  func : t.code = .FUNCTION → ∀ fuel, Below k (defFuncTail toks fuel (k + 1))
  cond : t.code = .IF → ∀ fuel, Below k (ifTail toks fuel (k + 1))
  loop : t.code = .WHILE → ∀ fuel, Below k (whileTail toks fuel (k + 1))

/-- The codes of `toks` from index `p` on begin with `w`. -/
def CodesAt (toks : List Token) (p : Nat) (w : List Code) : Prop :=
  w <+: (codes toks).drop p

/-- The codes of the three base types. -/
def isBaseType : Code → Bool
  | .TYPE_INT | .TYPE_REAL | .TYPE_STR => true
  | _ => false

/-- The codes that can begin an instruction for `instr`: those that can begin
an expression, and IF, RETURN and WHILE. -/
def startsInstr : Code → Bool
  | .INT | .REAL | .STR | .LPAR | .ID | .SUB | .NOT | .IF | .RETURN | .WHILE => true
  | _ => false

/-- `( COMMA ID COLON baseType )*`, one round for each base type listed. -/
def moreParamCodes : List Code → List Code
  | [] => []
  | b :: bs => [.COMMA, .ID, .COLON, b] ++ moreParamCodes bs

/-- `funcParams?`: nothing, or `ID COLON baseType ( COMMA ID COLON baseType )*`,
with the base types of the parameters as listed. -/
def paramCodes : List Code → List Code
  | [] => []
  | b :: bs => [.ID, .COLON, b] ++ moreParamCodes bs

/-- `defVar*`: `VAR ID COLON baseType SEMICOLON` for each base type listed. -/
def defVarCodes : List Code → List Code
  | [] => []
  | b :: bs => [.VAR, .ID, .COLON, b, .SEMICOLON] ++ defVarCodes bs

/-- A complete function header `FUNCTION ID LPAR funcParams? RPAR COLON
baseType defVar*`: `ps` lists the base types of the parameters, `ret` is the
return type, `vs` lists the base types of the local variables. -/
def headerCodes (ps : List Code) (ret : Code) (vs : List Code) : List Code :=
  [.FUNCTION, .ID, .LPAR] ++ paramCodes ps ++ [.RPAR, .COLON, ret] ++ defVarCodes vs

/-- The codes that can begin an expression for `expr`. -/
def startsExpr : Code → Bool
  | .INT | .REAL | .STR | .LPAR | .ID | .SUB | .NOT => true
  | _ => false

/-- The loop of `tokenize`, run on `input`, stands at its head with the
pointer at `pch` and the globals `st`: it does so at the start, and after every
round that ended without a diagnostic. The pointer is then at the start of a
token, of a stretch of whitespace or of a comment, never inside a string
literal or a comment. -/
inductive TokenStart (input : List Char) : List Char → LexState → Prop
  | start : TokenStart input input { tokens := [], line := 1 }
  | step (pch pch' : List Char) (st st' : LexState) :
      TokenStart input pch st → cur pch ≠ NUL → lexStep pch st = .ok (pch', st') →
      TokenStart input pch' st'

/-- An input made of spaces, tabs, carriage returns, newlines and `#` comments
only; a comment runs to the next newline or to the end of the input. -/
inductive Blank : List Char → Prop
  | nil : Blank []
  | space (c : Char) (rest : List Char) :
      c = ' ' ∨ c = '\t' ∨ c = '\r' ∨ c = '\n' → Blank rest → Blank (c :: rest)
  | commentEnd (body : List Char) : '\n' ∉ body → Blank ('#' :: body)
  | commentLine (body rest : List Char) :
      '\n' ∉ body → Blank rest → Blank ('#' :: body ++ '\n' :: rest)

/-- What a round of the loop that does not end in a diagnostic has added to
the array: nothing, or one token, for which `addTk` found the array not full
and whose text, if it carries one, is at most `MAX_STR` characters long. -/
def StepCap (st : LexState) (r : Except LexError (List Char × LexState)) : Prop :=
  ∀ pch' st', r = .ok (pch', st') →
    st'.tokens = st.tokens ∨
      ∃ t, st'.tokens = st.tokens ++ [t] ∧ st.tokens.length ≠ MAX_TOKENS ∧
        ∀ s, t.payload = .text s → s.length ≤ MAX_STR

/-- How a round of the loop on an array that holds `ts` (result `r`) follows
the same round on an empty array (result `r0`) when that one ends without a
diagnostic: a round that adds nothing does the same on `ts`; a round that adds
a token ends in "Too many tokens." when `ts` fills the array and adds the same
token otherwise. -/
def Framed (ts : List Token) (r0 r : Except LexError (List Char × LexState)) : Prop :=
  ∀ pch' st0, r0 = .ok (pch', st0) →
    (st0.tokens = [] ∧ r = .ok (pch', ⟨ts, st0.line⟩)) ∨
    (∃ t, st0.tokens = [t] ∧
      r = if ts.length = MAX_TOKENS then .error .tooManyTokens
          else .ok (pch', ⟨ts ++ [t], st0.line⟩))

/-- The loop of `tokenize` and the closing end-marker on a token array without
bound: every round is the round of `tokenize` (`lexStep`) run on an empty
array, where `addTk` finds room, and the tokens it adds are collected in
`acc`. -/
def unboundedLoop : Nat → List Char → Nat → List Token → Lexed
  | 0, _, _, _ => .outOfFuel
  | fuel + 1, pch, line, acc =>
    if cur pch = NUL then .tokens (acc ++ [⟨.FINISH, line, .none⟩])
    else
      match lexStep pch ⟨[], line⟩ with
      | .error e => .fatal e
      | .ok (pch, st) => unboundedLoop fuel pch st.line (acc ++ st.tokens)

/-- What `tokenize` would return if `MAX_TOKENS` were no limit: an input is
lexically valid apart from the number of its tokens when this is a token
sequence, and the tokens before the end-marker are its user tokens. -/
def tokenizeUnbounded (pch : List Char) : Lexed :=
  unboundedLoop (pch.length + 1) pch 1 []

/-- The result `r` of a run that started with the cursor at `c`, where no
cursor of the run can pass `B` (the number of tokens, or the start of the run
when that lies further on): the run has ended; when it returned, the cursor is
not before `c` and not after `B`; when it returned success, the cursor is at
`s` or further. -/
structure Adv (B c s : Nat) (r : Res) : Prop where
  ne : r ≠ .outOfFuel
  mono : ∀ b j, r = .ret b j → c ≤ j ∧ j ≤ B
  prog : ∀ j, r = .ret true j → s ≤ j

/-- The result `r` of a run that started with the cursor at `c` and whose
value is dropped or tested later: the run has ended and the cursor did not move
back. -/
structure Adv0 (B c : Nat) (r : Res) : Prop where
  adv : Adv B c c r

/-- Every procedure of the mutual recursion, run from a cursor `i` on `fuel`
units of fuel, ends, does not move the cursor back, and has moved it forward
when it succeeds; every loop ends and does not move the cursor back. The fuel
asked for is 12 for every token from `i` to the bound `B`, and the number of
procedures that can be entered one inside the other before a token is
consumed. -/
structure AdvAll (toks : List Token) (B fuel : Nat) : Prop where
  hblock : ∀ i, i ≤ B → 12 * B + 10 ≤ fuel + 12 * i →
    Adv B i (i + 1) (block toks fuel i)
  hblockLoop : ∀ i, i ≤ B → 12 * B + 10 ≤ fuel + 12 * i →
    Adv B i (i) (blockLoop toks fuel i)
  hinstr : ∀ i, i ≤ B → 12 * B + 9 ≤ fuel + 12 * i →
    Adv B i (i + 1) (instr toks fuel i)
  hexpr : ∀ i, i ≤ B → 12 * B + 8 ≤ fuel + 12 * i →
    Adv B i (i + 1) (expr toks fuel i)
  hexprLogic : ∀ i, i ≤ B → 12 * B + 7 ≤ fuel + 12 * i →
    Adv B i (i + 1) (exprLogic toks fuel i)
  hexprLogicLoop : ∀ i, i ≤ B → 12 * B + 1 ≤ fuel + 12 * i →
    Adv B i (i) (exprLogicLoop toks fuel i)
  hexprAssign : ∀ i, i ≤ B → 12 * B + 6 ≤ fuel + 12 * i →
    Adv B i (i + 1) (exprAssign toks fuel i)
  hexprComp : ∀ i, i ≤ B → 12 * B + 5 ≤ fuel + 12 * i →
    Adv B i (i + 1) (exprComp toks fuel i)
  hexprAdd : ∀ i, i ≤ B → 12 * B + 4 ≤ fuel + 12 * i →
    Adv B i (i + 1) (exprAdd toks fuel i)
  hexprAddLoop : ∀ i, i ≤ B → 12 * B + 1 ≤ fuel + 12 * i →
    Adv B i (i) (exprAddLoop toks fuel i)
  hexprMul : ∀ i, i ≤ B → 12 * B + 3 ≤ fuel + 12 * i →
    Adv B i (i + 1) (exprMul toks fuel i)
  hexprMulLoop : ∀ i, i ≤ B → 12 * B + 1 ≤ fuel + 12 * i →
    Adv B i (i) (exprMulLoop toks fuel i)
  hexprPre : ∀ i, i ≤ B → 12 * B + 2 ≤ fuel + 12 * i →
    Adv B i (i + 1) ( exprPrefix toks fuel i)
  hfactor : ∀ i, i ≤ B → 12 * B + 1 ≤ fuel + 12 * i →
    Adv B i (i + 1) (factor toks fuel i)
  hfactorArgsLoop : ∀ i, i ≤ B → 12 * B + 1 ≤ fuel + 12 * i →
    Adv B i (i) (factorArgsLoop toks fuel i)

/-- The result `r` of a run on a token sequence whose end-marker stands at
index `k`: no token was read outside the array, and when the run returned, the
cursor is at or before the end-marker. -/
structure Safe (k : Nat) (r : Res) : Prop where
  le : ∀ b j, r = .ret b j → j ≤ k
  inb : ∀ j, r ≠ .outOfRange j

/-- Every procedure and loop of the mutual recursion, started at or before
`k` on `fuel` units of fuel, reads inside the array only and returns at or
before `k`. -/
structure SafeAll (toks : List Token) (k fuel : Nat) : Prop where
  hblock : ∀ i, i ≤ k → Safe k (block toks fuel i)
  hblockLoop : ∀ i, i ≤ k → Safe k (blockLoop toks fuel i)
  hinstr : ∀ i, i ≤ k → Safe k (instr toks fuel i)
  hexpr : ∀ i, i ≤ k → Safe k (expr toks fuel i)
  hexprLogic : ∀ i, i ≤ k → Safe k (exprLogic toks fuel i)
  hexprLogicLoop : ∀ i, i ≤ k → Safe k (exprLogicLoop toks fuel i)
  hexprAssign : ∀ i, i ≤ k → Safe k (exprAssign toks fuel i)
  hexprComp : ∀ i, i ≤ k → Safe k (exprComp toks fuel i)
  hexprAdd : ∀ i, i ≤ k → Safe k (exprAdd toks fuel i)
  hexprAddLoop : ∀ i, i ≤ k → Safe k (exprAddLoop toks fuel i)
  hexprMul : ∀ i, i ≤ k → Safe k (exprMul toks fuel i)
  hexprMulLoop : ∀ i, i ≤ k → Safe k (exprMulLoop toks fuel i)
  hexprPre : ∀ i, i ≤ k → Safe k ( exprPrefix toks fuel i)
  hfactor : ∀ i, i ≤ k → Safe k (factor toks fuel i)
  hfactorArgsLoop : ∀ i, i ≤ k → Safe k (factorArgsLoop toks fuel i)

/-- A procedure that returns success has moved the cursor forward, whatever
the fuel and the start cursor. -/
def Progresses (f : Nat → Nat → Res) : Prop :=
  ∀ fuel i j, f fuel i = .ret true j → i < j

/-- A procedure or loop ends from every start cursor: some amount of fuel is
enough for it. -/
def Terminates (f : Nat → Nat → Res) : Prop :=
  ∀ i, ∃ fuel, f fuel i ≠ .outOfFuel

/-- A COMMA at index `k` after which `expr` never succeeds. -/
structure CommaWall (toks : List Token) (k : Nat) (t : Token) : Prop where
  tok : toks[k]? = some t
  code : t.code = .COMMA
  next : ∀ fuel j, expr toks fuel (k + 1) ≠ .ret true j

/-- The loop over the arguments of a call, entered with the cursor at `k`,
steps over COMMAs that are followed by tokens on which `expr` succeeds, up to
a COMMA after which `expr` returns failure with the cursor at `j`. -/
inductive BadArgs (toks : List Token) : Nat → Nat → Prop
  | here (k j : Nat) (t : Token) : toks[k]? = some t → t.code = .COMMA →
      Returns (expr toks) (k + 1) (.ret false j) → BadArgs toks k j
  | next (k k' j : Nat) (t : Token) : toks[k]? = some t → t.code = .COMMA →
      Returns (expr toks) (k + 1) (.ret true k') → BadArgs toks k' j → BadArgs toks k j

/-- The result `r` is not a returned failure. -/
structure NoFalse (r : Res) : Prop where
  nf : ∀ j, r ≠ .ret false j

/-- The result `r` of a run from cursor `i`: when it is a returned failure,
the cursor is where it was at the start. -/
structure Atomic (i : Nat) (r : Res) : Prop where
  eq : ∀ j, r = .ret false j → j = i

/-- The codes whose `consume` opens a construct that is followed here to its
end: FUNCTION in `defFunc`, IF and WHILE in `instr`, COMMA in the loop over
the arguments of a call in `factor`. -/
def gateCode : Code → Bool
  | .FUNCTION | .IF | .WHILE | .COMMA => true
  | _ => false

/-- The rest of a round of the loop over the arguments of a call once
`consume(COMMA)` has succeeded; `fuel` is the fuel of the calls the loop
makes. -/
def argsTail (toks : List Token) (fuel : Nat) (i : Nat) : Res :=
  (expr toks fuel i).branch
    (fun i => factorArgsLoop toks fuel i)
    (tkerr toks "Expected expression after ','")

/-- The result `r` of a run that started at or before the token at index `k`,
where `F` is how the construct that this token opens ends: the run read inside
the array only; when it returned, the cursor is at or before `k`; when it
raised a diagnostic, the cursor was at or before `k`, or the diagnostic is
`F`. -/
structure Until (k : Nat) (F : Res) (r : Res) : Prop where
  le : ∀ b j, r = .ret b j → j ≤ k
  inb : ∀ j, r ≠ .outOfRange j
  fat : ∀ c l m, r = .fatal c l m → c ≤ k ∨ r = F

/-- A token at index `k` that opens a construct which, once opened, ends in
the diagnostic `F`, raised with the cursor beyond `k`: a FUNCTION, an IF, a
WHILE, or a COMMA that does not stand behind a base type (so not between the
parameters of a function header, where `funcParams` would consume it). -/
structure Gate (toks : List Token) (k : Nat) (t : Token) (F : Res) : Prop where
  tok : toks[k]? = some t
  code : gateCode t.code = true
  high : ∃ c l m, F = .fatal c l m ∧ k < c
  func : t.code = .FUNCTION → ∀ fuel, FuelLe (defFuncTail toks fuel (k + 1)) F
  cond : t.code = .IF → ∀ fuel, FuelLe (ifTail toks fuel (k + 1)) F
  loop : t.code = .WHILE → ∀ fuel, FuelLe (whileTail toks fuel (k + 1)) F
  args : t.code = .COMMA → ∀ fuel, FuelLe (argsTail toks fuel (k + 1)) F
  params : t.code = .COMMA → ∀ u, toks[k - 1]? = some u → isBaseType u.code = false

/-- Two runs of one procedure from one cursor at or before `k`, the first
(result `r`) on a token sequence with a construct opened at `k` that ends in
`F`, the second (result `r'`) on a token sequence with the same tokens up to
index `k`: the first ends as `Until k F` says, and when it returns, or raises
a diagnostic with the cursor at or before `k`, the second ends the same
way. -/
structure Sim (k : Nat) (F : Res) (r r' : Res) : Prop where
  unt : Until k F r
  ret : ∀ b j, r = .ret b j → r' = r
  fat : ∀ c l m, r = .fatal c l m → c ≤ k → r' = r

/-- Every procedure and loop of the mutual recursion, started at or before
`k` on `fuel` units of fuel on the two token sequences, ends as `Sim k F`
says. -/
structure SimAll (toks toks' : List Token) (k : Nat) (F : Res) (fuel : Nat) : Prop where
  hblock : ∀ i, i ≤ k → Sim k F (block toks fuel i) (block toks' fuel i)
  hblockLoop : ∀ i, i ≤ k → Sim k F (blockLoop toks fuel i) (blockLoop toks' fuel i)
  hinstr : ∀ i, i ≤ k → Sim k F (instr toks fuel i) (instr toks' fuel i)
  hexpr : ∀ i, i ≤ k → Sim k F (expr toks fuel i) (expr toks' fuel i)
  hexprLogic : ∀ i, i ≤ k → Sim k F (exprLogic toks fuel i) (exprLogic toks' fuel i)
  hexprLogicLoop : ∀ i, i ≤ k →
    Sim k F (exprLogicLoop toks fuel i) (exprLogicLoop toks' fuel i)
  hexprAssign : ∀ i, i ≤ k → Sim k F (exprAssign toks fuel i) (exprAssign toks' fuel i)
  hexprComp : ∀ i, i ≤ k → Sim k F (exprComp toks fuel i) (exprComp toks' fuel i)
  hexprAdd : ∀ i, i ≤ k → Sim k F (exprAdd toks fuel i) (exprAdd toks' fuel i)
  hexprAddLoop : ∀ i, i ≤ k → Sim k F (exprAddLoop toks fuel i) (exprAddLoop toks' fuel i)
  hexprMul : ∀ i, i ≤ k → Sim k F (exprMul toks fuel i) (exprMul toks' fuel i)
  hexprMulLoop : ∀ i, i ≤ k → Sim k F (exprMulLoop toks fuel i) (exprMulLoop toks' fuel i)
  hexprPre : ∀ i, i ≤ k → Sim k F ( exprPrefix toks fuel i) ( exprPrefix toks' fuel i)
  hfactor : ∀ i, i ≤ k → Sim k F (factor toks fuel i) (factor toks' fuel i)
  hfactorArgsLoop : ∀ i, i ≤ k →
    Sim k F (factorArgsLoop toks fuel i) (factorArgsLoop toks' fuel i)

/-! ## Lemmas on the lexer -/

theorem setPayload_append (l : List Token) (t : Token) (p : Payload) :
    setPayload (l ++ [t]) p = l ++ [{ t with payload := p }] := by
  induction l with
  | nil => rfl
  | cons a l ih =>
    cases l with
    | nil => rfl
    | cons b l => simpa [setPayload] using ih

theorem addTk_ok {st st' : LexState} {c : Code} (h : addTk st c = .ok st') :
    st' = { tokens := st.tokens ++ [{ code := c, line := st.line, payload := .none }],
            line := st.line } := by
  unfold addTk at h
  split at h
  · cases h
  · cases h; rfl

theorem ite_ind {α : Type} {Q : α → Prop} {c : Prop} [Decidable c] {a b : α}
    (ha : c → Q a) (hb : ¬c → Q b) : Q (if c then a else b) := by
  by_cases h : c
  · rw [if_pos h]; exact ha h
  · rw [if_neg h]; exact hb h

/-- Every value `keyword` can return has the property `Q`, once the twelve
keyword codes and `none` have it. -/
theorem keyword_ind {Q : Option Code → Prop} (text : List Char)
    (h1 : Q (some .TYPE_INT)) (h2 : Q (some .TYPE_REAL)) (h3 : Q (some .TYPE_STR))
    (h4 : Q (some .VAR)) (h5 : Q (some .IF)) (h6 : Q (some .ELSE)) (h7 : Q (some .WHILE))
    (h8 : Q (some .RETURN)) (h9 : Q (some .FUNCTION)) (h10 : Q (some .END))
    (h11 : Q (some .AND)) (h12 : Q (some .OR)) (h13 : Q none) : Q (keyword text) := by
  unfold keyword
  refine ite_ind (fun _ => h1) fun _ => ite_ind (fun _ => h2) fun _ => ite_ind (fun _ => h3)
    fun _ => ite_ind (fun _ => h4) fun _ => ite_ind (fun _ => h5) fun _ => ite_ind (fun _ => h6)
    fun _ => ite_ind (fun _ => h7) fun _ => ite_ind (fun _ => h8) fun _ => ite_ind (fun _ => h9)
    fun _ => ite_ind (fun _ => h10) fun _ => ite_ind (fun _ => h11) fun _ =>
      ite_ind (fun _ => h12) fun _ => h13

theorem keyword_ne_FINISH {text : List Char} {k : Code} (h : keyword text = some k) :
    k ≠ .FINISH := by
  revert h
  refine keyword_ind (Q := fun r => r = some k → k ≠ .FINISH) text ?_ ?_ ?_ ?_ ?_ ?_ ?_ ?_ ?_ ?_ ?_ ?_ ?_
  all_goals intro h; cases h
  all_goals decide

theorem StepInv_error (pch : List Char) (st : LexState) (e : LexError) :
    StepInv pch st (.error e) := by
  intro _ _ h; cases h

theorem StepInv_emit {pch rest : List Char} (st : LexState) {c : Code}
    (hl : rest.length < pch.length) (hc : c ≠ .FINISH) : StepInv pch st (emit st c rest) := by
  intro pch' st' h
  unfold emit at h
  split at h
  · cases h
  · rename_i st1 h1
    have := addTk_ok h1
    subst this
    cases h
    exact ⟨hl, le_refl _, Or.inr ⟨_, rfl, hc, rfl⟩⟩

theorem StepInv_payload {pch rest b e : List Char} (st : LexState) {c : Code}
    (f : List Char → Payload)
    (hl : rest.length < pch.length) (hc : c ≠ .FINISH) :
    StepInv pch st
      (match addTk st c with
        | .error e => .error e
        | .ok st =>
          match copyn b e with
          | .error e => .error e
          | .ok text => .ok (rest, { st with tokens := setPayload st.tokens (f text) })) := by
  intro pch' st' h
  split at h
  · cases h
  · rename_i st1 h1
    have := addTk_ok h1
    subst this
    split at h
    · cases h
    · cases h
      exact ⟨hl, le_refl _, Or.inr ⟨_, setPayload_append _ _ _, hc, rfl⟩⟩

theorem length_dropWhile_le (p : Char → Bool) (l : List Char) :
    (l.dropWhile p).length ≤ l.length := by
  induction l with
  | nil => simp
  | cons a l ih =>
    rw [List.dropWhile_cons]
    split
    · exact Nat.le_succ_of_le ih
    · exact le_refl _

theorem cur_cons (c : Char) (rest : List Char) : cur (c :: rest) = c := rfl

theorem lexString_inv (c : Char) (rest : List Char) (st : LexState) :
    StepInv (c :: rest) st (lexString (c :: rest) st) := by
  unfold lexString
  dsimp only [List.tail_cons]
  refine ite_ind (Q := StepInv (c :: rest) st) (fun _ => ?_) (fun _ => StepInv_error _ _ _)
  refine StepInv_payload st Payload.text ?_ (by decide)
  have h1 := length_dropWhile_le (fun x => x != NUL && x != '"') rest
  have h2 := List.length_tail (List.dropWhile (fun x => x != NUL && x != '"') rest)
  simp only [List.length_cons]
  omega

theorem lexNumber_inv (c : Char) (rest : List Char) (st : LexState) (hd : isdigit c = true) :
    StepInv (c :: rest) st (lexNumber (c :: rest) st) := by
  unfold lexNumber
  have h0 : List.dropWhile isdigit (c :: rest) = List.dropWhile isdigit rest := by
    rw [List.dropWhile_cons, if_pos hd]
  rw [h0]
  have h1 := length_dropWhile_le isdigit rest
  have h2 := List.length_tail (List.dropWhile isdigit rest)
  have h3 := length_dropWhile_le isdigit (List.dropWhile isdigit rest).tail
  dsimp only
  refine ite_ind (Q := StepInv (c :: rest) st) (fun _ => ?_) (fun _ => ?_)
  · refine ite_ind (Q := StepInv (c :: rest) st) (fun _ => StepInv_error _ _ _) (fun _ => ?_)
    refine StepInv_payload st Payload.r ?_ (by decide)
    simp only [List.length_cons]
    omega
  · refine StepInv_payload st (fun text => Payload.i (atoi text)) ?_ (by decide)
    simp only [List.length_cons]
    omega

theorem lexWord_inv (c : Char) (rest : List Char) (st : LexState) :
    StepInv (c :: rest) st (lexWord (c :: rest) st) := by
  unfold lexWord
  dsimp only [List.tail_cons]
  have h1 := length_dropWhile_le (fun x => isalnum x || x == '_') rest
  have hl : (List.dropWhile (fun x => isalnum x || x == '_') rest).length
      < (c :: rest).length := by
    simp only [List.length_cons]; omega
  intro pch' st' h
  split at h
  · cases h
  · split at h
    · rename_i k hk
      exact StepInv_emit st hl (keyword_ne_FINISH hk) _ _ h
    · split at h
      · cases h
      · rename_i st1 h1
        have := addTk_ok h1
        subst this
        cases h
        exact ⟨hl, le_refl _, Or.inr ⟨_, setPayload_append _ _ _, (by intro h; cases h), rfl⟩⟩

theorem lexStep_inv (pch : List Char) (st : LexState) (h : cur pch ≠ NUL) :
    StepInv pch st (lexStep pch st) := by
  cases pch with
  | nil => exact absurd rfl h
  | cons c rest =>
    have hl : rest.length < (c :: rest).length := Nat.lt_succ_self _
    have hl2 : rest.tail.length < (c :: rest).length := by
      have := List.length_tail rest
      simp only [List.length_cons]; omega
    unfold lexStep
    dsimp only [cur_cons, List.tail_cons]
    refine ite_ind (Q := StepInv (c :: rest) st) (fun _ => ?_) fun _ => ?_
    · intro _ _ h; cases h; exact ⟨hl, le_refl _, Or.inl rfl⟩
    refine ite_ind (Q := StepInv (c :: rest) st) (fun _ => ?_) fun _ => ?_
    · intro _ _ h; cases h; exact ⟨hl, Nat.le_succ _, Or.inl rfl⟩
    refine ite_ind (Q := StepInv (c :: rest) st) (fun hc => ?_) fun _ => ?_
    · intro _ _ h; cases h
      refine ⟨?_, le_refl _, Or.inl rfl⟩
      subst hc
      have := length_dropWhile_le (fun x => x != NUL && x != '\n') rest
      rw [List.dropWhile_cons, if_pos (by decide)]
      simp only [List.length_cons]; omega
    refine ite_ind (Q := StepInv (c :: rest) st) (fun _ => lexString_inv c rest st) fun _ => ?_
    refine ite_ind (Q := StepInv (c :: rest) st) (fun _ => StepInv_emit st hl (by decide)) fun _ => ?_
    refine ite_ind (Q := StepInv (c :: rest) st) (fun _ => StepInv_emit st hl (by decide)) fun _ => ?_
    refine ite_ind (Q := StepInv (c :: rest) st) (fun _ => StepInv_emit st hl (by decide)) fun _ => ?_
    refine ite_ind (Q := StepInv (c :: rest) st) (fun _ => StepInv_emit st hl (by decide)) fun _ => ?_
    refine ite_ind (Q := StepInv (c :: rest) st) (fun _ => StepInv_emit st hl (by decide)) fun _ => ?_
    refine ite_ind (Q := StepInv (c :: rest) st) (fun _ => ?_) fun _ => ?_
    · exact ite_ind (Q := StepInv (c :: rest) st) (fun _ => StepInv_emit st hl2 (by decide))
        fun _ => StepInv_emit st hl (by decide)
    refine ite_ind (Q := StepInv (c :: rest) st) (fun _ => StepInv_emit st hl (by decide)) fun _ => ?_
    refine ite_ind (Q := StepInv (c :: rest) st) (fun _ => StepInv_emit st hl (by decide)) fun _ => ?_
    refine ite_ind (Q := StepInv (c :: rest) st) (fun _ => StepInv_emit st hl (by decide)) fun _ => ?_
    refine ite_ind (Q := StepInv (c :: rest) st) (fun _ => StepInv_emit st hl (by decide)) fun _ => ?_
    refine ite_ind (Q := StepInv (c :: rest) st) (fun _ => ?_) fun _ => ?_
    · exact ite_ind (Q := StepInv (c :: rest) st) (fun _ => StepInv_emit st hl2 (by decide))
        fun _ => StepInv_emit st hl (by decide)
    refine ite_ind (Q := StepInv (c :: rest) st) (fun _ => StepInv_emit st hl (by decide)) fun _ => ?_
    refine ite_ind (Q := StepInv (c :: rest) st) (fun _ => ?_) fun _ => ?_
    · exact ite_ind (Q := StepInv (c :: rest) st) (fun _ => StepInv_emit st hl2 (by decide))
        fun _ => StepInv_emit st hl (by decide)
    refine ite_ind (Q := StepInv (c :: rest) st) (fun hd => lexNumber_inv c rest st hd) fun _ => ?_
    exact ite_ind (Q := StepInv (c :: rest) st) (fun _ => lexWord_inv c rest st)
      fun _ => StepInv_error _ _ _

/-- The loop of `tokenize` never runs out of fuel when it has more fuel than
characters left. -/
theorem tokenizeLoop_fuel (fuel : Nat) :
    ∀ (pch : List Char) (st : LexState), pch.length < fuel →
      tokenizeLoop fuel pch st ≠ .outOfFuel := by
  induction fuel with
  | zero => intro pch st h; omega
  | succ n ih =>
    intro pch st h
    rw [tokenizeLoop]
    split
    · split <;> simp
    · rename_i hc
      split
      · simp
      · rename_i pch' st' hs
        have := (lexStep_inv pch st hc pch' st' hs).1
        exact ih pch' st' (by omega)

/-- `tokenize` gives a result on every input: a token sequence or a fatal
diagnostic. -/
theorem tokenize_total (pch : List Char) : tokenize pch ≠ .outOfFuel :=
  tokenizeLoop_fuel _ pch _ (Nat.lt_succ_self _)

/-- The tokens the loop returns: those it started with, then tokens that are
not end-markers, then one end-marker. -/
theorem tokenizeLoop_tokens (fuel : Nat) :
    ∀ (pch : List Char) (st : LexState) (ts : List Token),
      tokenizeLoop fuel pch st = .tokens ts →
      ∃ mid last, ts = st.tokens ++ mid ++ [last] ∧ last.code = .FINISH ∧
        (∀ t ∈ mid, t.code ≠ .FINISH) ∧
        (∀ t ∈ mid, st.line ≤ t.line) ∧ st.line ≤ last.line := by
  induction fuel with
  | zero => intro pch st ts h; cases h
  | succ n ih =>
    intro pch st ts h
    rw [tokenizeLoop] at h
    split at h
    · split at h
      · cases h
      · rename_i st1 h1
        have := addTk_ok h1
        subst this
        cases h
        exact ⟨[], { code := .FINISH, line := st.line, payload := .none }, by simp, rfl,
          by simp, by simp, le_refl _⟩
    · rename_i hc
      split at h
      · cases h
      · rename_i pch' st' hs
        obtain ⟨-, hline, htk⟩ := lexStep_inv pch st hc pch' st' hs
        obtain ⟨mid, last, rfl, hlast, hmid, hml, hll⟩ := ih pch' st' ts h
        rcases htk with heq | ⟨t, heq, htc, htl⟩
        · refine ⟨mid, last, by rw [heq], hlast, hmid, ?_, by omega⟩
          intro t ht; have := hml t ht; omega
        · refine ⟨t :: mid, last, by rw [heq]; simp, hlast, ?_, ?_, by omega⟩
          · intro u hu
            rcases List.mem_cons.1 hu with rfl | hu
            · exact htc
            · exact hmid u hu
          · intro u hu
            rcases List.mem_cons.1 hu with rfl | hu
            · omega
            · have := hml u hu; omega

theorem lexStep_default (c : Char) (rest : List Char) (st : LexState) (h : c ∉ specials) :
    lexStep (c :: rest) st =
      if isdigit c then lexNumber (c :: rest) st
      else if isalpha c ∨ c = '_' then lexWord (c :: rest) st
      else .error (.unknownSymbol c st.line) := by
  simp only [specials, List.mem_cons, List.mem_singleton, not_or, List.mem_nil_iff,
    not_false_eq_true, and_true] at h
  obtain ⟨h1, h2, h3, h4, h5, h6, h7, h8, h9, h10, h11, h12, h13, h14, h15, h16, h17, h18,
    h19⟩ := h
  unfold lexStep
  dsimp only [cur_cons]
  rw [if_neg (by rintro (h | h | h) <;> contradiction), if_neg h4, if_neg h5, if_neg h6,
    if_neg h7, if_neg h8, if_neg h9, if_neg h10, if_neg h11, if_neg h12, if_neg h13,
    if_neg h14, if_neg h15, if_neg h16, if_neg h17, if_neg h18, if_neg h19]

theorem specials_not_digit : ∀ c ∈ specials, isdigit c = false := by decide

theorem specials_not_word : ∀ c ∈ specials, (isalpha c || c == '_') = false := by decide

theorem lexStep_digit (c : Char) (rest : List Char) (st : LexState) (h : isdigit c = true) :
    lexStep (c :: rest) st = lexNumber (c :: rest) st := by
  rw [lexStep_default c rest st (fun hm => by rw [specials_not_digit c hm] at h; cases h),
    if_pos h]

theorem lexStep_quote (rest : List Char) (st : LexState) :
    lexStep ('"' :: rest) st = lexString ('"' :: rest) st := by
  unfold lexStep
  dsimp only [cur_cons]
  rw [if_neg (by decide), if_neg (by decide), if_neg (by decide), if_pos rfl]

theorem dropWhile_append_of_all (p : Char → Bool) (l r : List Char) (h : ∀ x ∈ l, p x = true) :
    List.dropWhile p (l ++ r) = List.dropWhile p r := by
  induction l with
  | nil => rfl
  | cons a l ih =>
    rw [List.cons_append, List.dropWhile_cons, if_pos (h a (List.mem_cons_self _ _))]
    exact ih fun x hx => h x (List.mem_cons_of_mem _ hx)

theorem dropWhile_all (p : Char → Bool) (l : List Char) (h : ∀ x ∈ l, p x = true) :
    List.dropWhile p l = [] := by
  have := dropWhile_append_of_all p l [] h
  simpa using this

theorem between_append (l r : List Char) : between (l ++ r) r = l := by
  unfold between
  simp

theorem copyn_append (l r : List Char) :
    copyn (l ++ r) r = if l.length > MAX_STR then .error .stringTooLong else .ok l := by
  unfold copyn
  rw [between_append]
  simp

theorem addTk_nil (line : Nat) (c : Code) :
    addTk { tokens := [], line := line } c =
      .ok { tokens := [{ code := c, line := line, payload := .none }], line := line } := by
  unfold addTk
  rw [if_neg (by simp [MAX_TOKENS])]
  rfl

theorem addTk_one (t : Token) (line : Nat) (c : Code) :
    addTk { tokens := [t], line := line } c =
      .ok { tokens := [t, { code := c, line := line, payload := .none }], line := line } := by
  unfold addTk
  rw [if_neg (by simp [MAX_TOKENS])]
  rfl

/-- The end of the loop with one token in the array: the end-marker is added. -/
theorem tokenizeLoop_end (fuel : Nat) (t : Token) (line : Nat) :
    tokenizeLoop (fuel + 1) [] { tokens := [t], line := line } =
      .tokens [t, { code := .FINISH, line := line, payload := .none }] := by
  rw [tokenizeLoop, if_pos (show cur [] = NUL from rfl), addTk_one]

theorem digit_ne_NUL {c : Char} (h : isdigit c = true) : c ≠ NUL := by
  intro hc; subst hc; revert h; decide

theorem atoi_of_lt (d : List Char) (h : decimalValue d < 2 ^ 31) :
    atoi d = (decimalValue d : Int) := by
  unfold atoi
  have h1 : min (decimalValue d) (2 ^ 63 - 1) = decimalValue d := by
    apply min_eq_left; omega
  have h2 : decimalValue d % 2 ^ 32 = decimalValue d := Nat.mod_eq_of_lt (by omega)
  simp only [h1, h2, if_pos h]

/-- An input that is one run of digits: one INT token, or "String too long.". -/
theorem tokenize_digits (d : List Char) (hne : d ≠ []) (hd : ∀ c ∈ d, isdigit c = true) :
    tokenize d =
      if d.length > MAX_STR then .fatal .stringTooLong
      else .tokens [{ code := .INT, line := 1, payload := .i (atoi d) },
        { code := .FINISH, line := 1, payload := .none }] := by
  cases d with
  | nil => exact absurd rfl hne
  | cons c rest =>
    have hc : isdigit c = true := hd c (List.mem_cons_self _ _)
    have hstep : lexStep (c :: rest) { tokens := [], line := 1 } =
        if (c :: rest).length > MAX_STR then .error .stringTooLong
        else .ok ([], ⟨[{ code := .INT, line := 1, payload := .i (atoi (c :: rest)) }], 1⟩) := by
      rw [lexStep_digit c rest _ hc]
      unfold lexNumber
      dsimp only
      rw [dropWhile_all isdigit (c :: rest) hd, if_neg (by decide), addTk_nil]
      have := copyn_append (c :: rest) []
      rw [List.append_nil] at this
      dsimp only
      rw [this]
      by_cases hlen : (c :: rest).length > MAX_STR
      · rw [if_pos hlen, if_pos hlen]
      · rw [if_neg hlen, if_neg hlen]; rfl
    unfold tokenize
    rw [tokenizeLoop, if_neg (by rw [cur_cons]; exact digit_ne_NUL hc), hstep]
    by_cases hlen : (c :: rest).length > MAX_STR
    · rw [if_pos hlen, if_pos hlen]
    · rw [if_neg hlen, if_neg hlen]
      exact tokenizeLoop_end _ _ _

/-- An input that is one string literal: one STR token, or "String too long.". -/
theorem tokenize_string (s : List Char) (hq : '"' ∉ s) (h0 : NUL ∉ s) :
    tokenize ('"' :: s ++ ['"']) =
      if s.length > MAX_STR then .fatal .stringTooLong
      else .tokens [{ code := .STR, line := 1, payload := .text s },
        { code := .FINISH, line := 1, payload := .none }] := by
  have hall : ∀ x ∈ s, (x != NUL && x != '"') = true := by
    intro x hx
    have h1 : x ≠ NUL := fun h => h0 (h ▸ hx)
    have h2 : x ≠ '"' := fun h => hq (h ▸ hx)
    simp [h1, h2]
  have hstep : lexStep ('"' :: s ++ ['"']) { tokens := [], line := 1 } =
      if s.length > MAX_STR then .error .stringTooLong
      else .ok ([], ⟨[{ code := .STR, line := 1, payload := .text s }], 1⟩) := by
    rw [List.cons_append, lexStep_quote]
    unfold lexString
    dsimp only [List.tail_cons]
    have hd : List.dropWhile (fun x => x != NUL && x != '"') ['"'] = ['"'] := by decide
    rw [dropWhile_append_of_all _ s ['"'] hall, hd, if_pos (show cur ['"'] = '"' from rfl),
      addTk_nil]
    dsimp only
    rw [copyn_append]
    by_cases hlen : s.length > MAX_STR
    · rw [if_pos hlen, if_pos hlen]
    · rw [if_neg hlen, if_neg hlen]; rfl
  unfold tokenize
  rw [tokenizeLoop, if_neg (by rw [List.cons_append, cur_cons]; decide), hstep]
  by_cases hlen : s.length > MAX_STR
  · rw [if_pos hlen, if_pos hlen]
  · rw [if_neg hlen, if_neg hlen]
    exact tokenizeLoop_end _ _ _

/-- An input that is digits, a dot and digits: one REAL token, or "String too
long.". -/
theorem tokenize_real (d1 d2 : List Char) (hne1 : d1 ≠ []) (hne2 : d2 ≠ [])
    (hd1 : ∀ c ∈ d1, isdigit c = true) (hd2 : ∀ c ∈ d2, isdigit c = true) :
    tokenize (d1 ++ '.' :: d2) =
      if (d1 ++ '.' :: d2).length > MAX_STR then .fatal .stringTooLong
      else .tokens [{ code := .REAL, line := 1, payload := .r (d1 ++ '.' :: d2) },
        { code := .FINISH, line := 1, payload := .none }] := by
  cases d1 with
  | nil => exact absurd rfl hne1
  | cons c rest =>
    cases d2 with
    | nil => exact absurd rfl hne2
    | cons e rest2 =>
      have hc : isdigit c = true := hd1 c (List.mem_cons_self _ _)
      have he : isdigit e = true := hd2 e (List.mem_cons_self _ _)
      have hstep : lexStep (c :: rest ++ '.' :: e :: rest2) { tokens := [], line := 1 } =
          if (c :: rest ++ '.' :: e :: rest2).length > MAX_STR then .error .stringTooLong
          else .ok ([], ⟨[⟨.REAL, 1, .r (c :: rest ++ '.' :: e :: rest2)⟩], 1⟩) := by
        rw [List.cons_append, lexStep_digit c _ _ hc]
        unfold lexNumber
        dsimp only
        have hdot : List.dropWhile isdigit ('.' :: e :: rest2) = '.' :: e :: rest2 := by
          rw [List.dropWhile_cons, if_neg (by decide)]
        rw [← List.cons_append, dropWhile_append_of_all isdigit (c :: rest) _ hd1, hdot,
          if_pos (cur_cons _ _)]
        dsimp only [List.tail_cons, cur_cons]
        rw [he, dropWhile_all isdigit (e :: rest2) hd2]
        rw [if_neg (by decide), addTk_nil]
        have := copyn_append (c :: rest ++ '.' :: e :: rest2) []
        rw [List.append_nil] at this
        dsimp only
        rw [this]
        by_cases hlen : (c :: rest ++ '.' :: e :: rest2).length > MAX_STR
        · rw [if_pos hlen, if_pos hlen]
        · rw [if_neg hlen, if_neg hlen]; rfl
      unfold tokenize
      rw [tokenizeLoop, if_neg (by rw [List.cons_append, cur_cons]; exact digit_ne_NUL hc),
        hstep]
      by_cases hlen : (c :: rest ++ '.' :: e :: rest2).length > MAX_STR
      · rw [if_pos hlen, if_pos hlen]
      · rw [if_neg hlen, if_neg hlen]
        exact tokenizeLoop_end _ _ _

theorem word_ne_NUL {c : Char} (h : isalpha c = true ∨ c = '_') : c ≠ NUL := by
  intro hc; subst hc; revert h; decide

theorem lexStep_word (c : Char) (rest : List Char) (st : LexState)
    (h : isalpha c = true ∨ c = '_') : lexStep (c :: rest) st = lexWord (c :: rest) st := by
  have hw : (isalpha c || c == '_') = true := by
    rcases h with h | h
    · simp [h]
    · simp [h]
  have hd : isdigit c = false := by
    rcases h with h | h
    · cases hdc : isdigit c
      · rfl
      · exfalso
        unfold isalpha at h
        unfold isdigit at hdc
        simp only [Char.isAlpha, Char.isUpper, Char.isLower, Char.isDigit, Bool.or_eq_true,
          Bool.and_eq_true, decide_eq_true_eq] at h hdc
        have h1 : c.val.toNat ≤ 57 := hdc.2
        rcases h with h | h
        · have h2 : 65 ≤ c.val.toNat := h.1
          omega
        · have h2 : 97 ≤ c.val.toNat := h.1
          omega
    · subst h; decide
  rw [lexStep_default c rest st (fun hm => by rw [specials_not_word c hm] at hw; cases hw),
    if_neg (by rw [hd]; decide), if_pos h]

/-- An input that is one identifier-like run: a keyword token or an ID token,
or "String too long.". -/
theorem tokenize_word (c : Char) (rest : List Char) (hc : isalpha c = true ∨ c = '_')
    (hr : ∀ x ∈ rest, (isalnum x || x == '_') = true) :
    tokenize (c :: rest) =
      if (c :: rest).length > MAX_STR then .fatal .stringTooLong
      else match keyword (c :: rest) with
        | some k => .tokens [⟨k, 1, .none⟩, ⟨.FINISH, 1, .none⟩]
        | none => .tokens [⟨.ID, 1, .text (c :: rest)⟩, ⟨.FINISH, 1, .none⟩] := by
  have hstep : lexStep (c :: rest) ⟨[], 1⟩ =
      if (c :: rest).length > MAX_STR then .error .stringTooLong
      else match keyword (c :: rest) with
        | some k => .ok ([], ⟨[⟨k, 1, .none⟩], 1⟩)
        | none => .ok ([], ⟨[⟨.ID, 1, .text (c :: rest)⟩], 1⟩) := by
    rw [lexStep_word c rest _ hc]
    unfold lexWord
    dsimp only [List.tail_cons]
    rw [dropWhile_all _ rest hr]
    have := copyn_append (c :: rest) []
    rw [List.append_nil] at this
    rw [this]
    by_cases hlen : (c :: rest).length > MAX_STR
    · rw [if_pos hlen, if_pos hlen]
    · rw [if_neg hlen, if_neg hlen]
      dsimp only
      cases keyword (c :: rest) with
      | none => dsimp only; rw [addTk_nil]; rfl
      | some k => dsimp only; unfold emit; rw [addTk_nil]
  unfold tokenize
  rw [tokenizeLoop, if_neg (by rw [cur_cons]; exact word_ne_NUL hc), hstep]
  by_cases hlen : (c :: rest).length > MAX_STR
  · rw [if_pos hlen, if_pos hlen]
  · rw [if_neg hlen, if_neg hlen]
    cases keyword (c :: rest) with
    | none => exact tokenizeLoop_end _ _ _
    | some k => exact tokenizeLoop_end _ _ _

/-- At an opening double quote with no closing quote in the rest of the input
the loop of `tokenize` ends with the missing-quote diagnostic, which carries
the current value of the line counter. -/
theorem tokenizeLoop_missing_quote (fuel : Nat) (rest : List Char) (st : LexState)
    (h : '"' ∉ rest) :
    tokenizeLoop (fuel + 1) ('"' :: rest) st = .fatal (.missingQuote st.line) := by
  have hcur : cur (List.dropWhile (fun x => x != NUL && x != '"') rest) ≠ '"' := by
    induction rest with
    | nil => decide
    | cons a rest ih =>
      have ha : a ≠ '"' := fun e => h (e ▸ List.mem_cons_self _ _)
      rw [List.dropWhile_cons]
      by_cases h0 : a = NUL
      · subst h0
        rw [if_neg (by decide), cur_cons]
        exact ha
      · rw [if_pos (by simp [h0, ha])]
        exact ih fun hm => h (List.mem_cons_of_mem _ hm)
  rw [tokenizeLoop, if_neg (by rw [cur_cons]; decide), lexStep_quote]
  unfold lexString
  dsimp only [List.tail_cons]
  rw [if_neg hcur]

/-! ## The claims on the lexer -/

/-- C3. On every input on which `tokenize` raises no fatal diagnostic it
returns a token sequence; that sequence is not empty, its last token is the
end-marker FINISH and no token before it is; on the empty input the sequence
is the end-marker alone. -/
theorem tokenize_ends_with_FINISH (pch : List Char) (h : ∀ e, tokenize pch ≠ .fatal e) :
    (∃ init last, tokenize pch = .tokens (init ++ [last]) ∧ init ++ [last] ≠ [] ∧
      last.code = .FINISH ∧ ∀ t ∈ init, t.code ≠ .FINISH) ∧
    tokenize [] = .tokens [⟨.FINISH, 1, .none⟩] := by
  refine ⟨?_, by decide⟩
  cases hr : tokenize pch with
  | fatal e => exact absurd hr (h e)
  | outOfFuel => exact absurd hr (tokenize_total pch)
  | tokens ts =>
    obtain ⟨mid, last, hts, hlast, hmid, -, -⟩ := tokenizeLoop_tokens _ pch _ ts hr
    refine ⟨mid, last, by rw [hts]; rfl, by simp, hlast, hmid⟩

/-- C3, at the input `x;`: ID, SEMICOLON and the end-marker. -/
theorem tokenize_ends_with_FINISH_witness :
    (∃ init last, tokenize ['x', ';'] = .tokens (init ++ [last]) ∧ init ++ [last] ≠ [] ∧
      last.code = .FINISH ∧ ∀ t ∈ init, t.code ≠ .FINISH) ∧
    tokenize [] = .tokens [⟨.FINISH, 1, .none⟩] :=
  tokenize_ends_with_FINISH ['x', ';'] (by
    have h : tokenize ['x', ';'] = .tokens [⟨.ID, 1, .text ['x']⟩, ⟨.SEMICOLON, 1, .none⟩,
      ⟨.FINISH, 1, .none⟩] := by decide
    intro e he
    rw [h] at he
    cases he)

/-- C4, the input of two lines
`"a`
`b" x`:
the string literal begins on line 1 and ends on line 2, the identifier `x`
stands on line 2 (one newline precedes its first character, at index 6), and
`tokenize` stores line 1 in the ID token and in the end-marker: the newline
inside the quotes was skipped without counting it. -/
theorem line_after_multiline_string :
    tokenize ['"', 'a', '\n', 'b', '"', ' ', 'x'] =
      .tokens [⟨.STR, 1, .text ['a', '\n', 'b']⟩, ⟨.ID, 1, .text ['x']⟩, ⟨.FINISH, 1, .none⟩] ∧
    (['"', 'a', '\n', 'b', '"', ' ', 'x'].take 6).count '\n' + 1 = 2 ∧
    ['"', 'a', '\n', 'b', '"', ' ', 'x'].get? 6 = some 'x' := by
  decide

/-- C10, the input of two lines
`"a`
`b" "abc`:
the quote that opens the unterminated literal stands on line 2 (index 6, one
newline before it), `tokenize` fails with the missing-quote diagnostic, and
the line it carries is 1. The witness of the claim, `"abc` alone, fails with
line 1 as claimed. -/
theorem missing_quote_line_after_multiline_string :
    tokenize ['"', 'a', '\n', 'b', '"', ' ', '"', 'a', 'b', 'c'] = .fatal (.missingQuote 1) ∧
    (['"', 'a', '\n', 'b', '"', ' ', '"', 'a', 'b', 'c'].take 6).count '\n' + 1 = 2 ∧
    ['"', 'a', '\n', 'b', '"', ' ', '"', 'a', 'b', 'c'].get? 6 = some '"' ∧
    tokenize ['"', 'a', 'b', 'c'] = .fatal (.missingQuote 1) := by
  decide

/-- C5, where the claim fails as stated: `1.` followed by 126 zeros is digits,
a dot and digits, 128 characters long; `copyn` refuses it and `tokenize` ends
with "String too long." instead of a REAL token. -/
theorem real_literal_too_long :
    (∀ c ∈ ['1'], isdigit c = true) ∧ (∀ c ∈ List.replicate 126 '0', isdigit c = true) ∧
    tokenize (['1'] ++ '.' :: List.replicate 126 '0') = .fatal .stringTooLong := by
  have h1 : ∀ c ∈ ['1'], isdigit c = true := by decide
  have h2 : ∀ c ∈ List.replicate 126 '0', isdigit c = true := by
    intro c hc
    rw [List.eq_of_mem_replicate hc]
    rfl
  refine ⟨h1, h2, ?_⟩
  rw [tokenize_real ['1'] (List.replicate 126 '0') (by decide) (by decide) h1 h2]
  rw [if_pos (by simp [MAX_STR])]

/-- C5, amended. A run of at most 127 digits whose value fits a 32-bit signed
int lexes to INT with that value, then FINISH; a text of at most 127
characters without a double quote (and, being inside a C string, without NUL),
put between double quotes, lexes to STR with that very text, then FINISH;
digits, a dot and digits, at most 127 characters in all, lex to one REAL token
made from that text, then FINISH. -/
theorem literal_round_trip :
    (∀ d : List Char, d ≠ [] → (∀ c ∈ d, isdigit c = true) → d.length ≤ 127 →
      decimalValue d < 2 ^ 31 →
      tokenize d = .tokens [⟨.INT, 1, .i (decimalValue d)⟩, ⟨.FINISH, 1, .none⟩]) ∧
    (∀ s : List Char, s.length ≤ 127 → '"' ∉ s → NUL ∉ s →
      tokenize ('"' :: s ++ ['"']) = .tokens [⟨.STR, 1, .text s⟩, ⟨.FINISH, 1, .none⟩]) ∧
    (∀ d1 d2 : List Char, d1 ≠ [] → d2 ≠ [] → (∀ c ∈ d1, isdigit c = true) →
      (∀ c ∈ d2, isdigit c = true) → (d1 ++ '.' :: d2).length ≤ 127 →
      tokenize (d1 ++ '.' :: d2) =
        .tokens [⟨.REAL, 1, .r (d1 ++ '.' :: d2)⟩, ⟨.FINISH, 1, .none⟩]) := by
  refine ⟨?_, ?_, ?_⟩
  · intro d hne hd hlen hv
    rw [tokenize_digits d hne hd, if_neg (by unfold MAX_STR; omega), atoi_of_lt d hv]
  · intro s hlen hq h0
    rw [tokenize_string s hq h0, if_neg (by unfold MAX_STR; omega)]
  · intro d1 d2 hne1 hne2 hd1 hd2 hlen
    rw [tokenize_real d1 d2 hne1 hne2 hd1 hd2, if_neg (by unfold MAX_STR; omega)]

/-- C5 at the inputs `123`, `"hi"` and `3.14`. -/
theorem literal_round_trip_witness :
    tokenize ['1', '2', '3'] = .tokens [⟨.INT, 1, .i 123⟩, ⟨.FINISH, 1, .none⟩] ∧
    tokenize ['"', 'h', 'i', '"'] = .tokens [⟨.STR, 1, .text ['h', 'i']⟩, ⟨.FINISH, 1, .none⟩] ∧
    tokenize ['3', '.', '1', '4'] =
      .tokens [⟨.REAL, 1, .r ['3', '.', '1', '4']⟩, ⟨.FINISH, 1, .none⟩] :=
  ⟨literal_round_trip.1 ['1', '2', '3'] (by decide) (by decide) (by decide) (by decide),
   literal_round_trip.2.1 ['h', 'i'] (by decide) (by decide) (by decide),
   literal_round_trip.2.2 ['3'] ['1', '4'] (by decide) (by decide) (by decide) (by decide)
     (by decide)⟩

theorem keyword_of_table : ∀ p ∈ keywordTable, keyword p.1 = some p.2 := by decide

theorem keyword_not_in_table (w : List Char) (h : ∀ p ∈ keywordTable, w ≠ p.1) :
    keyword w = none := by
  have h1 := h (['i', 'n', 't'], .TYPE_INT) (by decide)
  have h2 := h (['r', 'e', 'a', 'l'], .TYPE_REAL) (by decide)
  have h3 := h (['s', 't', 'r'], .TYPE_STR) (by decide)
  have h4 := h (['v', 'a', 'r'], .VAR) (by decide)
  have h5 := h (['i', 'f'], .IF) (by decide)
  have h6 := h (['e', 'l', 's', 'e'], .ELSE) (by decide)
  have h7 := h (['w', 'h', 'i', 'l', 'e'], .WHILE) (by decide)
  have h8 := h (['r', 'e', 't', 'u', 'r', 'n'], .RETURN) (by decide)
  have h9 := h (['f', 'u', 'n', 'c', 't', 'i', 'o', 'n'], .FUNCTION) (by decide)
  have h10 := h (['e', 'n', 'd'], .END) (by decide)
  have h11 := h (['a', 'n', 'd'], .AND) (by decide)
  have h12 := h (['o', 'r'], .OR) (by decide)
  unfold keyword
  rw [if_neg h1, if_neg h2, if_neg h3, if_neg h4, if_neg h5, if_neg h6, if_neg h7, if_neg h8,
    if_neg h9, if_neg h10, if_neg h11, if_neg h12]

/-- C6. A word of 1 to 127 letters, digits and underscores that starts with a
letter or an underscore lexes to exactly two tokens: when it is one of the
twelve keywords, the token of that keyword, without text; otherwise one ID
token whose text is the whole word; then FINISH. -/
theorem word_maximal_munch (w : List Char) (hlen : 1 ≤ w.length ∧ w.length ≤ 127)
    (hfirst : isalpha (cur w) = true ∨ cur w = '_')
    (hchars : ∀ x ∈ w, isalnum x = true ∨ x = '_') :
    (∀ p ∈ keywordTable, w = p.1 →
      tokenize w = .tokens [⟨p.2, 1, .none⟩, ⟨.FINISH, 1, .none⟩]) ∧
    ((∀ p ∈ keywordTable, w ≠ p.1) →
      tokenize w = .tokens [⟨.ID, 1, .text w⟩, ⟨.FINISH, 1, .none⟩]) := by
  cases w with
  | nil => simp at hlen
  | cons c rest =>
    have hr : ∀ x ∈ rest, (isalnum x || x == '_') = true := by
      intro x hx
      rcases hchars x (List.mem_cons_of_mem _ hx) with h | h
      · simp [h]
      · simp [h]
    have ht := tokenize_word c rest hfirst hr
    rw [if_neg (by unfold MAX_STR; omega)] at ht
    constructor
    · intro p hp hw
      rw [ht, hw, keyword_of_table p hp]
    · intro hn
      rw [ht, keyword_not_in_table _ hn]

/-- C6 at the word `variable`: one ID token with the whole word, not VAR and
then ID `iable`. -/
theorem word_maximal_munch_witness :
    tokenize ['v', 'a', 'r', 'i', 'a', 'b', 'l', 'e'] =
      .tokens [⟨.ID, 1, .text ['v', 'a', 'r', 'i', 'a', 'b', 'l', 'e']⟩,
        ⟨.FINISH, 1, .none⟩] :=
  (word_maximal_munch ['v', 'a', 'r', 'i', 'a', 'b', 'l', 'e'] (by decide) (by decide)
    (by decide)).2 (by decide)

/-! ## The grammar and the recognizer -/

/-- Where a derivation ends: what `defVar`, `defFunc`, `block` and `instr`
derive ends in SEMICOLON or END, and a `program` is the end-marker alone or
ends in SEMICOLON or END followed by the end-marker. -/
theorem Derives.last {n : NT} {w : List Code} (h : Derives n w) :
    (n = .program → w = [.FINISH] ∨
      ∃ u c, w = u ++ [c, .FINISH] ∧ (c = .SEMICOLON ∨ c = .END)) ∧
    (n = .defVar ∨ n = .defFunc ∨ n = .block ∨ n = .instr →
      ∃ u c, w = u ++ [c] ∧ (c = .SEMICOLON ∨ c = .END)) := by
  have step : ∀ {u v : List Code},
      (∃ u' c, u = u' ++ [c] ∧ (c = .SEMICOLON ∨ c = .END)) →
      (v = [.FINISH] ∨ ∃ u' c, v = u' ++ [c, .FINISH] ∧ (c = .SEMICOLON ∨ c = .END)) →
      (u ++ v = [.FINISH] ∨
        ∃ u' c, u ++ v = u' ++ [c, .FINISH] ∧ (c = .SEMICOLON ∨ c = .END)) := by
    intro u v hu hv
    right
    obtain ⟨u', c, rfl, hc⟩ := hu
    rcases hv with rfl | ⟨v', c', rfl, hc'⟩
    · exact ⟨u', c, by simp, hc⟩
    · exact ⟨u' ++ [c] ++ v', c', by simp, hc'⟩
  induction h with
  | program_end => exact ⟨fun _ => Or.inl rfl, by simp⟩
  | program_defVar _ _ ih1 ih2 =>
    exact ⟨fun _ => step (ih1.2 (by simp)) (ih2.1 rfl), by simp⟩
  | program_defFunc _ _ ih1 ih2 =>
    exact ⟨fun _ => step (ih1.2 (by simp)) (ih2.1 rfl), by simp⟩
  | program_block _ _ ih1 ih2 =>
    exact ⟨fun _ => step (ih1.2 (by simp)) (ih2.1 rfl), by simp⟩
  | defVar _ _ => exact ⟨by simp, fun _ => ⟨_, _, rfl, Or.inl rfl⟩⟩
  | defFunc _ _ _ _ _ _ => exact ⟨by simp, fun _ => ⟨_, _, rfl, Or.inr rfl⟩⟩
  | defFunc_params _ _ _ _ _ _ _ _ => exact ⟨by simp, fun _ => ⟨_, _, rfl, Or.inr rfl⟩⟩
  | block_one _ ih => exact ⟨by simp, fun _ => ih.2 (by simp)⟩
  | @block_cons u v _ _ _ ih2 =>
    refine ⟨by simp, fun _ => ?_⟩
    obtain ⟨u', c, rfl, hc⟩ := ih2.2 (by simp)
    exact ⟨u ++ u', c, by simp, hc⟩
  | instr_empty => exact ⟨by simp, fun _ => ⟨[], _, rfl, Or.inl rfl⟩⟩
  | instr_expr _ _ => exact ⟨by simp, fun _ => ⟨_, _, rfl, Or.inl rfl⟩⟩
  | instr_if _ _ _ _ => exact ⟨by simp, fun _ => ⟨_, _, rfl, Or.inr rfl⟩⟩
  | instr_if_else _ _ _ _ _ _ => exact ⟨by simp, fun _ => ⟨_, _, rfl, Or.inr rfl⟩⟩
  | instr_return _ _ => exact ⟨by simp, fun _ => ⟨_, _, rfl, Or.inl rfl⟩⟩
  | instr_while _ _ _ _ => exact ⟨by simp, fun _ => ⟨_, _, rfl, Or.inr rfl⟩⟩
  | _ => exact ⟨by simp, by simp⟩

/-! ## The claims on the recognizer -/

/-- C1, the input `;`. Its tokens SEMICOLON FINISH are a `program` of the
grammar (one block of one empty instruction, as the comment above `instr` in
the source also has it: `instr ::= expr? SEMICOLON`), and `parse` ends in the
fatal diagnostic "Expected end of program" with the cursor on the semicolon:
`instr` tries `expr`, then IF, RETURN and WHILE, and never a lone SEMICOLON. -/
theorem empty_statement_rejected :
    tokenize [';'] = .tokens (ofCodes [.SEMICOLON, .FINISH]) ∧
    Derives .program [.SEMICOLON, .FINISH] ∧
    parse (ofCodes [.SEMICOLON, .FINISH]) = .fatal 0 1 "Expected end of program" := by
  refine ⟨by decide, ?_, by decide⟩
  exact Derives.program_block (Derives.block_one Derives.instr_empty) Derives.program_end

/-- C2, the input `-`. `parse` accepts its tokens SUB FINISH: `exprPrefix`
consumes the SUB, `factor` fails on the end-marker, the failure goes up to
`program` with the cursor left after the SUB, and `consume(FINISH)` succeeds.
No rule of the grammar derives SUB FINISH. -/
theorem lone_minus_accepted :
    tokenize ['-'] = .tokens (ofCodes [.SUB, .FINISH]) ∧
    parse (ofCodes [.SUB, .FINISH]) = .ret true 2 ∧
    ¬ Derives .program [.SUB, .FINISH] := by
  refine ⟨by decide, by decide, ?_⟩
  intro h
  rcases h.last.1 rfl with h | ⟨u, c, h, hc⟩
  · cases h
  · have h2 := congrArg List.reverse h
    rcases hc with rfl | rfl <;> simp at h2

/-- C7. On every token sequence ID op1 ID op2 ID SEMICOLON FINISH with op1 and
op2 among LESS and EQUAL (the tokens of `a < b < c;` are one), `exprComp`
started at the first token consumes ID op1 ID and returns with the cursor on
op2, at index 3, and `parse` does not accept: it ends in the fatal diagnostic
"Expected ';' after expression" with the cursor at index 3, so the line it
reports is the line of the second comparison operator. -/
theorem comparison_not_chained (toks : List Token) (op1 op2 : Code)
    (h1 : op1 = .LESS ∨ op1 = .EQUAL) (h2 : op2 = .LESS ∨ op2 = .EQUAL)
    (hc : codes toks = [.ID, op1, .ID, op2, .ID, .SEMICOLON, .FINISH]) :
    ∃ t, toks[3]? = some t ∧ t.code = op2 ∧
      (∀ fuel, exprComp toks (fuel + 5) 0 = .ret true 3) ∧
      parse toks = .fatal 3 t.line "Expected ';' after expression" ∧
      ¬ Accepts toks := by
  match toks, hc with
  | [⟨c0, l0, p0⟩, ⟨c1, l1, p1⟩, ⟨c2, l2, p2⟩, ⟨c3, l3, p3⟩, ⟨c4, l4, p4⟩, ⟨c5, l5, p5⟩,
      ⟨c6, l6, p6⟩], hc =>
    simp only [codes, List.map_cons, List.map_nil, List.cons.injEq, and_true] at hc
    obtain ⟨rfl, rfl, rfl, rfl, rfl, rfl, rfl⟩ := hc
    refine ⟨⟨c3, l3, p3⟩, rfl, rfl, ?_⟩
    have key : (∀ fuel, exprComp [⟨.ID, l0, p0⟩, ⟨c1, l1, p1⟩, ⟨.ID, l2, p2⟩, ⟨c3, l3, p3⟩,
          ⟨.ID, l4, p4⟩, ⟨.SEMICOLON, l5, p5⟩, ⟨.FINISH, l6, p6⟩] (fuel + 5) 0 = .ret true 3) ∧
        parse [⟨.ID, l0, p0⟩, ⟨c1, l1, p1⟩, ⟨.ID, l2, p2⟩, ⟨c3, l3, p3⟩,
          ⟨.ID, l4, p4⟩, ⟨.SEMICOLON, l5, p5⟩, ⟨.FINISH, l6, p6⟩] =
          .fatal 3 l3 "Expected ';' after expression" := by
      rcases h1 with rfl | rfl <;> rcases h2 with rfl | rfl <;>
        exact ⟨fun _ => rfl, rfl⟩
    refine ⟨key.1, key.2, ?_⟩
    rintro ⟨j, hj⟩
    rw [key.2] at hj
    cases hj

/-- C7 at the tokens of `a < b < c;`. -/
theorem comparison_not_chained_witness :
    tokenize "a < b < c;".toList =
      .tokens [⟨.ID, 1, .text ['a']⟩, ⟨.LESS, 1, .none⟩, ⟨.ID, 1, .text ['b']⟩,
        ⟨.LESS, 1, .none⟩, ⟨.ID, 1, .text ['c']⟩, ⟨.SEMICOLON, 1, .none⟩,
        ⟨.FINISH, 1, .none⟩] ∧
    ∃ t, [⟨.ID, 1, .text ['a']⟩, ⟨.LESS, 1, .none⟩, ⟨.ID, 1, .text ['b']⟩,
        ⟨.LESS, 1, .none⟩, ⟨.ID, 1, .text ['c']⟩, ⟨.SEMICOLON, 1, .none⟩,
        (⟨.FINISH, 1, .none⟩ : Token)][3]? = some t ∧
      t.code = .LESS ∧
      (∀ fuel, exprComp [⟨.ID, 1, .text ['a']⟩, ⟨.LESS, 1, .none⟩, ⟨.ID, 1, .text ['b']⟩,
        ⟨.LESS, 1, .none⟩, ⟨.ID, 1, .text ['c']⟩, ⟨.SEMICOLON, 1, .none⟩,
        ⟨.FINISH, 1, .none⟩] (fuel + 5) 0 = .ret true 3) ∧
      parse [⟨.ID, 1, .text ['a']⟩, ⟨.LESS, 1, .none⟩, ⟨.ID, 1, .text ['b']⟩,
        ⟨.LESS, 1, .none⟩, ⟨.ID, 1, .text ['c']⟩, ⟨.SEMICOLON, 1, .none⟩,
        ⟨.FINISH, 1, .none⟩] = .fatal 3 t.line "Expected ';' after expression" ∧
      ¬ Accepts [⟨.ID, 1, .text ['a']⟩, ⟨.LESS, 1, .none⟩, ⟨.ID, 1, .text ['b']⟩,
        ⟨.LESS, 1, .none⟩, ⟨.ID, 1, .text ['c']⟩, ⟨.SEMICOLON, 1, .none⟩,
        ⟨.FINISH, 1, .none⟩] :=
  ⟨by decide, comparison_not_chained _ .LESS .LESS (Or.inl rfl) (Or.inl rfl) rfl⟩

/-- C8. Where the token at the cursor is an ID and the next token is not
ASSIGN, `exprAssign` ends exactly as `exprComp` started at the same cursor
does: same verdict, same fatal diagnostic, same final cursor (in the model,
with the one unit of fuel the extra call costs). Every token sequence ID
SEMICOLON FINISH, as the tokens of `x;`, is accepted by `parse`. -/
theorem exprAssign_backtracks (toks : List Token) (p : Nat) (t0 t1 : Token)
    (h0 : toks[p]? = some t0) (hid : t0.code = .ID)
    (h1 : toks[p + 1]? = some t1) (hna : t1.code ≠ .ASSIGN) :
    (∀ fuel, exprAssign toks (fuel + 1) p = exprComp toks fuel p) ∧
    (∀ r, Returns (exprAssign toks) p r ↔ Returns (exprComp toks) p r) ∧
    (∀ ts, codes ts = [.ID, .SEMICOLON, .FINISH] → parse ts = .ret true 3) := by
  have key : ∀ fuel, exprAssign toks (fuel + 1) p = exprComp toks fuel p := by
    intro fuel
    rw [exprAssign]
    simp only [consume, h0, hid, h1, Res.branch, if_true, if_neg hna, Nat.add_sub_cancel]
  refine ⟨key, ?_, ?_⟩
  · intro r
    constructor
    · rintro ⟨fuel, hf, hr⟩
      cases fuel with
      | zero => rw [exprAssign] at hf; exact absurd hf.symm hr
      | succ n => exact ⟨n, by rw [← key n]; exact hf, hr⟩
    · rintro ⟨fuel, hf, hr⟩
      exact ⟨fuel + 1, by rw [key fuel]; exact hf, hr⟩
  · intro ts hts
    match ts, hts with
    | [⟨c0, l0, p0⟩, ⟨c1, l1, p1⟩, ⟨c2, l2, p2⟩], hts =>
      simp only [codes, List.map_cons, List.map_nil, List.cons.injEq, and_true] at hts
      obtain ⟨rfl, rfl, rfl⟩ := hts
      rfl

/-- C8 at the tokens of `x;`, cursor 0. -/
theorem exprAssign_backtracks_witness :
    tokenize "x;".toList =
      .tokens [⟨.ID, 1, .text ['x']⟩, ⟨.SEMICOLON, 1, .none⟩, ⟨.FINISH, 1, .none⟩] ∧
    (∀ fuel, exprAssign [⟨.ID, 1, .text ['x']⟩, ⟨.SEMICOLON, 1, .none⟩, ⟨.FINISH, 1, .none⟩]
        (fuel + 1) 0 =
      exprComp [⟨.ID, 1, .text ['x']⟩, ⟨.SEMICOLON, 1, .none⟩, ⟨.FINISH, 1, .none⟩] fuel 0) ∧
    parse [⟨.ID, 1, .text ['x']⟩, ⟨.SEMICOLON, 1, .none⟩, ⟨.FINISH, 1, .none⟩] = .ret true 3 :=
  have h := exprAssign_backtracks
    [⟨.ID, 1, .text ['x']⟩, ⟨.SEMICOLON, 1, .none⟩, ⟨.FINISH, 1, .none⟩] 0
    ⟨.ID, 1, .text ['x']⟩ ⟨.SEMICOLON, 1, .none⟩ rfl rfl rfl (by decide)
  ⟨by decide, h.1, h.2.2 _ rfl⟩

/-! ## Fuel -/

theorem FuelLe.refl (r : Res) : FuelLe r r := Or.inr rfl

theorem FuelLe.branch_mono {r r' : Res} {t t' e e' : Nat → Res} (hr : FuelLe r r')
    (ht : ∀ i, FuelLe (t i) (t' i)) (he : ∀ i, FuelLe (e i) (e' i)) :
    FuelLe (r.branch t e) (r'.branch t' e') := by
  rcases hr with rfl | rfl
  · exact Or.inl rfl
  · cases r with
    | ret b i => cases b <;> simp only [Res.branch] <;> first | exact ht i | exact he i
    | fatal i l m => exact Or.inr rfl
    | outOfRange i => exact Or.inr rfl
    | outOfFuel => exact Or.inl rfl

theorem FuelLe.orElse_mono {r r' : Res} {e e' : Nat → Res} (hr : FuelLe r r')
    (he : ∀ i, FuelLe (e i) (e' i)) : FuelLe (r.orElse e) (r'.orElse e') :=
  FuelLe.branch_mono hr (fun _ => FuelLe.refl _) he

theorem FuelLe.andThen_mono {r r' : Res} {k k' : Nat → Res} (hr : FuelLe r r')
    (hk : ∀ i, FuelLe (k i) (k' i)) : FuelLe (r.andThen k) (r'.andThen k') :=
  FuelLe.branch_mono hr hk hk

theorem defVarLoop_mono (toks : List Token) :
    ∀ n m, n ≤ m → ∀ i, FuelLe (defVarLoop toks n i) (defVarLoop toks m i) := by
  intro n
  induction n with
  | zero => intro m _ i; exact Or.inl rfl
  | succ n ih =>
    intro m hm i
    obtain ⟨m, rfl⟩ : ∃ m', m = m' + 1 := ⟨m - 1, by omega⟩
    rw [defVarLoop, defVarLoop]
    exact FuelLe.branch_mono (FuelLe.refl _) (fun i => ih m (by omega) i) (fun _ => FuelLe.refl _)

theorem funcParamsLoop_mono (toks : List Token) :
    ∀ n m, n ≤ m → ∀ i, FuelLe (funcParamsLoop toks n i) (funcParamsLoop toks m i) := by
  intro n
  induction n with
  | zero => intro m _ i; exact Or.inl rfl
  | succ n ih =>
    intro m hm i
    obtain ⟨m, rfl⟩ : ∃ m', m = m' + 1 := ⟨m - 1, by omega⟩
    rw [funcParamsLoop, funcParamsLoop]
    exact FuelLe.branch_mono (FuelLe.refl _)
      (fun _ => FuelLe.branch_mono (FuelLe.refl _) (fun i => ih m (by omega) i)
        (fun _ => FuelLe.refl _))
      (fun _ => FuelLe.refl _)

theorem funcParams_mono (toks : List Token) (n m : Nat) (h : n ≤ m) (i : Nat) :
    FuelLe (funcParams toks n i) (funcParams toks m i) := by
  unfold funcParams
  exact FuelLe.branch_mono (FuelLe.refl _)
    (fun i => FuelLe.andThen_mono (funcParamsLoop_mono toks n m h i) (fun _ => FuelLe.refl _))
    (fun _ => FuelLe.refl _)

theorem MonoAll.zero (toks : List Token) (m : Nat) : MonoAll toks 0 m := by
  constructor <;> intro i <;> exact Or.inl rfl

theorem MonoAll.succ {toks : List Token} {n m : Nat} (h : MonoAll toks n m) :
    MonoAll toks (n + 1) (m + 1) := by
  constructor
  all_goals intro i
  all_goals first
    | rw [block, block] | rw [blockLoop, blockLoop] | rw [instr, instr] | rw [expr, expr]
    | rw [exprLogic, exprLogic] | rw [exprLogicLoop, exprLogicLoop]
    | rw [exprAssign, exprAssign] | rw [exprComp, exprComp] | rw [exprAdd, exprAdd]
    | rw [exprAddLoop, exprAddLoop] | rw [exprMul, exprMul] | rw [exprMulLoop, exprMulLoop]
    | rw [ exprPrefix, exprPrefix] | rw [factor, factor]
    | rw [factorArgsLoop, factorArgsLoop]
  all_goals repeat' first
    | with_reducible exact h.hblock _ | with_reducible exact h.hblockLoop _ | with_reducible exact h.hinstr _ | with_reducible exact h.hexpr _
    | with_reducible exact h.hexprLogic _ | with_reducible exact h.hexprLogicLoop _ | with_reducible exact h.hexprAssign _
    | with_reducible exact h.hexprComp _ | with_reducible exact h.hexprAdd _ | with_reducible exact h.hexprAddLoop _
    | with_reducible exact h.hexprMul _ | with_reducible exact h.hexprMulLoop _ | with_reducible exact h.hexprPre _
    | with_reducible exact h.hfactor _ | with_reducible exact h.hfactorArgsLoop _
    | with_reducible apply FuelLe.branch_mono | with_reducible apply FuelLe.orElse_mono
    | with_reducible apply FuelLe.andThen_mono
    | with_reducible exact FuelLe.refl _ | intro _

/-- More fuel never changes how a run of the mutual recursion ends. -/
theorem monoAll (toks : List Token) : ∀ n m, n ≤ m → MonoAll toks n m := by
  intro n
  induction n with
  | zero => intro m _; exact MonoAll.zero toks m
  | succ n ih =>
    intro m hm
    obtain ⟨m, rfl⟩ : ∃ m', m = m' + 1 := ⟨m - 1, by omega⟩
    exact (ih m (by omega)).succ

theorem defFunc_mono (toks : List Token) (n m : Nat) (h : n ≤ m) (i : Nat) :
    FuelLe (defFunc toks n i) (defFunc toks m i) := by
  have hb := (monoAll toks n m h).hblock
  have hp := funcParams_mono toks n m h
  have hv := defVarLoop_mono toks n m h
  unfold defFunc
  repeat' first
    | with_reducible exact hb _ | with_reducible exact hp _ | with_reducible exact hv _
    | with_reducible apply FuelLe.branch_mono | with_reducible apply FuelLe.orElse_mono
    | with_reducible apply FuelLe.andThen_mono
    | with_reducible exact FuelLe.refl _ | intro _

theorem programLoop_mono (toks : List Token) :
    ∀ n m, n ≤ m → ∀ i, FuelLe (programLoop toks n i) (programLoop toks m i) := by
  intro n
  induction n with
  | zero => intro m _ i; exact Or.inl rfl
  | succ n ih =>
    intro m hm i
    obtain ⟨m, rfl⟩ : ∃ m', m = m' + 1 := ⟨m - 1, by omega⟩
    have hb := (monoAll toks n m (by omega)).hblock
    have hf := defFunc_mono toks n m (by omega)
    have hl := ih m (by omega)
    rw [programLoop, programLoop]
    repeat' first
      | with_reducible exact hb _ | with_reducible exact hf _ | with_reducible exact hl _
      | with_reducible apply FuelLe.branch_mono | with_reducible apply FuelLe.orElse_mono
      | with_reducible apply FuelLe.andThen_mono
      | with_reducible exact FuelLe.refl _ | intro _

theorem program_mono (toks : List Token) (n m : Nat) (h : n ≤ m) (i : Nat) :
    FuelLe (program toks n i) (program toks m i) := by
  unfold program
  exact FuelLe.andThen_mono (programLoop_mono toks n m h i) (fun _ => FuelLe.refl _)

/-- A run that ended keeps its result on any larger amount of fuel. -/
theorem FuelLe.eq_of_ne {r r' : Res} (h : FuelLe r r') (hr : r ≠ .outOfFuel) : r' = r := by
  rcases h with h | h
  · exact absurd h hr
  · exact h.symm

/-! ## Tokens the cursor cannot pass -/

theorem defFunc_eq (toks : List Token) (fuel i : Nat) :
    defFunc toks fuel i =
      (consume toks .FUNCTION i).branch (defFuncTail toks fuel) (fun i => .ret false i) := rfl

theorem instr_eq (toks : List Token) (fuel i : Nat) :
    instr toks (fuel + 1) i =
      (expr toks fuel i).branch
        (fun i => (consume toks .SEMICOLON i).branch
          (fun i => .ret true i)
          (tkerr toks "Expected ';' after expression"))
        (fun i => (consume toks .IF i).branch (ifTail toks fuel)
          (fun i => (consume toks .RETURN i).branch
            (fun i => (expr toks fuel i).branch
              (fun i => (consume toks .SEMICOLON i).branch
                (fun i => .ret true i)
                (tkerr toks "Expected ';' after 'return' expression"))
              (tkerr toks "Expected expression after 'return'"))
            (fun i => (consume toks .WHILE i).branch (whileTail toks fuel)
              (fun i => .ret false i)))) := by
  rw [instr]; rfl

theorem Below.ret {k i : Nat} (b : Bool) (h : i ≤ k) : Below k (.ret b i) := by
  refine ⟨fun b' j hj => ?_⟩; cases hj; exact h

theorem Below.tkerr (k : Nat) (toks : List Token) (msg : String) (i : Nat) :
    Below k (tkerr toks msg i) := by
  refine ⟨fun b j hj => ?_⟩
  unfold LFTC.tkerr at hj
  split at hj <;> cases hj

theorem Below.outOfFuel (k : Nat) : Below k .outOfFuel := by
  refine ⟨fun b j hj => ?_⟩; cases hj

theorem Below.branch {k : Nat} {r : Res} {t e : Nat → Res} (hr : Below k r)
    (ht : ∀ i, i ≤ k → Below k (t i)) (he : ∀ i, i ≤ k → Below k (e i)) :
    Below k (r.branch t e) := by
  cases r with
  | ret b i =>
    have hi := hr.le b i rfl
    cases b
    · exact he i hi
    · exact ht i hi
  | fatal i l m => refine ⟨fun b j hj => ?_⟩; cases hj
  | outOfRange i => refine ⟨fun b j hj => ?_⟩; cases hj
  | outOfFuel => refine ⟨fun b j hj => ?_⟩; cases hj

theorem Below.orElse {k : Nat} {r : Res} {e : Nat → Res} (hr : Below k r)
    (he : ∀ i, i ≤ k → Below k (e i)) : Below k (r.orElse e) :=
  Below.branch hr (fun _ hi => Below.ret true hi) he

theorem Below.andThen {k : Nat} {r : Res} {c : Nat → Res} (hr : Below k r)
    (hc : ∀ i, i ≤ k → Below k (c i)) : Below k (r.andThen c) :=
  Below.branch hr hc hc

theorem Below.of_fuelLe {k : Nat} {r r' : Res} (h : FuelLe r r') (hr : Below k r') :
    Below k r := by
  rcases h with rfl | rfl
  · exact Below.outOfFuel k
  · exact hr

/-- A `consume` for a code other than the one at `k` cannot step over `k`. -/
theorem Below.consume {toks : List Token} {k : Nat} {t : Token} (hk : toks[k]? = some t)
    {c : Code} (hc : t.code ≠ c) {i : Nat} (hi : i ≤ k) : Below k (consume toks c i) := by
  refine ⟨fun b j hj => ?_⟩
  unfold LFTC.consume at hj
  split at hj
  · cases hj
  · rename_i t' ht'
    split at hj
    · rename_i hcode
      cases hj
      rcases Nat.lt_or_eq_of_le hi with h | h
      · exact h
      · subst h
        rw [hk] at ht'
        cases ht'
        exact absurd hcode hc
    · cases hj; exact hi

/-- The `consume` that opens a construct, at or before `k`: either it stays at
or before `k`, or the token at `k` is the one asked for and the rest of the
construct goes on from `k + 1`. -/
theorem Below.consume_wall {toks : List Token} {k : Nat} {t : Token} {c : Code} {i : Nat}
    {tl e : Nat → Res} (hk : toks[k]? = some t) (hi : i ≤ k)
    (htl : ∀ j, j ≤ k → Below k (tl j)) (hwall : t.code = c → Below k (tl (k + 1)))
    (he : ∀ j, j ≤ k → Below k (e j)) :
    Below k ((LFTC.consume toks c i).branch tl e) := by
  unfold LFTC.consume
  split
  · refine ⟨fun b j hj => ?_⟩; cases hj
  · rename_i t' ht'
    split
    · rename_i hcode
      rcases Nat.lt_or_eq_of_le hi with h | h
      · exact htl _ h
      · subst h
        rw [hk] at ht'
        cases ht'
        exact hwall hcode
    · exact he _ hi

theorem wall_ne {a c : Code} (hw : wallCode a = true) (hc : wallCode c = false) : a ≠ c := by
  intro h; rw [h, hc] at hw; cases hw

theorem Below.consume_plain {toks : List Token} {k : Nat} {t : Token} (hk : toks[k]? = some t)
    (hw : wallCode t.code = true) {c : Code} (hc : wallCode c = false) {i : Nat}
    (hi : i ≤ k) : Below k (LFTC.consume toks c i) :=
  Below.consume hk (wall_ne hw hc) hi

theorem tkerr_ne_ret (toks : List Token) (msg : String) (i : Nat) (b : Bool) (j : Nat) :
    tkerr toks msg i ≠ .ret b j := by
  unfold tkerr
  split <;> intro h <;> cases h

theorem belowAll {toks : List Token} {k : Nat} {t : Token} (w : Wall toks k t) :
    ∀ fuel, BelowAll toks k fuel := by
  have hk := w.tok
  have hw := w.code
  have hI := w.cond
  have hW := w.loop
  intro fuel
  induction fuel with
  | zero => constructor <;> intro i _ <;> exact Below.outOfFuel k
  | succ n ih =>
    constructor
    all_goals intro i hi
    all_goals first
      | rw [block] | rw [blockLoop] | rw [instr_eq] | rw [expr]
      | rw [exprLogic] | rw [exprLogicLoop] | rw [exprAssign] | rw [exprComp] | rw [exprAdd]
      | rw [exprAddLoop] | rw [exprMul] | rw [exprMulLoop] | rw [ exprPrefix] | rw [factor]
      | rw [factorArgsLoop]
    all_goals repeat' first
      | with_reducible exact Below.ret _ (by assumption)
      | with_reducible exact Below.tkerr _ _ _ _
      | ((with_reducible refine Below.consume_plain hk hw ?_ (by assumption)); rfl)
      | with_reducible exact ih.hblock _ (by omega) | with_reducible exact ih.hblockLoop _ (by omega)
      | with_reducible exact ih.hinstr _ (by omega) | with_reducible exact ih.hexpr _ (by omega)
      | with_reducible exact ih.hexprLogic _ (by omega) | with_reducible exact ih.hexprLogicLoop _ (by omega)
      | with_reducible exact ih.hexprAssign _ (by omega) | with_reducible exact ih.hexprComp _ (by omega)
      | with_reducible exact ih.hexprAdd _ (by omega) | with_reducible exact ih.hexprAddLoop _ (by omega)
      | with_reducible exact ih.hexprMul _ (by omega) | with_reducible exact ih.hexprMulLoop _ (by omega)
      | with_reducible exact ih.hexprPre _ (by omega) | with_reducible exact ih.hfactor _ (by omega)
      | with_reducible exact ih.hfactorArgsLoop _ (by omega)
      | refine Below.consume_wall (c := .IF) hk (by assumption) ?_ (fun h => hI h _) ?_
      | refine Below.consume_wall (c := .WHILE) hk (by assumption) ?_ (fun h => hW h _) ?_
      | with_reducible apply Below.branch | with_reducible apply Below.orElse
      | with_reducible apply Below.andThen
      | unfold ifTail | unfold whileTail
      | intro i hi

theorem defVarLoop_below {toks : List Token} {k : Nat} {t : Token} (w : Wall toks k t) :
    ∀ fuel i, i ≤ k → Below k (defVarLoop toks fuel i) := by
  have hk := w.tok
  have hw := w.code
  intro fuel
  induction fuel with
  | zero => intro i _; exact Below.outOfFuel k
  | succ n ih =>
    intro i hi
    rw [defVarLoop]
    unfold defVar baseType
    repeat' first
      | with_reducible exact Below.ret _ (by assumption)
      | with_reducible exact Below.tkerr _ _ _ _
      | ((with_reducible refine Below.consume_plain hk hw ?_ (by assumption)); rfl)
      | with_reducible exact ih _ (by assumption)
      | with_reducible apply Below.branch | with_reducible apply Below.orElse
      | with_reducible apply Below.andThen
      | intro i hi

theorem funcParamsLoop_below {toks : List Token} {k : Nat} {t : Token} (w : Wall toks k t) :
    ∀ fuel i, i ≤ k → Below k (funcParamsLoop toks fuel i) := by
  have hk := w.tok
  have hw := w.code
  intro fuel
  induction fuel with
  | zero => intro i _; exact Below.outOfFuel k
  | succ n ih =>
    intro i hi
    rw [funcParamsLoop]
    unfold funcParam baseType
    repeat' first
      | with_reducible exact Below.ret _ (by assumption)
      | with_reducible exact Below.tkerr _ _ _ _
      | ((with_reducible refine Below.consume_plain hk hw ?_ (by assumption)); rfl)
      | with_reducible exact ih _ (by assumption)
      | with_reducible apply Below.branch | with_reducible apply Below.orElse
      | with_reducible apply Below.andThen
      | intro i hi

theorem defFunc_below {toks : List Token} {k : Nat} {t : Token} (w : Wall toks k t)
    (fuel i : Nat) (hi : i ≤ k) : Below k (defFunc toks fuel i) := by
  have hk := w.tok
  have hw := w.code
  have hF := w.func
  have hb := (belowAll w fuel).hblock
  have hv := defVarLoop_below w fuel
  have hp := funcParamsLoop_below w fuel
  rw [defFunc_eq]
  refine Below.consume_wall (c := .FUNCTION) hk hi ?_ (fun h => hF h _) ?_
  · intro j hj
    unfold defFuncTail funcParams funcParam baseType
    repeat' first
      | with_reducible exact Below.ret _ (by assumption)
      | with_reducible exact Below.tkerr _ _ _ _
      | ((with_reducible refine Below.consume_plain hk hw ?_ (by assumption)); rfl)
      | with_reducible exact hb _ (by assumption) | with_reducible exact hv _ (by assumption)
      | with_reducible exact hp _ (by assumption)
      | with_reducible apply Below.branch | with_reducible apply Below.orElse
      | with_reducible apply Below.andThen
      | intro i hi
  · intro j hj; exact Below.ret _ hj

theorem programLoop_below {toks : List Token} {k : Nat} {t : Token} (w : Wall toks k t) :
    ∀ fuel i, i ≤ k → Below k (programLoop toks fuel i) := by
  have hk := w.tok
  have hw := w.code
  intro fuel
  induction fuel with
  | zero => intro i _; exact Below.outOfFuel k
  | succ n ih =>
    intro i hi
    have hb := (belowAll w n).hblock
    have hf := defFunc_below w n
    rw [programLoop]
    unfold defVar baseType
    repeat' first
      | with_reducible exact Below.ret _ (by assumption)
      | with_reducible exact Below.tkerr _ _ _ _
      | ((with_reducible refine Below.consume_plain hk hw ?_ (by assumption)); rfl)
      | with_reducible exact ih _ (by assumption) | with_reducible exact hb _ (by assumption)
      | with_reducible exact hf _ (by assumption)
      | with_reducible apply Below.branch | with_reducible apply Below.orElse
      | with_reducible apply Below.andThen
      | intro i hi

/-- A token sequence with a wall that no end-marker precedes is never
accepted, whatever the fuel. -/
theorem Wall.not_accepted {toks : List Token} {k : Nat} {t : Token} (w : Wall toks k t)
    (hfin : ∀ i u, i < k → toks[i]? = some u → u.code ≠ .FINISH) (fuel j : Nat) :
    program toks fuel 0 ≠ .ret true j := by
  intro h
  unfold program at h
  have hl := programLoop_below w fuel 0 (Nat.zero_le _)
  cases hr : programLoop toks fuel 0 with
  | ret b i =>
    have hi := hl.le b i hr
    rw [hr] at h
    have h' : (consume toks .FINISH i).branch (fun i => .ret true i)
        (tkerr toks "Expected end of program") = .ret true j := by
      cases b <;> exact h
    unfold consume at h'
    split at h'
    · cases h'
    · rename_i u hu
      split at h'
      · rename_i hcode
        rcases Nat.lt_or_eq_of_le hi with hlt | heq
        · exact hfin i u hlt hu hcode
        · subst heq
          rw [w.tok] at hu
          cases hu
          exact wall_ne w.code (show wallCode .FINISH = false from rfl) hcode
      · exact tkerr_ne_ret _ _ _ _ _ h'
  | fatal i l m => rw [hr] at h; cases h
  | outOfRange i => rw [hr] at h; cases h
  | outOfFuel => rw [hr] at h; cases h

/-! ## Function headers -/

theorem CodesAt.head {toks : List Token} {p : Nat} {c : Code} {w : List Code}
    (h : CodesAt toks p (c :: w)) : ∃ t, toks[p]? = some t ∧ t.code = c := by
  obtain ⟨s, hs⟩ := h
  have h0 : ((codes toks).drop p)[0]? = some c := by rw [← hs]; simp
  rw [List.getElem?_drop, Nat.add_zero] at h0
  unfold codes at h0
  rw [List.getElem?_map] at h0
  cases ht : toks[p]? with
  | none => rw [ht] at h0; cases h0
  | some t =>
    rw [ht] at h0
    exact ⟨t, rfl, by simpa using h0⟩

theorem CodesAt.tail {toks : List Token} {p : Nat} {c : Code} {w : List Code}
    (h : CodesAt toks p (c :: w)) : CodesAt toks (p + 1) w := by
  obtain ⟨s, hs⟩ := h
  refine ⟨s, ?_⟩
  have : (codes toks).drop (p + 1) = ((codes toks).drop p).drop 1 := by
    simp [List.drop_drop, Nat.add_comm]
  rw [this, ← hs]
  rfl

theorem CodesAt.append_right {toks : List Token} {u w : List Code} :
    ∀ {p : Nat}, CodesAt toks p (u ++ w) → CodesAt toks (p + u.length) w := by
  induction u with
  | nil => intro p h; simpa using h
  | cons c u ih =>
    intro p h
    have := ih (p := p + 1) (CodesAt.tail h)
    rw [List.length_cons]
    rw [show p + (u.length + 1) = p + 1 + u.length by omega]
    exact this

theorem consume_eq {toks : List Token} {p : Nat} {t : Token} (h : toks[p]? = some t)
    (c : Code) :
    consume toks c p = if t.code = c then .ret true (p + 1) else .ret false p := by
  unfold consume
  rw [h]

theorem consume_hit {toks : List Token} {p : Nat} {c : Code} {w : List Code}
    (h : CodesAt toks p (c :: w)) : consume toks c p = .ret true (p + 1) := by
  obtain ⟨t, ht, hc⟩ := h.head
  rw [consume_eq ht, if_pos hc]

theorem consume_miss {toks : List Token} {p : Nat} {c c' : Code} {w : List Code}
    (h : CodesAt toks p (c' :: w)) (hne : c' ≠ c) : consume toks c p = .ret false p := by
  obtain ⟨t, ht, hc⟩ := h.head
  rw [consume_eq ht, if_neg (by rw [hc]; exact hne)]

theorem baseType_hit {toks : List Token} {p : Nat} {b : Code} {w : List Code}
    (h : CodesAt toks p (b :: w)) (hb : isBaseType b = true) :
    baseType toks p = .ret true (p + 1) := by
  unfold baseType
  cases b <;> first
    | (rw [consume_hit h]; rfl)
    | (rw [consume_miss (c := .TYPE_INT) h (by decide), Res.orElse, Res.branch,
        consume_hit h]; rfl)
    | (rw [consume_miss (c := .TYPE_INT) h (by decide), Res.orElse, Res.branch,
        consume_miss (c := .TYPE_REAL) h (by decide), Res.orElse, Res.branch, consume_hit h])
    | cases hb

theorem funcParam_hit {toks : List Token} {p : Nat} {b : Code} {w : List Code}
    (h : CodesAt toks p (.ID :: .COLON :: b :: w)) (hb : isBaseType b = true) :
    funcParam toks p = .ret true (p + 3) := by
  unfold funcParam
  rw [consume_hit h, Res.branch, consume_hit h.tail, Res.branch,
    baseType_hit h.tail.tail hb, Res.branch]

theorem funcParamsLoop_codes {toks : List Token} (bs : List Code) :
    ∀ {p : Nat} {c : Code} {w : List Code} (fuel : Nat),
      CodesAt toks p (moreParamCodes bs ++ c :: w) → c ≠ .COMMA →
      (∀ b ∈ bs, isBaseType b = true) → bs.length < fuel →
      funcParamsLoop toks fuel p = .ret true (p + (moreParamCodes bs).length) := by
  induction bs with
  | nil =>
    intro p c w fuel h hc _ hf
    obtain ⟨n, rfl⟩ : ∃ n, fuel = n + 1 := ⟨fuel - 1, by simp at hf; omega⟩
    rw [funcParamsLoop, consume_miss (by simpa [moreParamCodes] using h) hc]
    rfl
  | cons b bs ih =>
    intro p c w fuel h hc hb hf
    obtain ⟨n, rfl⟩ : ∃ n, fuel = n + 1 := ⟨fuel - 1, by simp at hf; omega⟩
    have h' : CodesAt toks p (.COMMA :: .ID :: .COLON :: b :: (moreParamCodes bs ++ c :: w)) := by
      simpa [moreParamCodes] using h
    rw [funcParamsLoop, consume_hit h', Res.branch,
      funcParam_hit h'.tail (hb b (List.mem_cons_self _ _)), Res.branch]
    have := ih n h'.tail.tail.tail.tail hc (fun x hx => hb x (List.mem_cons_of_mem _ hx))
      (by simp at hf; omega)
    rw [this]
    simp only [moreParamCodes, List.length_append, List.length_cons, List.length_nil]
    congr 1
    omega

theorem funcParams_codes {toks : List Token} (ps : List Code) {p : Nat} {c : Code}
    {w : List Code} (fuel : Nat) (h : CodesAt toks p (paramCodes ps ++ c :: w))
    (hc : c ≠ .COMMA) (hc' : c ≠ .ID) (hb : ∀ b ∈ ps, isBaseType b = true)
    (hf : ps.length < fuel) :
    ∃ b, funcParams toks fuel p = .ret b (p + (paramCodes ps).length) := by
  cases ps with
  | nil =>
    refine ⟨false, ?_⟩
    unfold funcParams funcParam
    rw [consume_miss (by simpa [paramCodes] using h) hc']
    rfl
  | cons b bs =>
    refine ⟨true, ?_⟩
    have h' : CodesAt toks p (.ID :: .COLON :: b :: (moreParamCodes bs ++ c :: w)) := by
      simpa [paramCodes] using h
    unfold funcParams
    rw [funcParam_hit h' (hb b (List.mem_cons_self _ _)), Res.branch,
      funcParamsLoop_codes bs fuel h'.tail.tail.tail hc
        (fun x hx => hb x (List.mem_cons_of_mem _ hx)) (by simp at hf; omega)]
    simp only [paramCodes, List.length_append, List.length_cons, List.length_nil,
      Res.andThen, Res.branch]
    congr 1
    omega

theorem defVar_hit {toks : List Token} {p : Nat} {b : Code} {w : List Code}
    (h : CodesAt toks p (.VAR :: .ID :: .COLON :: b :: .SEMICOLON :: w))
    (hb : isBaseType b = true) : defVar toks p = .ret true (p + 5) := by
  unfold defVar
  rw [consume_hit h, Res.branch, consume_hit h.tail, Res.branch, consume_hit h.tail.tail,
    Res.branch, baseType_hit h.tail.tail.tail hb, Res.branch,
    consume_hit h.tail.tail.tail.tail, Res.branch]

theorem defVarLoop_codes {toks : List Token} (vs : List Code) :
    ∀ {p : Nat} {c : Code} {w : List Code} (fuel : Nat),
      CodesAt toks p (defVarCodes vs ++ c :: w) → c ≠ .VAR →
      (∀ b ∈ vs, isBaseType b = true) → vs.length < fuel →
      defVarLoop toks fuel p = .ret true (p + (defVarCodes vs).length) := by
  induction vs with
  | nil =>
    intro p c w fuel h hc _ hf
    obtain ⟨n, rfl⟩ : ∃ n, fuel = n + 1 := ⟨fuel - 1, by simp at hf; omega⟩
    rw [defVarLoop]
    unfold defVar
    rw [consume_miss (by simpa [defVarCodes] using h) hc]
    rfl
  | cons b vs ih =>
    intro p c w fuel h hc hb hf
    obtain ⟨n, rfl⟩ : ∃ n, fuel = n + 1 := ⟨fuel - 1, by simp at hf; omega⟩
    have h' : CodesAt toks p
        (.VAR :: .ID :: .COLON :: b :: .SEMICOLON :: (defVarCodes vs ++ c :: w)) := by
      simpa [defVarCodes] using h
    rw [defVarLoop, defVar_hit h' (hb b (List.mem_cons_self _ _)), Res.branch]
    have := ih n h'.tail.tail.tail.tail.tail hc
      (fun x hx => hb x (List.mem_cons_of_mem _ hx)) (by simp at hf; omega)
    rw [this]
    simp only [defVarCodes, List.length_append, List.length_cons, List.length_nil]
    congr 1
    omega

theorem Res.andThen_ret (b : Bool) (i : Nat) (k : Nat → Res) :
    (Res.ret b i).andThen k = k i := by
  cases b <;> rfl

/-- On a token that cannot begin an expression `expr` returns false without
moving the cursor. -/
theorem expr_fails {toks : List Token} {q : Nat} {t : Token} (h : toks[q]? = some t)
    (hs : startsExpr t.code = false) (n : Nat) : expr toks (n + 8) q = .ret false q := by
  have h1 : t.code ≠ .INT := fun e => by rw [e] at hs; cases hs
  have h2 : t.code ≠ .REAL := fun e => by rw [e] at hs; cases hs
  have h3 : t.code ≠ .STR := fun e => by rw [e] at hs; cases hs
  have h4 : t.code ≠ .LPAR := fun e => by rw [e] at hs; cases hs
  have h5 : t.code ≠ .ID := fun e => by rw [e] at hs; cases hs
  have h6 : t.code ≠ .SUB := fun e => by rw [e] at hs; cases hs
  have h7 : t.code ≠ .NOT := fun e => by rw [e] at hs; cases hs
  simp only [expr, exprLogic, exprAssign, exprComp, exprAdd, exprMul, exprPrefix, factor,
    consume_eq h, if_neg h1, if_neg h2, if_neg h3, if_neg h4, if_neg h5, if_neg h6, if_neg h7,
    Res.branch, Res.orElse, Res.andThen]

/-- On a token that cannot begin an instruction `block` returns false without
moving the cursor. -/
theorem block_fails {toks : List Token} {q : Nat} {t : Token} (h : toks[q]? = some t)
    (hs : startsInstr t.code = false) (n : Nat) : block toks (n + 10) q = .ret false q := by
  have h0 : startsExpr t.code = false := by
    revert hs; cases t.code <;> simp [startsInstr, startsExpr]
  have h1 : t.code ≠ .IF := fun e => by rw [e] at hs; cases hs
  have h2 : t.code ≠ .RETURN := fun e => by rw [e] at hs; cases hs
  have h3 : t.code ≠ .WHILE := fun e => by rw [e] at hs; cases hs
  rw [block, instr_eq, expr_fails h h0 n]
  simp only [consume_eq h, if_neg h1, if_neg h2, if_neg h3, Res.branch]

theorem defFuncTail_mono (toks : List Token) (n m : Nat) (h : n ≤ m) (i : Nat) :
    FuelLe (defFuncTail toks n i) (defFuncTail toks m i) := by
  have hb := (monoAll toks n m h).hblock
  have hp := funcParams_mono toks n m h
  have hv := defVarLoop_mono toks n m h
  unfold defFuncTail
  repeat' first
    | with_reducible exact hb _ | with_reducible exact hp _ | with_reducible exact hv _
    | with_reducible apply FuelLe.branch_mono | with_reducible apply FuelLe.orElse_mono
    | with_reducible apply FuelLe.andThen_mono
    | with_reducible exact FuelLe.refl _ | intro _

theorem ifTail_mono (toks : List Token) (n m : Nat) (h : n ≤ m) (i : Nat) :
    FuelLe (ifTail toks n i) (ifTail toks m i) := by
  have hb := (monoAll toks n m h).hblock
  have he := (monoAll toks n m h).hexpr
  unfold ifTail
  repeat' first
    | with_reducible exact hb _ | with_reducible exact he _
    | with_reducible apply FuelLe.branch_mono | with_reducible apply FuelLe.orElse_mono
    | with_reducible apply FuelLe.andThen_mono
    | with_reducible exact FuelLe.refl _ | intro _

theorem whileTail_mono (toks : List Token) (n m : Nat) (h : n ≤ m) (i : Nat) :
    FuelLe (whileTail toks n i) (whileTail toks m i) := by
  have hb := (monoAll toks n m h).hblock
  have he := (monoAll toks n m h).hexpr
  unfold whileTail
  repeat' first
    | with_reducible exact hb _ | with_reducible exact he _
    | with_reducible apply FuelLe.branch_mono | with_reducible apply FuelLe.orElse_mono
    | with_reducible apply FuelLe.andThen_mono
    | with_reducible exact FuelLe.refl _ | intro _

/-- A result that one amount of fuel reaches is, on any other amount, reached
too or replaced by running out of fuel. -/
theorem FuelLe.of_run {f : Nat → Nat → Res}
    (hmono : ∀ n m, n ≤ m → ∀ i, FuelLe (f n i) (f m i)) {n0 i : Nat} {r : Res}
    (h0 : f n0 i = r) (hr : r ≠ .outOfFuel) (n : Nat) : FuelLe (f n i) r := by
  rcases Nat.le_total n n0 with h | h
  · have := hmono n n0 h i
    rw [h0] at this
    exact this
  · have := hmono n0 n h i
    rw [h0] at this
    exact Or.inr (this.eq_of_ne hr)

theorem fatal_below (k i l : Nat) (m : String) : Below k (.fatal i l m) := by
  refine ⟨fun b j hj => ?_⟩; cases hj

/-- The rest of `defFunc` on a complete header that is followed by END: the
fatal diagnostic of the missing block, raised on the END. -/
theorem defFuncTail_header {toks : List Token} {p : Nat} (ps : List Code) (ret : Code)
    (vs : List Code) (h : CodesAt toks p (headerCodes ps ret vs ++ [.END]))
    (hps : ∀ b ∈ ps, isBaseType b = true) (hret : isBaseType ret = true)
    (hvs : ∀ b ∈ vs, isBaseType b = true) (fuel : Nat)
    (hf : ps.length + vs.length + 10 ≤ fuel) :
    ∃ t, toks[p + (headerCodes ps ret vs).length]? = some t ∧ t.code = .END ∧
      defFuncTail toks fuel (p + 1) =
        .fatal (p + (headerCodes ps ret vs).length) t.line
          "Expected block in function body" := by
  have h1 : CodesAt toks p (.FUNCTION :: .ID :: .LPAR ::
      (paramCodes ps ++ .RPAR :: .COLON :: ret :: (defVarCodes vs ++ [.END]))) := by
    simpa [headerCodes] using h
  have h2 := h1.tail.tail.tail
  obtain ⟨b, hb⟩ := funcParams_codes ps fuel h2 (by decide) (by decide) hps (by omega)
  have h3 := h2.append_right
  have h4 := h3.tail.tail.tail
  have hv := defVarLoop_codes vs fuel h4 (by decide) hvs (by omega)
  have h5 := h4.append_right
  obtain ⟨t, ht, hc⟩ := h5.head
  obtain ⟨n, rfl⟩ : ∃ n, fuel = n + 10 := ⟨fuel - 10, by omega⟩
  have hq : p + 1 + 1 + 1 + (paramCodes ps).length + 1 + 1 + 1 + (defVarCodes vs).length =
      p + (headerCodes ps ret vs).length := by
    simp only [headerCodes, List.length_append, List.length_cons, List.length_nil]
    omega
  refine ⟨t, by rw [← hq]; exact ht, hc, ?_⟩
  unfold defFuncTail
  rw [consume_hit h1.tail, Res.branch, consume_hit h1.tail.tail, Res.branch, hb,
    Res.andThen_ret, consume_hit h3, Res.branch, consume_hit h3.tail, Res.branch,
    baseType_hit h3.tail.tail hret, Res.branch, hv, Res.andThen_ret,
    block_fails ht (by rw [hc]; rfl) n, Res.branch]
  unfold tkerr
  rw [ht, hq]

/-- The rest of the IF alternative where the condition is followed by END. -/
theorem ifTail_no_block {toks : List Token} {k j fuel0 : Nat} {t1 t2 t : Token}
    (h1 : toks[k + 1]? = some t1) (hc1 : t1.code = .LPAR)
    (he : expr toks fuel0 (k + 2) = .ret true j)
    (h2 : toks[j]? = some t2) (hc2 : t2.code = .RPAR)
    (h3 : toks[j + 1]? = some t) (hc3 : t.code = .END) (fuel : Nat) (hf : fuel0 ≤ fuel)
    (hf' : 10 ≤ fuel) :
    ifTail toks fuel (k + 1) =
      .fatal (j + 1) t.line "Expected block after 'if' condition" := by
  have he' : expr toks fuel (k + 2) = .ret true j := by
    have := ((monoAll toks fuel0 fuel hf).hexpr (k + 2)).eq_of_ne (by rw [he]; simp)
    rw [this, he]
  obtain ⟨n, rfl⟩ : ∃ n, fuel = n + 10 := ⟨fuel - 10, by omega⟩
  unfold ifTail
  rw [consume_eq h1, if_pos hc1, Res.branch, he', Res.branch, consume_eq h2, if_pos hc2,
    Res.branch, block_fails h3 (by rw [hc3]; rfl) n, Res.branch]
  unfold tkerr
  rw [h3]

/-- The rest of the WHILE alternative where the condition is followed by
END. -/
theorem whileTail_no_block {toks : List Token} {k j fuel0 : Nat} {t1 t2 t : Token}
    (h1 : toks[k + 1]? = some t1) (hc1 : t1.code = .LPAR)
    (he : expr toks fuel0 (k + 2) = .ret true j)
    (h2 : toks[j]? = some t2) (hc2 : t2.code = .RPAR)
    (h3 : toks[j + 1]? = some t) (hc3 : t.code = .END) (fuel : Nat) (hf : fuel0 ≤ fuel)
    (hf' : 10 ≤ fuel) :
    whileTail toks fuel (k + 1) =
      .fatal (j + 1) t.line "Expected block after 'while' condition" := by
  have he' : expr toks fuel (k + 2) = .ret true j := by
    have := ((monoAll toks fuel0 fuel hf).hexpr (k + 2)).eq_of_ne (by rw [he]; simp)
    rw [this, he]
  obtain ⟨n, rfl⟩ : ∃ n, fuel = n + 10 := ⟨fuel - 10, by omega⟩
  unfold whileTail
  rw [consume_eq h1, if_pos hc1, Res.branch, he', Res.branch, consume_eq h2, if_pos hc2,
    Res.branch, block_fails h3 (by rw [hc3]; rfl) n, Res.branch]
  unfold tkerr
  rw [h3]

theorem CodesAt.length_le {toks : List Token} {p : Nat} {w : List Code}
    (h : CodesAt toks p w) (hw : w ≠ []) : p + w.length ≤ toks.length := by
  obtain ⟨s, hs⟩ := h
  have := congrArg List.length hs
  simp only [List.length_append, List.length_drop, codes, List.length_map] at this
  have hpos : 0 < w.length := List.length_pos.2 hw
  omega

theorem length_le_moreParamCodes (bs : List Code) :
    bs.length ≤ (moreParamCodes bs).length := by
  induction bs with
  | nil => simp
  | cons b bs ih => simp [moreParamCodes]; omega

theorem length_le_paramCodes (ps : List Code) : ps.length ≤ (paramCodes ps).length := by
  cases ps with
  | nil => simp
  | cons b bs =>
    have := length_le_moreParamCodes bs
    simp [paramCodes]; omega

theorem length_le_defVarCodes (vs : List Code) : vs.length ≤ (defVarCodes vs).length := by
  induction vs with
  | nil => simp
  | cons b vs ih => simp [defVarCodes]; omega

/-- A function header that opens a token the cursor cannot pass. -/
theorem wall_of_header {toks : List Token} {p : Nat} (ps : List Code) (ret : Code)
    (vs : List Code) (h : CodesAt toks p (headerCodes ps ret vs ++ [.END]))
    (hps : ∀ b ∈ ps, isBaseType b = true) (hret : isBaseType ret = true)
    (hvs : ∀ b ∈ vs, isBaseType b = true) : ∃ t0, Wall toks p t0 := by
  have h1 : CodesAt toks p (.FUNCTION :: (.ID :: .LPAR ::
      (paramCodes ps ++ .RPAR :: .COLON :: ret :: (defVarCodes vs ++ [.END])))) := by
    simpa [headerCodes] using h
  obtain ⟨t0, ht0, hc0⟩ := h1.head
  refine ⟨t0, ht0, by rw [hc0]; rfl, ?_, ?_, ?_⟩
  · intro _ fuel
    obtain ⟨t, -, -, hr⟩ := defFuncTail_header ps ret vs h hps hret hvs _ (le_refl _)
    exact Below.of_fuelLe
      (FuelLe.of_run (f := defFuncTail toks) (defFuncTail_mono toks) hr (by simp) fuel)
      (fatal_below _ _ _ _)
  · intro hc; rw [hc0] at hc; cases hc
  · intro hc; rw [hc0] at hc; cases hc

/-! ## The head of the loop of tokenize -/

/-- The loop of `tokenize` gives the same result on any two amounts of fuel
above the number of characters left. -/
theorem tokenizeLoop_fuel_eq (f : Nat) :
    ∀ (g : Nat) (pch : List Char) (st : LexState), pch.length < f → pch.length < g →
      tokenizeLoop f pch st = tokenizeLoop g pch st := by
  induction f with
  | zero => intro g pch st h; omega
  | succ n ih =>
    intro g pch st hf hg
    cases g with
    | zero => omega
    | succ m =>
      rw [tokenizeLoop, tokenizeLoop]
      by_cases hc : cur pch = NUL
      · rw [if_pos hc, if_pos hc]
      · rw [if_neg hc, if_neg hc]
        cases hs : lexStep pch st with
        | error e => rfl
        | ok v =>
          obtain ⟨pch', st'⟩ := v
          have := (lexStep_inv pch st hc pch' st' hs).1
          exact ih m pch' st' (by omega) (by omega)

/-- What `tokenize` yields is what its loop yields from any head it reaches. -/
theorem TokenStart.tokenize_eq {input pch : List Char} {st : LexState}
    (h : TokenStart input pch st) :
    tokenize input = tokenizeLoop (pch.length + 1) pch st := by
  induction h with
  | start => rfl
  | step p p' s s' _ hc hs ih =>
    rw [ih, tokenizeLoop, if_neg hc, hs]
    have := (lexStep_inv p s hc p' s' hs).1
    exact tokenizeLoop_fuel_eq _ _ _ _ this (Nat.lt_succ_self _)

theorem emit_ok (st : LexState) (c : Code) (rest : List Char)
    (h : st.tokens.length ≠ MAX_TOKENS) :
    emit st c rest = .ok (rest, ⟨st.tokens ++ [⟨c, st.line, .none⟩], st.line⟩) := by
  unfold emit addTk
  rw [if_neg h]

theorem lexStep_space (c : Char) (rest : List Char) (st : LexState)
    (h : c = ' ' ∨ c = '\t' ∨ c = '\r') : lexStep (c :: rest) st = .ok (rest, st) := by
  unfold lexStep
  dsimp only [cur_cons]
  rw [if_pos h]
  rfl

theorem lexStep_newline (rest : List Char) (st : LexState) :
    lexStep ('\n' :: rest) st = .ok (rest, { st with line := st.line + 1 }) := by
  unfold lexStep
  dsimp only [cur_cons]
  rw [if_neg (by decide), if_pos rfl]
  rfl

theorem lexStep_hash (rest : List Char) (st : LexState) :
    lexStep ('#' :: rest) st =
      .ok (rest.dropWhile (fun x => x != NUL && x != '\n'), st) := by
  unfold lexStep
  dsimp only [cur_cons]
  rw [if_neg (by decide), if_neg (by decide), if_pos rfl, List.dropWhile_cons,
    if_pos (by decide)]

theorem lexStep_semicolon (rest : List Char) (st : LexState) :
    lexStep (';' :: rest) st = emit st .SEMICOLON rest := by
  unfold lexStep
  dsimp only [cur_cons]
  rw [if_neg (by decide), if_neg (by decide), if_neg (by decide), if_neg (by decide),
    if_neg (by decide), if_neg (by decide), if_pos rfl]
  rfl

theorem lexStep_assign (rest : List Char) (st : LexState) :
    lexStep ('=' :: rest) st =
      if cur rest = '=' then emit st .EQUAL rest.tail else emit st .ASSIGN rest := by
  unfold lexStep
  dsimp only [cur_cons]
  rw [if_neg (by decide), if_neg (by decide), if_neg (by decide), if_neg (by decide),
    if_neg (by decide), if_neg (by decide), if_neg (by decide), if_neg (by decide),
    if_neg (by decide), if_pos rfl]
  rfl

theorem lexStep_not (rest : List Char) (st : LexState) :
    lexStep ('!' :: rest) st =
      if cur rest = '=' then emit st .NOTEQ rest.tail else emit st .NOT rest := by
  unfold lexStep
  dsimp only [cur_cons]
  rw [if_neg (by decide), if_neg (by decide), if_neg (by decide), if_neg (by decide),
    if_neg (by decide), if_neg (by decide), if_neg (by decide), if_neg (by decide),
    if_neg (by decide), if_neg (by decide), if_neg (by decide), if_neg (by decide),
    if_neg (by decide), if_neg (by decide), if_pos rfl]
  rfl

theorem lexStep_less (rest : List Char) (st : LexState) :
    lexStep ('<' :: rest) st = emit st .LESS rest := by
  unfold lexStep
  dsimp only [cur_cons]
  rw [if_neg (by decide), if_neg (by decide), if_neg (by decide), if_neg (by decide),
    if_neg (by decide), if_neg (by decide), if_neg (by decide), if_neg (by decide),
    if_neg (by decide), if_neg (by decide), if_neg (by decide), if_neg (by decide),
    if_neg (by decide), if_neg (by decide), if_neg (by decide), if_pos rfl]
  rfl

theorem lexStep_greater (rest : List Char) (st : LexState) :
    lexStep ('>' :: rest) st =
      if cur rest = '=' then emit st .GREATEREQ rest.tail else emit st .GREATER rest := by
  unfold lexStep
  dsimp only [cur_cons]
  rw [if_neg (by decide), if_neg (by decide), if_neg (by decide), if_neg (by decide),
    if_neg (by decide), if_neg (by decide), if_neg (by decide), if_neg (by decide),
    if_neg (by decide), if_neg (by decide), if_neg (by decide), if_neg (by decide),
    if_neg (by decide), if_neg (by decide), if_neg (by decide), if_neg (by decide),
    if_pos rfl]
  rfl

/-- C11. In every round of the loop of `tokenize` that finds room in the token
array: at `==` one EQUAL token is added and the pointer moves over both
characters, at `=` followed by anything else one ASSIGN token and one
character; likewise `!=` gives NOTEQ and any other `!` gives NOT, `>=` gives
GREATEREQ and any other `>` gives GREATER; `<` gives LESS and moves the pointer
over that one character whatever follows. So `<=` lexes to LESS, ASSIGN,
FINISH and `===` to EQUAL, ASSIGN, FINISH. -/
theorem operator_lookahead :
    (∀ (rest : List Char) (st : LexState), st.tokens.length < MAX_TOKENS →
      lexStep ('=' :: '=' :: rest) st =
        .ok (rest, ⟨st.tokens ++ [⟨.EQUAL, st.line, .none⟩], st.line⟩) ∧
      lexStep ('!' :: '=' :: rest) st =
        .ok (rest, ⟨st.tokens ++ [⟨.NOTEQ, st.line, .none⟩], st.line⟩) ∧
      lexStep ('>' :: '=' :: rest) st =
        .ok (rest, ⟨st.tokens ++ [⟨.GREATEREQ, st.line, .none⟩], st.line⟩) ∧
      lexStep ('<' :: rest) st =
        .ok (rest, ⟨st.tokens ++ [⟨.LESS, st.line, .none⟩], st.line⟩)) ∧
    (∀ (rest : List Char) (st : LexState), st.tokens.length < MAX_TOKENS → cur rest ≠ '=' →
      lexStep ('=' :: rest) st =
        .ok (rest, ⟨st.tokens ++ [⟨.ASSIGN, st.line, .none⟩], st.line⟩) ∧
      lexStep ('!' :: rest) st =
        .ok (rest, ⟨st.tokens ++ [⟨.NOT, st.line, .none⟩], st.line⟩) ∧
      lexStep ('>' :: rest) st =
        .ok (rest, ⟨st.tokens ++ [⟨.GREATER, st.line, .none⟩], st.line⟩)) ∧
    tokenize ['<', '='] =
      .tokens [⟨.LESS, 1, .none⟩, ⟨.ASSIGN, 1, .none⟩, ⟨.FINISH, 1, .none⟩] ∧
    tokenize ['=', '=', '='] =
      .tokens [⟨.EQUAL, 1, .none⟩, ⟨.ASSIGN, 1, .none⟩, ⟨.FINISH, 1, .none⟩] := by
  refine ⟨?_, ?_, by decide, by decide⟩
  · intro rest st h
    have hne : st.tokens.length ≠ MAX_TOKENS := Nat.ne_of_lt h
    refine ⟨?_, ?_, ?_, ?_⟩
    · rw [lexStep_assign, if_pos (cur_cons _ _), List.tail_cons, emit_ok _ _ _ hne]
    · rw [lexStep_not, if_pos (cur_cons _ _), List.tail_cons, emit_ok _ _ _ hne]
    · rw [lexStep_greater, if_pos (cur_cons _ _), List.tail_cons, emit_ok _ _ _ hne]
    · rw [lexStep_less, emit_ok _ _ _ hne]
  · intro rest st h hc
    have hne : st.tokens.length ≠ MAX_TOKENS := Nat.ne_of_lt h
    refine ⟨?_, ?_, ?_⟩
    · rw [lexStep_assign, if_neg hc, emit_ok _ _ _ hne]
    · rw [lexStep_not, if_neg hc, emit_ok _ _ _ hne]
    · rw [lexStep_greater, if_neg hc, emit_ok _ _ _ hne]

/-! ## Malformed reals, unknown characters, blank inputs -/

theorem lexStep_no_fraction (d rest : List Char) (st : LexState) (hne : d ≠ [])
    (hd : ∀ c ∈ d, isdigit c = true) (hr : isdigit (cur rest) = false) :
    lexStep (d ++ '.' :: rest) st = .error (.realWithoutDigits st.line) := by
  cases d with
  | nil => exact absurd rfl hne
  | cons c d =>
    have hc : isdigit c = true := hd c (List.mem_cons_self _ _)
    have hdot : List.dropWhile isdigit ('.' :: rest) = '.' :: rest := by
      rw [List.dropWhile_cons, if_neg (by decide)]
    rw [List.cons_append, lexStep_digit c _ _ hc]
    unfold lexNumber
    dsimp only
    rw [← List.cons_append, dropWhile_append_of_all isdigit (c :: d) _ hd, hdot,
      if_pos (cur_cons _ _)]
    dsimp only [List.tail_cons]
    rw [hr, if_pos (by decide)]

/-- C14. Whenever the loop of `tokenize` stands at a run of one or more digits
that is followed by a dot, and what follows the dot is not a digit (the end of
the input included), `tokenize` ends with the diagnostic "Real number without
digits after decimal", carrying the current value of the line counter; no
token sequence is returned, so no INT or REAL token for that run. -/
theorem real_without_fraction (input d rest : List Char) (st : LexState)
    (hstart : TokenStart input (d ++ '.' :: rest) st) (hne : d ≠ [])
    (hd : ∀ c ∈ d, isdigit c = true) (hr : isdigit (cur rest) = false) :
    tokenize input = .fatal (.realWithoutDigits st.line) := by
  have hcur : cur (d ++ '.' :: rest) ≠ NUL := by
    cases d with
    | nil => exact absurd rfl hne
    | cons c d => exact digit_ne_NUL (hd c (List.mem_cons_self _ _))
  rw [hstart.tokenize_eq, tokenizeLoop, if_neg hcur, lexStep_no_fraction d rest st hne hd hr]

/-- C14 at the inputs `1.`, `1.x` and `12.;`, each read from its start, and at
`x = 1.`, where the run is the third token. -/
theorem real_without_fraction_witness :
    tokenize ['1', '.'] = .fatal (.realWithoutDigits 1) ∧
    tokenize ['1', '.', 'x'] = .fatal (.realWithoutDigits 1) ∧
    tokenize ['1', '2', '.', ';'] = .fatal (.realWithoutDigits 1) ∧
    tokenize ['x', '=', '\n', '1', '.'] = .fatal (.realWithoutDigits 2) :=
  ⟨real_without_fraction ['1', '.'] ['1'] [] _ .start (by decide) (by decide) (by decide),
   real_without_fraction ['1', '.', 'x'] ['1'] ['x'] _ .start (by decide) (by decide)
     (by decide),
   real_without_fraction ['1', '2', '.', ';'] ['1', '2'] [';'] _ .start (by decide)
     (by decide) (by decide),
   real_without_fraction ['x', '=', '\n', '1', '.'] ['1'] []
     ⟨[⟨.ID, 1, .text ['x']⟩, ⟨.ASSIGN, 1, .none⟩], 2⟩
     (.step ['\n', '1', '.'] _ ⟨[⟨.ID, 1, .text ['x']⟩, ⟨.ASSIGN, 1, .none⟩], 1⟩ _
       (.step ['=', '\n', '1', '.'] _ ⟨[⟨.ID, 1, .text ['x']⟩], 1⟩ _
         (.step ['x', '=', '\n', '1', '.'] _ _ _ .start (by decide) rfl)
         (by decide) rfl)
       (by decide) rfl)
     (by decide) (by decide) (by decide)⟩

theorem tokenizeLoop_nil (fuel : Nat) (st : LexState) (h : st.tokens.length ≠ MAX_TOKENS) :
    tokenizeLoop (fuel + 1) [] st =
      .tokens (st.tokens ++ [⟨.FINISH, st.line, .none⟩]) := by
  rw [tokenizeLoop, if_pos (show cur [] = NUL from rfl)]
  unfold addTk
  rw [if_neg h]

/-- On an input of whitespace and comments the loop adds the end-marker and
nothing else, and has counted every newline. -/
theorem tokenizeLoop_blank {s : List Char} (hb : Blank s) :
    NUL ∉ s → ∀ (fuel : Nat) (st : LexState), s.length < fuel →
      st.tokens.length ≠ MAX_TOKENS →
      tokenizeLoop fuel s st =
        .tokens (st.tokens ++ [⟨.FINISH, st.line + s.count '\n', .none⟩]) := by
  induction hb with
  | nil =>
    intro _ fuel st hf hst
    cases fuel with
    | zero => simp at hf
    | succ n => exact tokenizeLoop_nil n st hst
  | space c rest hc _ ih =>
    intro h0 fuel st hf hst
    have h0r : NUL ∉ rest := fun h => h0 (List.mem_cons_of_mem _ h)
    cases fuel with
    | zero => simp at hf
    | succ n =>
      have hn : rest.length < n := by simpa using hf
      have hcn : cur (c :: rest) ≠ NUL := by
        rw [cur_cons]; rcases hc with h | h | h | h <;> subst h <;> decide
      rw [tokenizeLoop, if_neg hcn]
      by_cases hnl : c = '\n'
      · subst hnl
        rw [lexStep_newline]
        dsimp only
        rw [ih h0r n ⟨st.tokens, st.line + 1⟩ hn hst, List.count_cons_self]
        dsimp only
        rw [Nat.add_assoc, Nat.add_comm 1]
      · have hsp : c = ' ' ∨ c = '\t' ∨ c = '\r' := by
          rcases hc with h | h | h | h
          · exact Or.inl h
          · exact Or.inr (Or.inl h)
          · exact Or.inr (Or.inr h)
          · exact absurd h hnl
        rw [lexStep_space c rest st hsp]
        dsimp only
        rw [ih h0r n _ hn hst, List.count_cons_of_ne (fun h => hnl h.symm)]
  | commentEnd body hbody =>
    intro h0 fuel st hf hst
    have hall : ∀ x ∈ body, (x != NUL && x != '\n') = true := by
      intro x hx
      have h1 : x ≠ NUL := fun h => h0 (List.mem_cons_of_mem _ (h ▸ hx))
      have h2 : x ≠ '\n' := fun h => hbody (h ▸ hx)
      simp [h1, h2]
    cases fuel with
    | zero => simp at hf
    | succ n =>
      rw [tokenizeLoop, if_neg (by rw [cur_cons]; decide), lexStep_hash,
        dropWhile_all _ body hall]
      dsimp only
      cases n with
      | zero => simp at hf
      | succ m =>
        rw [tokenizeLoop_nil m st hst,
          List.count_cons_of_ne (by decide), List.count_eq_zero_of_not_mem hbody]
        rfl
  | commentLine body rest hbody _ ih =>
    intro h0 fuel st hf hst
    rw [List.cons_append] at h0 hf ⊢
    have hall : ∀ x ∈ body, (x != NUL && x != '\n') = true := by
      intro x hx
      have h1 : x ≠ NUL := fun h =>
        h0 (List.mem_cons_of_mem _ (List.mem_append_left _ (h ▸ hx)))
      have h2 : x ≠ '\n' := fun h => hbody (h ▸ hx)
      simp [h1, h2]
    have h0r : NUL ∉ rest := fun h =>
      h0 (List.mem_cons_of_mem _ (List.mem_append_right _ (List.mem_cons_of_mem _ h)))
    have hnl : List.dropWhile (fun x => x != NUL && x != '\n') ('\n' :: rest) = '\n' :: rest := by
      rw [List.dropWhile_cons, if_neg (by decide)]
    have hlen : rest.length + 2 < fuel := by
      simp only [List.length_cons, List.length_append] at hf
      omega
    obtain ⟨n, rfl⟩ : ∃ n, fuel = n + 2 := ⟨fuel - 2, by omega⟩
    rw [tokenizeLoop, if_neg (by rw [cur_cons]; decide), lexStep_hash,
      dropWhile_append_of_all _ body _ hall, hnl]
    dsimp only
    rw [tokenizeLoop, if_neg (by rw [cur_cons]; decide), lexStep_newline]
    dsimp only
    rw [ih h0r n ⟨st.tokens, st.line + 1⟩ (by omega) hst]
    dsimp only
    rw [List.count_cons_of_ne (by decide), List.count_append,
      List.count_eq_zero_of_not_mem hbody, List.count_cons_self, Nat.zero_add,
      Nat.add_assoc, Nat.add_comm 1]

/-- C18. On every input made of spaces, tabs, carriage returns, newlines and
`#` comments only (a comment runs to the next newline or to the end of the
input), `tokenize` returns one token, the end-marker, and its line is 1 plus
the number of newlines of the input. -/
theorem blank_input_only_FINISH (input : List Char) (hb : Blank input) (h0 : NUL ∉ input) :
    tokenize input = .tokens [⟨.FINISH, 1 + input.count '\n', .none⟩] :=
  tokenizeLoop_blank hb h0 _ ⟨[], 1⟩ (Nat.lt_succ_self _) (by simp [MAX_TOKENS])

/-- C18 at the input of three lines
` # a`
`(tab)`
`#b`: two newlines, the end-marker on line 3. -/
theorem blank_input_only_FINISH_witness :
    tokenize [' ', '#', ' ', 'a', '\n', '\t', '\n', '#', 'b'] = .tokens [⟨.FINISH, 3, .none⟩] :=
  blank_input_only_FINISH [' ', '#', ' ', 'a', '\n', '\t', '\n', '#', 'b']
    (.space ' ' _ (Or.inl rfl)
      (.commentLine [' ', 'a'] ['\t', '\n', '#', 'b'] (by decide)
        (.space '\t' _ (Or.inr (Or.inl rfl))
          (.space '\n' _ (Or.inr (Or.inr (Or.inr rfl))) (.commentEnd ['b'] (by decide))))))
    (by decide)

/-! ## The capacity of the token array and of a token text -/

theorem copyn_length {b e text : List Char} (h : copyn b e = .ok text) :
    text.length ≤ MAX_STR := by
  unfold copyn at h
  split at h
  · cases h
  · rename_i hlen
    cases h
    unfold between
    rw [List.length_take]
    omega

theorem StepCap_error (st : LexState) (e : LexError) : StepCap st (.error e) := by
  intro _ _ h; cases h

theorem StepCap_skip (st : LexState) (p : List Char) (l : Nat) :
    StepCap st (.ok (p, { st with line := l })) := by
  intro _ _ h; cases h; exact Or.inl rfl

theorem addTk_room {st st' : LexState} {c : Code} (h : addTk st c = .ok st') :
    st.tokens.length ≠ MAX_TOKENS := by
  unfold addTk at h
  split at h
  · cases h
  · assumption

theorem StepCap_emit (st : LexState) (c : Code) (rest : List Char) :
    StepCap st (emit st c rest) := by
  intro pch' st' h
  unfold emit at h
  split at h
  · cases h
  · rename_i st1 h1
    have hroom := addTk_room h1
    have := addTk_ok h1
    subst this
    cases h
    exact Or.inr ⟨_, rfl, hroom, by intro s hs; cases hs⟩

theorem StepCap_payload {rest b e : List Char} (st : LexState) {c : Code}
    (f : List Char → Payload) (hf : ∀ text s, f text = .text s → s = text) :
    StepCap st
      (match addTk st c with
        | .error e => .error e
        | .ok st =>
          match copyn b e with
          | .error e => .error e
          | .ok text => .ok (rest, { st with tokens := setPayload st.tokens (f text) })) := by
  intro pch' st' h
  split at h
  · cases h
  · rename_i st1 h1
    have hroom := addTk_room h1
    have := addTk_ok h1
    subst this
    split at h
    · cases h
    · rename_i text hcopy
      cases h
      refine Or.inr ⟨_, setPayload_append _ _ _, hroom, ?_⟩
      intro s hs
      rw [hf text s hs]
      exact copyn_length hcopy

theorem lexString_cap (pch : List Char) (st : LexState) : StepCap st (lexString pch st) := by
  unfold lexString
  dsimp only
  refine ite_ind (Q := StepCap st) (fun _ => ?_) (fun _ => StepCap_error _ _)
  exact StepCap_payload st Payload.text (by intro _ _ h; cases h; rfl)

theorem lexNumber_cap (pch : List Char) (st : LexState) : StepCap st (lexNumber pch st) := by
  unfold lexNumber
  dsimp only
  refine ite_ind (Q := StepCap st) (fun _ => ?_) (fun _ => ?_)
  · refine ite_ind (Q := StepCap st) (fun _ => StepCap_error _ _) (fun _ => ?_)
    exact StepCap_payload st Payload.r (by intro _ _ h; cases h)
  · exact StepCap_payload st (fun text => Payload.i (atoi text)) (by intro _ _ h; cases h)

theorem lexWord_cap (pch : List Char) (st : LexState) : StepCap st (lexWord pch st) := by
  unfold lexWord
  dsimp only
  intro pch' st' h
  split at h
  · cases h
  · rename_i text hcopy
    split at h
    · exact StepCap_emit st _ _ _ _ h
    · split at h
      · cases h
      · rename_i st1 h1
        have hroom := addTk_room h1
        have := addTk_ok h1
        subst this
        cases h
        refine Or.inr ⟨_, setPayload_append _ _ _, hroom, ?_⟩
        intro s hs
        cases hs
        exact copyn_length hcopy

theorem lexStep_cap (pch : List Char) (st : LexState) : StepCap st (lexStep pch st) := by
  unfold lexStep
  dsimp only
  refine ite_ind (Q := StepCap st) (fun _ => ?_) fun _ => ?_
  · intro _ _ h; cases h; exact Or.inl rfl
  refine ite_ind (Q := StepCap st) (fun _ => StepCap_skip st _ _) fun _ => ?_
  refine ite_ind (Q := StepCap st) (fun _ => ?_) fun _ => ?_
  · intro _ _ h; cases h; exact Or.inl rfl
  refine ite_ind (Q := StepCap st) (fun _ => lexString_cap pch st) fun _ => ?_
  refine ite_ind (Q := StepCap st) (fun _ => StepCap_emit st _ _) fun _ => ?_
  refine ite_ind (Q := StepCap st) (fun _ => StepCap_emit st _ _) fun _ => ?_
  refine ite_ind (Q := StepCap st) (fun _ => StepCap_emit st _ _) fun _ => ?_
  refine ite_ind (Q := StepCap st) (fun _ => StepCap_emit st _ _) fun _ => ?_
  refine ite_ind (Q := StepCap st) (fun _ => StepCap_emit st _ _) fun _ => ?_
  refine ite_ind (Q := StepCap st) (fun _ => ?_) fun _ => ?_
  · exact ite_ind (Q := StepCap st) (fun _ => StepCap_emit st _ _)
      fun _ => StepCap_emit st _ _
  refine ite_ind (Q := StepCap st) (fun _ => StepCap_emit st _ _) fun _ => ?_
  refine ite_ind (Q := StepCap st) (fun _ => StepCap_emit st _ _) fun _ => ?_
  refine ite_ind (Q := StepCap st) (fun _ => StepCap_emit st _ _) fun _ => ?_
  refine ite_ind (Q := StepCap st) (fun _ => StepCap_emit st _ _) fun _ => ?_
  refine ite_ind (Q := StepCap st) (fun _ => ?_) fun _ => ?_
  · exact ite_ind (Q := StepCap st) (fun _ => StepCap_emit st _ _)
      fun _ => StepCap_emit st _ _
  refine ite_ind (Q := StepCap st) (fun _ => StepCap_emit st _ _) fun _ => ?_
  refine ite_ind (Q := StepCap st) (fun _ => ?_) fun _ => ?_
  · exact ite_ind (Q := StepCap st) (fun _ => StepCap_emit st _ _)
      fun _ => StepCap_emit st _ _
  refine ite_ind (Q := StepCap st) (fun _ => lexNumber_cap pch st) fun _ => ?_
  exact ite_ind (Q := StepCap st) (fun _ => lexWord_cap pch st)
    fun _ => StepCap_error _ _

/-- The array the loop returns is within `MAX_TOKENS`, and every text in it
within `MAX_STR`, when that holds of the array it started with. -/
theorem tokenizeLoop_cap (fuel : Nat) :
    ∀ (pch : List Char) (st : LexState) (ts : List Token),
      tokenizeLoop fuel pch st = .tokens ts → st.tokens.length ≤ MAX_TOKENS →
      (∀ t ∈ st.tokens, ∀ s, t.payload = .text s → s.length ≤ MAX_STR) →
      ts.length ≤ MAX_TOKENS ∧ ∀ t ∈ ts, ∀ s, t.payload = .text s → s.length ≤ MAX_STR := by
  induction fuel with
  | zero => intro pch st ts h; cases h
  | succ n ih =>
    intro pch st ts h hlen hpay
    rw [tokenizeLoop] at h
    split at h
    · split at h
      · cases h
      · rename_i st1 h1
        have hroom := addTk_room h1
        have := addTk_ok h1
        subst this
        cases h
        refine ⟨by simp only [List.length_append, List.length_singleton]; omega, ?_⟩
        intro t ht s hs
        rcases List.mem_append.1 ht with ht | ht
        · exact hpay t ht s hs
        · rw [List.mem_singleton.1 ht] at hs; cases hs
    · split at h
      · cases h
      · rename_i pch' st' hs
        rcases lexStep_cap pch st pch' st' hs with heq | ⟨t, heq, hroom, ht⟩
        · exact ih pch' st' ts h (by rw [heq]; exact hlen) (by rw [heq]; exact hpay)
        · refine ih pch' st' ts h ?_ ?_
          · rw [heq]; simp only [List.length_append, List.length_singleton]; omega
          · rw [heq]
            intro u hu s hs
            rcases List.mem_append.1 hu with hu | hu
            · exact hpay u hu s hs
            · rw [List.mem_singleton.1 hu] at hs; exact ht s hs

theorem ite_ind2 {α : Type} {R : α → α → Prop} {c : Prop} [Decidable c] {a b a' b' : α}
    (ha : c → R a a') (hb : ¬c → R b b') :
    R (if c then a else b) (if c then a' else b') := by
  by_cases h : c
  · rw [if_pos h, if_pos h]; exact ha h
  · rw [if_neg h, if_neg h]; exact hb h

theorem Framed_error (ts : List Token) (e : LexError)
    (r : Except LexError (List Char × LexState)) : Framed ts (.error e) r := by
  intro _ _ h; cases h

theorem Framed_skip (ts : List Token) (p : List Char) (l : Nat) :
    Framed ts (.ok (p, ⟨[], l⟩)) (.ok (p, ⟨ts, l⟩)) := by
  intro _ _ h; cases h; exact Or.inl ⟨rfl, rfl⟩

theorem Framed_emit (ts : List Token) (l : Nat) (c : Code) (rest : List Char) :
    Framed ts (emit ⟨[], l⟩ c rest) (emit ⟨ts, l⟩ c rest) := by
  intro pch' st0 h
  rw [emit_ok _ _ _ (by simp [MAX_TOKENS])] at h
  cases h
  refine Or.inr ⟨_, rfl, ?_⟩
  unfold emit addTk
  by_cases hfull : ts.length = MAX_TOKENS
  · rw [if_pos hfull, if_pos hfull]
  · rw [if_neg hfull, if_neg hfull]

theorem Framed_payload (ts : List Token) (l : Nat) {rest b e : List Char} {c : Code}
    (f : List Char → Payload) :
    Framed ts
      (match addTk ⟨[], l⟩ c with
        | .error e => .error e
        | .ok st =>
          match copyn b e with
          | .error e => .error e
          | .ok text => .ok (rest, { st with tokens := setPayload st.tokens (f text) }))
      (match addTk ⟨ts, l⟩ c with
        | .error e => .error e
        | .ok st =>
          match copyn b e with
          | .error e => .error e
          | .ok text => .ok (rest, { st with tokens := setPayload st.tokens (f text) })) := by
  intro pch' st0 h
  rw [addTk_nil] at h
  dsimp only at h
  cases hcopy : copyn b e with
  | error e => rw [hcopy] at h; cases h
  | ok text =>
    rw [hcopy] at h
    cases h
    refine Or.inr ⟨_, rfl, ?_⟩
    unfold addTk
    by_cases hfull : ts.length = MAX_TOKENS
    · rw [if_pos hfull, if_pos hfull]
    · rw [if_neg hfull, if_neg hfull]
      dsimp only
      rw [setPayload_append]

theorem lexString_framed (pch : List Char) (ts : List Token) (l : Nat) :
    Framed ts (lexString pch ⟨[], l⟩) (lexString pch ⟨ts, l⟩) := by
  unfold lexString
  dsimp only
  exact ite_ind2 (R := Framed ts) (fun _ => Framed_payload ts l Payload.text)
    (fun _ => Framed_error _ _ _)

theorem lexNumber_framed (pch : List Char) (ts : List Token) (l : Nat) :
    Framed ts (lexNumber pch ⟨[], l⟩) (lexNumber pch ⟨ts, l⟩) := by
  unfold lexNumber
  dsimp only
  refine ite_ind2 (R := Framed ts) (fun _ => ?_) (fun _ => ?_)
  · exact ite_ind2 (R := Framed ts) (fun _ => Framed_error _ _ _)
      (fun _ => Framed_payload ts l Payload.r)
  · exact Framed_payload ts l (fun text => Payload.i (atoi text))

theorem lexWord_framed (pch : List Char) (ts : List Token) (l : Nat) :
    Framed ts (lexWord pch ⟨[], l⟩) (lexWord pch ⟨ts, l⟩) := by
  unfold lexWord
  dsimp only
  cases copyn pch (List.dropWhile (fun x => isalnum x || x == '_') pch.tail) with
  | error e => exact Framed_error _ _ _
  | ok text =>
    dsimp only
    cases keyword text with
    | some k => exact Framed_emit ts l k _
    | none =>
      dsimp only
      intro pch' st0 h
      rw [addTk_nil] at h
      cases h
      refine Or.inr ⟨_, rfl, ?_⟩
      unfold addTk
      by_cases hfull : ts.length = MAX_TOKENS
      · rw [if_pos hfull, if_pos hfull]
      · rw [if_neg hfull, if_neg hfull]
        dsimp only
        rw [setPayload_append]

/-- A round of the loop on any array, told from the same round on an empty
array. -/
theorem lexStep_framed (pch : List Char) (ts : List Token) (l : Nat) :
    Framed ts (lexStep pch ⟨[], l⟩) (lexStep pch ⟨ts, l⟩) := by
  unfold lexStep
  dsimp only
  refine ite_ind2 (R := Framed ts) (fun _ => Framed_skip ts _ _) fun _ => ?_
  refine ite_ind2 (R := Framed ts) (fun _ => Framed_skip ts _ _) fun _ => ?_
  refine ite_ind2 (R := Framed ts) (fun _ => Framed_skip ts _ _) fun _ => ?_
  refine ite_ind2 (R := Framed ts) (fun _ => lexString_framed pch ts l) fun _ => ?_
  refine ite_ind2 (R := Framed ts) (fun _ => Framed_emit ts l _ _) fun _ => ?_
  refine ite_ind2 (R := Framed ts) (fun _ => Framed_emit ts l _ _) fun _ => ?_
  refine ite_ind2 (R := Framed ts) (fun _ => Framed_emit ts l _ _) fun _ => ?_
  refine ite_ind2 (R := Framed ts) (fun _ => Framed_emit ts l _ _) fun _ => ?_
  refine ite_ind2 (R := Framed ts) (fun _ => Framed_emit ts l _ _) fun _ => ?_
  refine ite_ind2 (R := Framed ts) (fun _ => ?_) fun _ => ?_
  · exact ite_ind2 (R := Framed ts) (fun _ => Framed_emit ts l _ _)
      fun _ => Framed_emit ts l _ _
  refine ite_ind2 (R := Framed ts) (fun _ => Framed_emit ts l _ _) fun _ => ?_
  refine ite_ind2 (R := Framed ts) (fun _ => Framed_emit ts l _ _) fun _ => ?_
  refine ite_ind2 (R := Framed ts) (fun _ => Framed_emit ts l _ _) fun _ => ?_
  refine ite_ind2 (R := Framed ts) (fun _ => Framed_emit ts l _ _) fun _ => ?_
  refine ite_ind2 (R := Framed ts) (fun _ => ?_) fun _ => ?_
  · exact ite_ind2 (R := Framed ts) (fun _ => Framed_emit ts l _ _)
      fun _ => Framed_emit ts l _ _
  refine ite_ind2 (R := Framed ts) (fun _ => Framed_emit ts l _ _) fun _ => ?_
  refine ite_ind2 (R := Framed ts) (fun _ => ?_) fun _ => ?_
  · exact ite_ind2 (R := Framed ts) (fun _ => Framed_emit ts l _ _)
      fun _ => Framed_emit ts l _ _
  refine ite_ind2 (R := Framed ts) (fun _ => lexNumber_framed pch ts l) fun _ => ?_
  exact ite_ind2 (R := Framed ts) (fun _ => lexWord_framed pch ts l)
    fun _ => Framed_error _ _ _

theorem unboundedLoop_length (fuel : Nat) :
    ∀ (pch : List Char) (l : Nat) (acc all : List Token),
      unboundedLoop fuel pch l acc = .tokens all → acc.length < all.length := by
  induction fuel with
  | zero => intro pch l acc all h; cases h
  | succ n ih =>
    intro pch l acc all h
    rw [unboundedLoop] at h
    split at h
    · cases h; simp
    · split at h
      · cases h
      · rename_i pch' st' hs
        have := ih pch' st'.line _ all h
        rw [List.length_append] at this
        omega

/-- The loop of `tokenize` against the loop without bound: the same token
sequence when that fits the array, "Too many tokens." when it does not. -/
theorem tokenizeLoop_unbounded (fuel : Nat) :
    ∀ (pch : List Char) (l : Nat) (acc all : List Token),
      unboundedLoop fuel pch l acc = .tokens all → acc.length ≤ MAX_TOKENS →
      (all.length ≤ MAX_TOKENS → tokenizeLoop fuel pch ⟨acc, l⟩ = .tokens all) ∧
      (MAX_TOKENS < all.length → tokenizeLoop fuel pch ⟨acc, l⟩ = .fatal .tooManyTokens) := by
  induction fuel with
  | zero => intro pch l acc all h; cases h
  | succ n ih =>
    intro pch l acc all h hacc
    rw [unboundedLoop] at h
    rw [tokenizeLoop]
    by_cases hc : cur pch = NUL
    · rw [if_pos hc] at h
      rw [if_pos hc]
      cases h
      unfold addTk
      simp only [List.length_append, List.length_singleton]
      constructor
      · intro hle
        rw [if_neg (by omega)]
      · intro hlt
        rw [if_pos (by omega)]
    · rw [if_neg hc] at h
      rw [if_neg hc]
      cases hs : lexStep pch ⟨[], l⟩ with
      | error e => rw [hs] at h; cases h
      | ok v =>
        obtain ⟨pch', st0⟩ := v
        rw [hs] at h
        dsimp only at h
        have hlen := unboundedLoop_length n pch' st0.line _ all h
        rcases lexStep_framed pch acc l pch' st0 hs with ⟨h0, hr⟩ | ⟨t, h0, hr⟩
        · rw [hr]
          rw [h0, List.append_nil] at h
          exact ih pch' st0.line acc all h hacc
        · rw [hr]
          rw [h0] at h hlen
          rw [List.length_append, List.length_singleton] at hlen
          by_cases hfull : acc.length = MAX_TOKENS
          · rw [if_pos hfull]
            exact ⟨fun hle => by omega, fun _ => rfl⟩
          · rw [if_neg hfull]
            exact ih pch' st0.line (acc ++ [t]) all h
              (by rw [List.length_append, List.length_singleton]; omega)

theorem unboundedLoop_semicolons (n : Nat) :
    ∀ (fuel l : Nat) (acc : List Token), n < fuel →
      unboundedLoop fuel (List.replicate n ';') l acc =
        .tokens (acc ++ List.replicate n ⟨.SEMICOLON, l, .none⟩ ++ [⟨.FINISH, l, .none⟩]) := by
  induction n with
  | zero =>
    intro fuel l acc hf
    obtain ⟨m, rfl⟩ : ∃ m, fuel = m + 1 := ⟨fuel - 1, by omega⟩
    rw [List.replicate_zero, List.replicate_zero, unboundedLoop,
      if_pos (show cur [] = NUL from rfl), List.append_nil]
  | succ k ih =>
    intro fuel l acc hf
    obtain ⟨m, rfl⟩ : ∃ m, fuel = m + 1 := ⟨fuel - 1, by omega⟩
    rw [List.replicate_succ, List.replicate_succ, unboundedLoop,
      if_neg (by rw [cur_cons]; decide), lexStep_semicolon,
      emit_ok _ _ _ (by simp [MAX_TOKENS])]
    dsimp only
    rw [ih m l _ (by omega)]
    simp

/-- C13. `tokenize` never returns more than 4096 tokens, the end-marker
counted. An input that would lex to a token sequence if the array had no bound
(`tokenizeUnbounded`) lexes to that very sequence when it has at most 4095
tokens before the end-marker, and ends in "Too many tokens." when it has 4096
or more. 4095 semicolons lex to 4095 SEMICOLON tokens and the end-marker;
4096 semicolons end in "Too many tokens.". -/
theorem token_capacity :
    (∀ (input : List Char) (ts : List Token), tokenize input = .tokens ts → ts.length ≤ 4096) ∧
    (∀ (input : List Char) (us : List Token) (last : Token),
      tokenizeUnbounded input = .tokens (us ++ [last]) →
      (us.length ≤ 4095 → tokenize input = .tokens (us ++ [last])) ∧
      (4096 ≤ us.length → tokenize input = .fatal .tooManyTokens)) ∧
    tokenize (List.replicate 4095 ';') =
      .tokens (List.replicate 4095 ⟨.SEMICOLON, 1, .none⟩ ++ [⟨.FINISH, 1, .none⟩]) ∧
    tokenize (List.replicate 4096 ';') = .fatal .tooManyTokens := by
  have hgen : ∀ (input : List Char) (us : List Token) (last : Token),
      tokenizeUnbounded input = .tokens (us ++ [last]) →
      (us.length ≤ 4095 → tokenize input = .tokens (us ++ [last])) ∧
      (4096 ≤ us.length → tokenize input = .fatal .tooManyTokens) := by
    intro input us last h
    have := tokenizeLoop_unbounded _ input 1 [] _ h (by simp)
    rw [List.length_append, List.length_singleton] at this
    exact ⟨fun hle => this.1 (by unfold MAX_TOKENS; omega),
      fun hge => this.2 (by unfold MAX_TOKENS; omega)⟩
  have hsemi : ∀ n, tokenizeUnbounded (List.replicate n ';') =
      .tokens (List.replicate n ⟨.SEMICOLON, 1, .none⟩ ++ [⟨.FINISH, 1, .none⟩]) := by
    intro n
    unfold tokenizeUnbounded
    rw [unboundedLoop_semicolons n _ 1 [] (by simp), List.nil_append]
  refine ⟨?_, hgen, ?_, ?_⟩
  · intro input ts h
    exact (tokenizeLoop_cap _ input _ ts h (by simp) (by simp)).1
  · exact (hgen _ _ _ (hsemi 4095)).1 (le_of_eq (List.length_replicate _ _))
  · exact (hgen _ _ _ (hsemi 4096)).2 (le_of_eq (List.length_replicate _ _).symm)

theorem dropWhile_of_cur (p : Char → Bool) (rest : List Char) (h : p (cur rest) = false) :
    List.dropWhile p rest = rest := by
  cases rest with
  | nil => rfl
  | cons a r =>
    rw [cur_cons] at h
    rw [List.dropWhile_cons, if_neg (by rw [h]; decide)]

/-- A round of the loop at an identifier-like run `c :: w` that ends where
`rest` begins. -/
theorem lexStep_word_run (c : Char) (w rest : List Char) (st : LexState)
    (hc : isalpha c = true ∨ c = '_') (hw : ∀ x ∈ w, (isalnum x || x == '_') = true)
    (hrest : (isalnum (cur rest) || cur rest == '_') = false) :
    lexStep (c :: w ++ rest) st =
      if (c :: w).length > MAX_STR then .error .stringTooLong
      else match keyword (c :: w) with
        | some k => emit st k rest
        | none =>
          match addTk st .ID with
          | .error e => .error e
          | .ok st => .ok (rest, { st with tokens := setPayload st.tokens (.text (c :: w)) }) := by
  rw [List.cons_append, lexStep_word c _ st hc]
  unfold lexWord
  dsimp only [List.tail_cons]
  rw [dropWhile_append_of_all _ w rest hw, dropWhile_of_cur _ rest hrest, ← List.cons_append,
    copyn_append]
  by_cases hlen : (c :: w).length > MAX_STR
  · rw [if_pos hlen, if_pos hlen]
  · rw [if_neg hlen, if_neg hlen]

/-- A round of the loop at a string literal with the body `s`. -/
theorem lexStep_string_body (s rest : List Char) (st : LexState) (hq : '"' ∉ s)
    (h0 : NUL ∉ s) :
    lexStep ('"' :: s ++ '"' :: rest) st =
      match addTk st .STR with
      | .error e => .error e
      | .ok st =>
        if s.length > MAX_STR then .error .stringTooLong
        else .ok (rest, { st with tokens := setPayload st.tokens (.text s) }) := by
  have hall : ∀ x ∈ s, (x != NUL && x != '"') = true := by
    intro x hx
    have h1 : x ≠ NUL := fun h => h0 (h ▸ hx)
    have h2 : x ≠ '"' := fun h => hq (h ▸ hx)
    simp [h1, h2]
  have hd : List.dropWhile (fun x => x != NUL && x != '"') ('"' :: rest) = '"' :: rest := by
    rw [List.dropWhile_cons, if_neg (by decide)]
  rw [List.cons_append, lexStep_quote]
  unfold lexString
  dsimp only [List.tail_cons]
  rw [dropWhile_append_of_all _ s _ hall, hd, if_pos (cur_cons _ _), copyn_append]
  cases addTk st .STR with
  | error e => rfl
  | ok st1 =>
    dsimp only
    by_cases hlen : s.length > MAX_STR
    · rw [if_pos hlen, if_pos hlen]
    · rw [if_neg hlen, if_neg hlen]
      rfl

theorem keywordTable_length : ∀ p ∈ keywordTable, p.1.length ≤ 8 := by decide

/-- A run of semicolons for which the array has room: the loop adds one
SEMICOLON token for each and stands at what follows. -/
theorem TokenStart.semicolons {input rest : List Char} (n : Nat) :
    ∀ st : LexState, TokenStart input (List.replicate n ';' ++ rest) st →
      st.tokens.length + n ≤ MAX_TOKENS →
      TokenStart input rest
        ⟨st.tokens ++ List.replicate n ⟨.SEMICOLON, st.line, .none⟩, st.line⟩ := by
  induction n with
  | zero =>
    intro st h _
    simpa using h
  | succ n ih =>
    intro st h hroom
    rw [List.replicate_succ, List.cons_append] at h
    have hs := lexStep_semicolon (List.replicate n ';' ++ rest) st
    rw [emit_ok _ _ _ (by omega)] at hs
    have h' := TokenStart.step _ _ _ _ h (by rw [cur_cons]; decide) hs
    have := ih _ h' (by simp only [List.length_append, List.length_singleton]; omega)
    simpa [List.replicate_succ] using this

/-- C12, where the claim fails as stated: 4096 semicolons fill the token
array, and the string literal that follows, with a body of 128 letters, ends
the run in "Too many tokens.", not in "String too long.": for a string
literal `addTk(STR)` is called before `copyn`. -/
theorem long_string_on_full_array :
    (List.replicate 128 'a').length = 128 ∧
    tokenize (List.replicate 4096 ';' ++ ('"' :: List.replicate 128 'a' ++ ['"'])) =
      .fatal .tooManyTokens := by
  refine ⟨List.length_replicate _ _, ?_⟩
  have hq : '"' ∉ List.replicate 128 'a' := fun h => by
    have := List.eq_of_mem_replicate h
    revert this
    decide
  have h0 : NUL ∉ List.replicate 128 'a' := fun h => by
    have := List.eq_of_mem_replicate h
    revert this
    decide
  have hstart : TokenStart (List.replicate 4096 ';' ++ ('"' :: List.replicate 128 'a' ++ ['"']))
      ('"' :: List.replicate 128 'a' ++ ['"']) _ :=
    TokenStart.semicolons 4096 ⟨[], 1⟩ .start (by simp [MAX_TOKENS])
  rw [hstart.tokenize_eq, tokenizeLoop, if_neg (by rw [List.cons_append, cur_cons]; decide),
    lexStep_string_body _ [] _ hq h0]
  unfold addTk
  rw [if_pos (by
    show (([] : List Token) ++ List.replicate 4096 _).length = MAX_TOKENS
    rw [List.nil_append, List.length_replicate]
    rfl)]

/-- C12, amended. An identifier-like run of exactly 127 characters lexes to
one ID token that carries the whole run, and a string literal with a body of
exactly 127 characters to one STR token that carries the whole body: so as a
whole input, and so wherever the loop of `tokenize` stands at it with room in
the token array (the token is added, the loop goes on after the run or the
closing quote, and every token sequence `tokenize` returns holds the token at
that place). Wherever the loop stands at an identifier-like run of 128 or
more characters, `tokenize` ends in "String too long."; at a string literal
whose body has 128 or more characters it ends in "String too long." when the
array has room for the STR token; when the array is full it ends in "Too many
tokens." at any string literal, and at any identifier-like run of at most 127
characters. No token of a sequence `tokenize` returns
carries a text of more than 127 characters. -/
theorem text_capacity :
    (∀ w : List Char, w.length = 127 → (isalpha (cur w) = true ∨ cur w = '_') →
      (∀ x ∈ w, isalnum x = true ∨ x = '_') →
      tokenize w = .tokens [⟨.ID, 1, .text w⟩, ⟨.FINISH, 1, .none⟩]) ∧
    (∀ s : List Char, s.length = 127 → '"' ∉ s → NUL ∉ s →
      tokenize ('"' :: s ++ ['"']) = .tokens [⟨.STR, 1, .text s⟩, ⟨.FINISH, 1, .none⟩]) ∧
    (∀ (input : List Char) (c : Char) (w rest : List Char) (st : LexState),
      TokenStart input (c :: w ++ rest) st → (isalpha c = true ∨ c = '_') →
      (∀ x ∈ w, isalnum x = true ∨ x = '_') → ¬(isalnum (cur rest) = true ∨ cur rest = '_') →
      (c :: w).length = 127 → st.tokens.length < MAX_TOKENS →
      TokenStart input rest ⟨st.tokens ++ [⟨.ID, st.line, .text (c :: w)⟩], st.line⟩ ∧
      ∀ ts, tokenize input = .tokens ts →
        ∃ more, ts = st.tokens ++ ⟨.ID, st.line, .text (c :: w)⟩ :: more) ∧
    (∀ (input s rest : List Char) (st : LexState),
      TokenStart input ('"' :: s ++ '"' :: rest) st → '"' ∉ s → NUL ∉ s →
      s.length = 127 → st.tokens.length < MAX_TOKENS →
      TokenStart input rest ⟨st.tokens ++ [⟨.STR, st.line, .text s⟩], st.line⟩ ∧
      ∀ ts, tokenize input = .tokens ts →
        ∃ more, ts = st.tokens ++ ⟨.STR, st.line, .text s⟩ :: more) ∧
    (∀ (input : List Char) (c : Char) (w rest : List Char) (st : LexState),
      TokenStart input (c :: w ++ rest) st → (isalpha c = true ∨ c = '_') →
      (∀ x ∈ w, isalnum x = true ∨ x = '_') → ¬(isalnum (cur rest) = true ∨ cur rest = '_') →
      128 ≤ (c :: w).length → tokenize input = .fatal .stringTooLong) ∧
    (∀ (input s rest : List Char) (st : LexState),
      TokenStart input ('"' :: s ++ '"' :: rest) st → '"' ∉ s → NUL ∉ s →
      128 ≤ s.length → st.tokens.length < MAX_TOKENS →
      tokenize input = .fatal .stringTooLong) ∧
    (∀ (input s rest : List Char) (st : LexState),
      TokenStart input ('"' :: s ++ '"' :: rest) st → '"' ∉ s → NUL ∉ s →
      st.tokens.length = MAX_TOKENS → tokenize input = .fatal .tooManyTokens) ∧
    (∀ (input : List Char) (c : Char) (w rest : List Char) (st : LexState),
      TokenStart input (c :: w ++ rest) st → (isalpha c = true ∨ c = '_') →
      (∀ x ∈ w, isalnum x = true ∨ x = '_') → ¬(isalnum (cur rest) = true ∨ cur rest = '_') →
      (c :: w).length ≤ 127 → st.tokens.length = MAX_TOKENS →
      tokenize input = .fatal .tooManyTokens) ∧
    (∀ (input : List Char) (ts : List Token), tokenize input = .tokens ts →
      ∀ t ∈ ts, ∀ s, t.payload = .text s → s.length ≤ 127) := by
  have hword : ∀ (w rest : List Char), (∀ x ∈ w, isalnum x = true ∨ x = '_') →
      ¬(isalnum (cur rest) = true ∨ cur rest = '_') →
      (∀ x ∈ w, (isalnum x || x == '_') = true) ∧
        (isalnum (cur rest) || cur rest == '_') = false := by
    intro w rest hw hrest
    refine ⟨?_, ?_⟩
    · intro x hx
      rcases hw x hx with h | h
      · simp [h]
      · simp [h]
    · cases h : (isalnum (cur rest) || cur rest == '_')
      · rfl
      · exfalso
        apply hrest
        simpa using h
  have hnokey : ∀ w : List Char, 9 ≤ w.length → keyword w = none := by
    intro w hlen
    refine keyword_not_in_table w ?_
    intro p hp hw
    have := keywordTable_length p hp
    rw [← hw] at this
    omega
  have hafter : ∀ (input rest : List Char) (st : LexState) {t : Token},
      TokenStart input rest ⟨st.tokens ++ [t], st.line⟩ →
      TokenStart input rest ⟨st.tokens ++ [t], st.line⟩ ∧
        ∀ ts, tokenize input = .tokens ts → ∃ more, ts = st.tokens ++ t :: more := by
    intro input rest st t h
    refine ⟨h, ?_⟩
    intro ts hts
    rw [h.tokenize_eq] at hts
    obtain ⟨mid, last, rfl, -⟩ := tokenizeLoop_tokens _ _ _ _ hts
    exact ⟨mid ++ [last], by simp⟩
  refine ⟨?_, ?_, ?_, ?_, ?_, ?_, ?_, ?_, ?_⟩
  · intro w hlen hfirst hchars
    cases w with
    | nil => simp at hlen
    | cons c rest =>
      have hr : ∀ x ∈ rest, (isalnum x || x == '_') = true := by
        intro x hx
        rcases hchars x (List.mem_cons_of_mem _ hx) with h | h
        · simp [h]
        · simp [h]
      rw [tokenize_word c rest hfirst hr, if_neg (by unfold MAX_STR; omega),
        hnokey _ (by omega)]
  · intro s hlen hq h0
    rw [tokenize_string s hq h0, if_neg (by unfold MAX_STR; omega)]
  · intro input c w rest st hstart hc hw hrest hlen hroom
    obtain ⟨hw', hrest'⟩ := hword w rest hw hrest
    refine hafter _ _ _ (TokenStart.step _ _ _ _ hstart
      (by rw [List.cons_append, cur_cons]; exact word_ne_NUL hc) ?_)
    rw [lexStep_word_run c w rest st hc hw' hrest', if_neg (by unfold MAX_STR; omega),
      hnokey _ (by omega)]
    unfold addTk
    rw [if_neg (Nat.ne_of_lt hroom)]
    dsimp only
    rw [setPayload_append]
  · intro input s rest st hstart hq h0 hlen hroom
    refine hafter _ _ _ (TokenStart.step _ _ _ _ hstart
      (by rw [List.cons_append, cur_cons]; decide) ?_)
    rw [lexStep_string_body s rest st hq h0]
    unfold addTk
    rw [if_neg (Nat.ne_of_lt hroom)]
    dsimp only
    rw [if_neg (by unfold MAX_STR; omega), setPayload_append]
  · intro input c w rest st hstart hc hw hrest hlen
    obtain ⟨hw', hrest'⟩ := hword w rest hw hrest
    rw [hstart.tokenize_eq, tokenizeLoop,
      if_neg (by rw [List.cons_append, cur_cons]; exact word_ne_NUL hc),
      lexStep_word_run c w rest st hc hw' hrest', if_pos (by unfold MAX_STR; omega)]
  · intro input s rest st hstart hq h0 hlen hroom
    rw [hstart.tokenize_eq, tokenizeLoop,
      if_neg (by rw [List.cons_append, cur_cons]; decide),
      lexStep_string_body s rest st hq h0]
    unfold addTk
    rw [if_neg (Nat.ne_of_lt hroom)]
    dsimp only
    rw [if_pos (by unfold MAX_STR; omega)]
  · intro input s rest st hstart hq h0 hfull
    rw [hstart.tokenize_eq, tokenizeLoop,
      if_neg (by rw [List.cons_append, cur_cons]; decide),
      lexStep_string_body s rest st hq h0]
    unfold addTk
    rw [if_pos hfull]
  · intro input c w rest st hstart hc hw hrest hlen hfull
    obtain ⟨hw', hrest'⟩ := hword w rest hw hrest
    rw [hstart.tokenize_eq, tokenizeLoop,
      if_neg (by rw [List.cons_append, cur_cons]; exact word_ne_NUL hc),
      lexStep_word_run c w rest st hc hw' hrest', if_neg (by unfold MAX_STR; omega)]
    cases keyword (c :: w) with
    | none =>
      dsimp only
      unfold addTk
      rw [if_pos hfull]
    | some k =>
      dsimp only
      unfold emit addTk
      rw [if_pos hfull]
  · intro input ts h
    exact (tokenizeLoop_cap _ input _ ts h (by simp) (by simp)).2

/-- C12 at 127 and at 128 letters `a`: one ID token with all 127 letters, and
"String too long."; and at `;` followed by a string literal with a body of
128 letters, where the loop reaches the literal after one token. -/
theorem text_capacity_witness :
    tokenize (List.replicate 127 'a') =
      .tokens [⟨.ID, 1, .text (List.replicate 127 'a')⟩, ⟨.FINISH, 1, .none⟩] ∧
    tokenize (List.replicate 128 'a') = .fatal .stringTooLong ∧
    tokenize (';' :: ('"' :: List.replicate 128 'a' ++ ['"'])) = .fatal .stringTooLong :=
  ⟨text_capacity.1 (List.replicate 127 'a') (List.length_replicate _ _) (Or.inl rfl)
     (fun x hx => Or.inl (by rw [List.eq_of_mem_replicate hx]; rfl)),
   text_capacity.2.2.2.2.1 (List.replicate 128 'a') 'a' (List.replicate 127 'a') [] ⟨[], 1⟩
     (by rw [List.append_nil]; exact .start) (Or.inl rfl)
     (fun x hx => Or.inl (by rw [List.eq_of_mem_replicate hx]; rfl)) (by decide)
     (by rw [List.length_cons, List.length_replicate]),
   text_capacity.2.2.2.2.2.1 (';' :: ('"' :: List.replicate 128 'a' ++ ['"']))
     (List.replicate 128 'a') [] ⟨[⟨.SEMICOLON, 1, .none⟩], 1⟩
     (TokenStart.semicolons 1 ⟨[], 1⟩ .start (by decide))
     (fun h => by have := List.eq_of_mem_replicate h; revert this; decide)
     (fun h => by have := List.eq_of_mem_replicate h; revert this; decide)
     (le_of_eq (List.length_replicate _ _).symm) (by decide)⟩

/-! ## Progress and termination -/

theorem Adv.ret_true_adv {B c s j : Nat} (h1 : c ≤ j) (h2 : j ≤ B) (h3 : s ≤ j) :
    Adv B c s (.ret true j) := by
  refine ⟨(by intro h; cases h), ?_, ?_⟩
  · intro b j' h; cases h; exact ⟨h1, h2⟩
  · intro j' h; cases h; exact h3

theorem Adv.ret_false_adv {B c s j : Nat} (h1 : c ≤ j) (h2 : j ≤ B) :
    Adv B c s (.ret false j) := by
  refine ⟨(by intro h; cases h), ?_, ?_⟩
  · intro b j' h; cases h; exact ⟨h1, h2⟩
  · intro j' h; cases h

theorem Adv.tkerr_adv (B c s : Nat) (toks : List Token) (msg : String) (i : Nat) :
    Adv B c s (tkerr toks msg i) := by
  unfold LFTC.tkerr
  split
  · exact ⟨(by intro h; cases h), (by intro b j h; cases h), (by intro j h; cases h)⟩
  · exact ⟨(by intro h; cases h), (by intro b j h; cases h), (by intro j h; cases h)⟩

theorem Adv.consume_adv {toks : List Token} {B : Nat} (hB : toks.length ≤ B) (code : Code)
    (i : Nat) (hi : i ≤ B) : Adv B i (i + 1) (consume toks code i) := by
  unfold LFTC.consume
  cases h : toks[i]? with
  | none => exact ⟨(by intro h; cases h), (by intro b j h; cases h), (by intro j h; cases h)⟩
  | some t =>
    have hi : i < toks.length := by
      by_contra hn
      rw [List.getElem?_eq_none (by omega)] at h
      cases h
    dsimp only
    split
    · exact Adv.ret_true_adv (by omega) (by omega) (by omega)
    · exact Adv.ret_false_adv (by omega) (by omega)

theorem Adv.weaken {B c s c' s' : Nat} {r : Res} (h : Adv B c' s' r) (h1 : c ≤ c')
    (h3 : s ≤ s') : Adv B c s r := by
  refine ⟨h.ne, ?_, ?_⟩
  · intro b j hj
    have := h.mono b j hj
    omega
  · intro j hj
    have := h.prog j hj
    omega

theorem Adv.branch_adv {B c s c' s' : Nat} {r : Res} {t e : Nat → Res} (hr : Adv B c' s' r)
    (ht : ∀ j, c' ≤ j → j ≤ B → s' ≤ j → Adv B c s (t j))
    (he : ∀ j, c' ≤ j → j ≤ B → Adv B c s (e j)) :
    Adv B c s (r.branch t e) := by
  cases r with
  | ret b i =>
    have hm := hr.mono b i rfl
    cases b
    · exact he i hm.1 hm.2
    · exact ht i hm.1 hm.2 (hr.prog i rfl)
  | fatal i l m =>
    exact ⟨(by intro h; cases h), (by intro b j h; cases h), (by intro j h; cases h)⟩
  | outOfRange i =>
    exact ⟨(by intro h; cases h), (by intro b j h; cases h), (by intro j h; cases h)⟩
  | outOfFuel => exact absurd rfl hr.ne

theorem Adv.orElse_adv {B c s : Nat} {r : Res} {e : Nat → Res} (hr : Adv B c s r)
    (he : ∀ j, c ≤ j → j ≤ B → Adv B c s (e j)) : Adv B c s (r.orElse e) :=
  Adv.branch_adv hr (fun _ h1 h2 h3 => Adv.ret_true_adv h1 h2 h3) he

theorem Adv.andThen_adv {B c s c' s' : Nat} {r : Res} {k : Nat → Res} (hr : Adv B c' s' r)
    (hk : ∀ j, c' ≤ j → j ≤ B → Adv B c s (k j)) : Adv B c s (r.andThen k) :=
  Adv.branch_adv hr (fun j h1 h2 _ => hk j h1 h2) hk

theorem Adv0.of {B c s : Nat} {r : Res} (h : Adv B c s r) : Adv0 B c r := by
  refine ⟨⟨h.ne, h.mono, ?_⟩⟩
  intro j hj
  exact (h.mono true j hj).1

theorem Adv0.branch_adv0 {B c s' : Nat} {r : Res} {t e : Nat → Res} (hr : Adv B c s' r)
    (ht : ∀ j, c ≤ j → j ≤ B → s' ≤ j → Adv B c c (t j))
    (he : ∀ j, c ≤ j → j ≤ B → Adv B c c (e j)) :
    Adv0 B c (r.branch t e) :=
  ⟨Adv.branch_adv hr ht he⟩

theorem Adv0.orElse_adv0 {B c s : Nat} {r : Res} {e : Nat → Res} (hr : Adv B c s r)
    (he : ∀ j, c ≤ j → j ≤ B → Adv B c s (e j)) : Adv0 B c (r.orElse e) :=
  Adv0.of (Adv.orElse_adv hr he)

theorem Adv.andThen0 {B c s c' : Nat} {r : Res} {k : Nat → Res} (hr : Adv0 B c' r)
    (hk : ∀ j, c' ≤ j → j ≤ B → Adv B c s (k j)) : Adv B c s (r.andThen k) :=
  Adv.andThen_adv hr.adv hk

theorem baseType_adv {toks : List Token} {B : Nat} (hB : toks.length ≤ B) (i : Nat)
    (hi : i ≤ B) : Adv B i (i + 1) (baseType toks i) := by
  unfold baseType
  refine Adv.orElse_adv (Adv.consume_adv hB _ _ hi) fun j h1 h2 => ?_
  refine Adv.orElse_adv ((Adv.consume_adv hB _ _ h2).weaken h1 (by omega)) fun j' h3 h4 => ?_
  exact (Adv.consume_adv hB _ _ h4).weaken (by omega) (by omega)

theorem defVar_adv {toks : List Token} {B : Nat} (hB : toks.length ≤ B) (i : Nat)
    (hi : i ≤ B) : Adv B i (i + 1) (defVar toks i) := by
  unfold defVar
  repeat' first
    | with_reducible exact Adv.ret_true_adv (by omega) (by omega) (by omega)
    | with_reducible exact Adv.ret_false_adv (by omega) (by omega)
    | with_reducible exact Adv.tkerr_adv _ _ _ _ _ _
    | with_reducible exact Adv.consume_adv hB _ _ (by omega)
    | with_reducible exact baseType_adv hB _ (by omega)
    | with_reducible apply Adv.branch_adv
    | intro j h1 h2 h3
    | intro j h1 h2

theorem funcParam_adv {toks : List Token} {B : Nat} (hB : toks.length ≤ B) (i : Nat)
    (hi : i ≤ B) : Adv B i (i + 1) (funcParam toks i) := by
  unfold funcParam
  repeat' first
    | with_reducible exact Adv.ret_true_adv (by omega) (by omega) (by omega)
    | with_reducible exact Adv.ret_false_adv (by omega) (by omega)
    | with_reducible exact Adv.tkerr_adv _ _ _ _ _ _
    | with_reducible exact Adv.consume_adv hB _ _ (by omega)
    | with_reducible exact baseType_adv hB _ (by omega)
    | with_reducible apply Adv.branch_adv
    | intro j h1 h2 h3
    | intro j h1 h2

theorem defVarLoop_adv {toks : List Token} {B : Nat} (hB : toks.length ≤ B) :
    ∀ fuel i, i ≤ B → B + 1 ≤ fuel + i → Adv B i i (defVarLoop toks fuel i) := by
  intro fuel
  induction fuel with
  | zero => intro i hi h; omega
  | succ n ih =>
    intro i hi hf
    rw [defVarLoop]
    refine Adv.branch_adv (defVar_adv hB i hi) (fun j h1 h2 h3 => ?_) (fun j h1 h2 => ?_)
    · exact (ih j h2 (by omega)).weaken (by omega) (by omega)
    · exact Adv.ret_true_adv (by omega) (by omega) (by omega)

theorem funcParamsLoop_adv {toks : List Token} {B : Nat} (hB : toks.length ≤ B) :
    ∀ fuel i, i ≤ B → B + 1 ≤ fuel + i → Adv B i i (funcParamsLoop toks fuel i) := by
  intro fuel
  induction fuel with
  | zero => intro i hi h; omega
  | succ n ih =>
    intro i hi hf
    rw [funcParamsLoop]
    refine Adv.branch_adv (Adv.consume_adv hB _ _ hi) (fun j h1 h2 h3 => ?_) (fun j h1 h2 => ?_)
    · refine Adv.branch_adv (funcParam_adv hB j h2) (fun j' h4 h5 h6 => ?_) (fun j' _ _ => ?_)
      · exact (ih j' h5 (by omega)).weaken (by omega) (by omega)
      · exact Adv.tkerr_adv _ _ _ _ _ _
    · exact Adv.ret_true_adv (by omega) (by omega) (by omega)

theorem funcParams_adv {toks : List Token} {B : Nat} (hB : toks.length ≤ B) (fuel i : Nat)
    (hi : i ≤ B) (hf : B + 1 ≤ fuel + i) : Adv B i (i + 1) (funcParams toks fuel i) := by
  unfold funcParams
  refine Adv.branch_adv (funcParam_adv hB i hi) (fun j h1 h2 h3 => ?_) (fun j h1 h2 => ?_)
  · refine Adv.andThen_adv (funcParamsLoop_adv hB fuel j h2 (by omega)) fun j' h4 h5 => ?_
    exact Adv.ret_true_adv (by omega) (by omega) (by omega)
  · exact Adv.ret_false_adv (by omega) (by omega)


set_option maxHeartbeats 4000000 in
/-- With fuel enough for the tokens left, every procedure and loop of the
mutual recursion ends without moving the cursor back, and a procedure that
succeeds has moved it forward. -/
theorem advAll {toks : List Token} {B : Nat} (hB : toks.length ≤ B) :
    ∀ fuel, AdvAll toks B fuel := by
  intro fuel
  induction fuel with
  | zero => constructor <;> intro i hi h <;> omega
  | succ n ih =>
    constructor
    all_goals intro i hi hf
    all_goals first
      | rw [block] | rw [blockLoop] | rw [instr] | rw [expr] | rw [exprLogic] | rw [exprLogicLoop] | rw [exprAssign] | rw [exprComp] | rw [exprAdd] | rw [exprAddLoop] | rw [exprMul] | rw [exprMulLoop] | rw [ exprPrefix] | rw [factor] | rw [factorArgsLoop]
    all_goals repeat' first
      | with_reducible exact Adv.ret_true_adv (by omega) (by omega) (by omega)
      | with_reducible exact Adv.ret_false_adv (by omega) (by omega)
      | with_reducible exact Adv.tkerr_adv _ _ _ _ _ _
      | with_reducible exact Adv.consume_adv hB _ _ (by omega)
      | with_reducible exact (Adv.consume_adv hB _ _ (by omega)).weaken (by omega) (by omega)
      | with_reducible exact ih.hblock _ (by omega) (by omega)
      | with_reducible exact ih.hinstr _ (by omega) (by omega)
      | with_reducible exact ih.hexpr _ (by omega) (by omega)
      | with_reducible exact ih.hexprLogic _ (by omega) (by omega)
      | with_reducible exact ih.hexprAssign _ (by omega) (by omega)
      | with_reducible exact ih.hexprComp _ (by omega) (by omega)
      | with_reducible exact ih.hexprAdd _ (by omega) (by omega)
      | with_reducible exact ih.hexprMul _ (by omega) (by omega)
      | with_reducible exact ih.hexprPre _ (by omega) (by omega)
      | with_reducible exact (ih.hblockLoop _ (by omega) (by omega)).weaken (by omega) (by omega)
      | with_reducible exact (ih.hexprLogicLoop _ (by omega) (by omega)).weaken (by omega) (by omega)
      | with_reducible exact (ih.hexprComp _ (by omega) (by omega)).weaken (by omega) (by omega)
      | with_reducible exact (ih.hexprAddLoop _ (by omega) (by omega)).weaken (by omega) (by omega)
      | with_reducible exact (ih.hexprMulLoop _ (by omega) (by omega)).weaken (by omega) (by omega)
      | with_reducible exact (ih.hfactor _ (by omega) (by omega)).weaken (by omega) (by omega)
      | with_reducible exact (ih.hfactorArgsLoop _ (by omega) (by omega)).weaken (by omega) (by omega)
      | with_reducible exact Adv0.of (ih.hblockLoop _ (by omega) (by omega))
      | with_reducible exact Adv0.of (ih.hexprLogicLoop _ (by omega) (by omega))
      | with_reducible exact Adv0.of (ih.hexprAddLoop _ (by omega) (by omega))
      | with_reducible exact Adv0.of (ih.hexprMulLoop _ (by omega) (by omega))
      | with_reducible apply Adv.branch_adv
      | with_reducible apply Adv.orElse_adv
      | with_reducible apply Adv.andThen0
      | with_reducible apply Adv0.branch_adv0
      | with_reducible apply Adv0.orElse_adv0
      | intro j h1 h2 h3
      | intro j h1 h2

theorem defFunc_adv {toks : List Token} {B : Nat} (hB : toks.length ≤ B) (fuel i : Nat)
    (hi : i ≤ B) (hf : 12 * B + 1 ≤ fuel + 12 * i) :
    Adv B i (i + 1) (defFunc toks fuel i) := by
  have hb := (advAll hB fuel).hblock
  unfold defFunc
  repeat' first
    | with_reducible exact Adv.ret_true_adv (by omega) (by omega) (by omega)
    | with_reducible exact Adv.ret_false_adv (by omega) (by omega)
    | with_reducible exact Adv.tkerr_adv _ _ _ _ _ _
    | with_reducible exact Adv.consume_adv hB _ _ (by omega)
    | with_reducible exact baseType_adv hB _ (by omega)
    | with_reducible exact hb _ (by omega) (by omega)
    | with_reducible exact Adv0.of (funcParams_adv hB _ _ (by omega) (by omega))
    | with_reducible exact Adv0.of (defVarLoop_adv hB _ _ (by omega) (by omega))
    | with_reducible apply Adv.branch_adv
    | with_reducible apply Adv.andThen0
    | intro j h1 h2 h3
    | intro j h1 h2

theorem programLoop_adv {toks : List Token} {B : Nat} (hB : toks.length ≤ B) :
    ∀ fuel i, i ≤ B → 12 * B + 11 ≤ fuel + 12 * i →
      Adv B i i (programLoop toks fuel i) := by
  intro fuel
  induction fuel with
  | zero => intro i hi h; omega
  | succ n ih =>
    intro i hi hf
    have hb := (advAll hB n).hblock
    rw [programLoop]
    refine Adv.branch_adv (show Adv B i (i + 1) _ from ?_) (fun j h1 h2 h3 => ?_)
      (fun j h1 h2 => ?_)
    · refine Adv.orElse_adv (defVar_adv hB i hi) fun j h1 h2 => ?_
      refine Adv.orElse_adv ((defFunc_adv hB n j h2 (by omega)).weaken h1 (by omega))
        fun j' h3 h4 => ?_
      exact (hb j' h4 (by omega)).weaken (by omega) (by omega)
    · exact (ih j h2 (by omega)).weaken (by omega) (by omega)
    · exact Adv.ret_true_adv (by omega) (by omega) (by omega)

/-- On fuel enough for the tokens of the sequence, `program` ends: it
accepts, raises a diagnostic, or has read past the end of the array. -/
theorem program_ends (toks : List Token) (fuel i : Nat)
    (hf : 12 * toks.length + 11 ≤ fuel) :
    (∃ j, program toks fuel i = .ret true j) ∨
    (∃ j l m, program toks fuel i = .fatal j l m) ∨
    (∃ j, program toks fuel i = .outOfRange j) := by
  have hl := programLoop_adv (B := toks.length + i) (Nat.le_add_right _ _) fuel i
    (Nat.le_add_left _ _) (by omega)
  unfold program
  cases hr : programLoop toks fuel i with
  | outOfFuel => exact absurd hr hl.ne
  | fatal j l m => exact Or.inr (Or.inl ⟨j, l, m, rfl⟩)
  | outOfRange j => exact Or.inr (Or.inr ⟨j, rfl⟩)
  | ret b j =>
    have hk : (Res.ret b j).andThen (fun i => (consume toks .FINISH i).branch
        (fun i => .ret true i) (tkerr toks "Expected end of program")) =
        (consume toks .FINISH j).branch (fun i => .ret true i)
          (tkerr toks "Expected end of program") := by
      cases b <;> rfl
    rw [hk]
    cases hj : toks[j]? with
    | none => exact Or.inr (Or.inr ⟨j, by simp [consume, hj, Res.branch]⟩)
    | some t =>
      by_cases hc : t.code = .FINISH
      · exact Or.inl ⟨j + 1, by simp [consume, hj, hc, Res.branch]⟩
      · exact Or.inr (Or.inl ⟨j, t.line, "Expected end of program",
          by simp [consume, tkerr, hj, hc, Res.branch]⟩)

/-- `parse` ends on every token sequence: its fuel is enough. -/
theorem parse_ends (toks : List Token) :
    (∃ j, parse toks = .ret true j) ∨ (∃ j l m, parse toks = .fatal j l m) ∨
    (∃ j, parse toks = .outOfRange j) := by
  unfold parse
  exact program_ends toks _ 0 (by unfold parseFuel; omega)

/-! ## The cursor stays inside the array -/

theorem Safe.ret_safe {k i : Nat} (b : Bool) (h : i ≤ k) : Safe k (.ret b i) := by
  refine ⟨fun b' j hj => ?_, fun j hj => ?_⟩
  · cases hj; exact h
  · cases hj

theorem Safe.outOfFuel_safe (k : Nat) : Safe k .outOfFuel :=
  ⟨fun _ _ hj => (by cases hj), fun _ hj => by cases hj⟩

theorem Safe.tkerr_safe {toks : List Token} {k : Nat} {t : Token} (hk : toks[k]? = some t)
    (msg : String) (i : Nat) (hi : i ≤ k) : Safe k (tkerr toks msg i) := by
  have hlt : k < toks.length := by
    by_contra hn
    rw [List.getElem?_eq_none (by omega)] at hk
    cases hk
  unfold LFTC.tkerr
  rw [List.getElem?_eq_getElem (by omega)]
  exact ⟨fun _ _ hj => (by cases hj), fun _ hj => by cases hj⟩

/-- A `consume` for a code other than FINISH, at or before the end-marker,
reads inside the array and does not step over the end-marker. -/
theorem Safe.consume_safe {toks : List Token} {k : Nat} {t : Token} (hk : toks[k]? = some t)
    (hcode : t.code = .FINISH) {c : Code} (hc : c ≠ .FINISH) {i : Nat} (hi : i ≤ k) :
    Safe k (consume toks c i) := by
  have hlt : k < toks.length := by
    by_contra hn
    rw [List.getElem?_eq_none (by omega)] at hk
    cases hk
  refine ⟨(Below.consume hk (by rw [hcode]; exact fun h => hc h.symm) hi).le, ?_⟩
  intro j hj
  unfold LFTC.consume at hj
  rw [List.getElem?_eq_getElem (by omega)] at hj
  dsimp only at hj
  split at hj <;> cases hj

theorem Safe.branch_safe {k : Nat} {r : Res} {t e : Nat → Res} (hr : Safe k r)
    (ht : ∀ i, i ≤ k → Safe k (t i)) (he : ∀ i, i ≤ k → Safe k (e i)) :
    Safe k (r.branch t e) := by
  cases r with
  | ret b i =>
    have hi := hr.le b i rfl
    cases b
    · exact he i hi
    · exact ht i hi
  | fatal i l m => exact ⟨fun _ _ hj => (by cases hj), fun _ hj => by cases hj⟩
  | outOfRange i => exact absurd rfl (hr.inb i)
  | outOfFuel => exact Safe.outOfFuel_safe k

theorem Safe.orElse_safe {k : Nat} {r : Res} {e : Nat → Res} (hr : Safe k r)
    (he : ∀ i, i ≤ k → Safe k (e i)) : Safe k (r.orElse e) :=
  Safe.branch_safe hr (fun _ hi => Safe.ret_safe true hi) he

theorem Safe.andThen_safe {k : Nat} {r : Res} {c : Nat → Res} (hr : Safe k r)
    (hc : ∀ i, i ≤ k → Safe k (c i)) : Safe k (r.andThen c) :=
  Safe.branch_safe hr hc hc

/-- No procedure or loop of the mutual recursion reads outside the array or
steps over the end-marker. -/
theorem safeAll {toks : List Token} {k : Nat} {t : Token} (hk : toks[k]? = some t)
    (hcode : t.code = .FINISH) : ∀ fuel, SafeAll toks k fuel := by
  intro fuel
  induction fuel with
  | zero => constructor <;> intro i _ <;> exact Safe.outOfFuel_safe k
  | succ n ih =>
    constructor
    all_goals intro i hi
    all_goals first
      | rw [block] | rw [blockLoop] | rw [instr] | rw [expr] | rw [exprLogic] | rw [exprLogicLoop] | rw [exprAssign] | rw [exprComp] | rw [exprAdd] | rw [exprAddLoop] | rw [exprMul] | rw [exprMulLoop] | rw [ exprPrefix] | rw [factor] | rw [factorArgsLoop]
    all_goals repeat' first
      | with_reducible exact Safe.ret_safe _ (by omega)
      | with_reducible exact Safe.tkerr_safe hk _ _ (by omega)
      | ((with_reducible refine Safe.consume_safe hk hcode ?_ (by omega)); decide)
      | with_reducible exact ih.hblock _ (by omega)
      | with_reducible exact ih.hblockLoop _ (by omega)
      | with_reducible exact ih.hinstr _ (by omega)
      | with_reducible exact ih.hexpr _ (by omega)
      | with_reducible exact ih.hexprLogic _ (by omega)
      | with_reducible exact ih.hexprLogicLoop _ (by omega)
      | with_reducible exact ih.hexprAssign _ (by omega)
      | with_reducible exact ih.hexprComp _ (by omega)
      | with_reducible exact ih.hexprAdd _ (by omega)
      | with_reducible exact ih.hexprAddLoop _ (by omega)
      | with_reducible exact ih.hexprMul _ (by omega)
      | with_reducible exact ih.hexprMulLoop _ (by omega)
      | with_reducible exact ih.hexprPre _ (by omega)
      | with_reducible exact ih.hfactor _ (by omega)
      | with_reducible exact ih.hfactorArgsLoop _ (by omega)
      | with_reducible apply Safe.branch_safe | with_reducible apply Safe.orElse_safe
      | with_reducible apply Safe.andThen_safe
      | intro i hi

theorem defVar_safe {toks : List Token} {k : Nat} {t : Token} (hk : toks[k]? = some t)
    (hcode : t.code = .FINISH) (i : Nat) (hi : i ≤ k) : Safe k (defVar toks i) := by
  unfold defVar baseType
  repeat' first
    | with_reducible exact Safe.ret_safe _ (by omega)
    | with_reducible exact Safe.tkerr_safe hk _ _ (by omega)
    | ((with_reducible refine Safe.consume_safe hk hcode ?_ (by omega)); decide)
    | with_reducible apply Safe.branch_safe | with_reducible apply Safe.orElse_safe
    | with_reducible apply Safe.andThen_safe
    | intro i hi

theorem defVarLoop_safe {toks : List Token} {k : Nat} {t : Token} (hk : toks[k]? = some t)
    (hcode : t.code = .FINISH) : ∀ fuel i, i ≤ k → Safe k (defVarLoop toks fuel i) := by
  intro fuel
  induction fuel with
  | zero => intro i _; exact Safe.outOfFuel_safe k
  | succ n ih =>
    intro i hi
    rw [defVarLoop]
    exact Safe.branch_safe (defVar_safe hk hcode i hi) (fun j hj => ih j hj)
      (fun j hj => Safe.ret_safe _ hj)

theorem funcParam_safe {toks : List Token} {k : Nat} {t : Token} (hk : toks[k]? = some t)
    (hcode : t.code = .FINISH) (i : Nat) (hi : i ≤ k) : Safe k (funcParam toks i) := by
  unfold funcParam baseType
  repeat' first
    | with_reducible exact Safe.ret_safe _ (by omega)
    | with_reducible exact Safe.tkerr_safe hk _ _ (by omega)
    | ((with_reducible refine Safe.consume_safe hk hcode ?_ (by omega)); decide)
    | with_reducible apply Safe.branch_safe | with_reducible apply Safe.orElse_safe
    | with_reducible apply Safe.andThen_safe
    | intro i hi

theorem funcParamsLoop_safe {toks : List Token} {k : Nat} {t : Token}
    (hk : toks[k]? = some t) (hcode : t.code = .FINISH) :
    ∀ fuel i, i ≤ k → Safe k (funcParamsLoop toks fuel i) := by
  intro fuel
  induction fuel with
  | zero => intro i _; exact Safe.outOfFuel_safe k
  | succ n ih =>
    intro i hi
    rw [funcParamsLoop]
    exact Safe.branch_safe (Safe.consume_safe hk hcode (by decide) hi)
      (fun j hj => Safe.branch_safe (funcParam_safe hk hcode j hj) (fun j' hj' => ih j' hj')
        (fun j' hj' => Safe.tkerr_safe hk _ _ hj'))
      (fun j hj => Safe.ret_safe _ hj)

theorem funcParams_safe {toks : List Token} {k : Nat} {t : Token} (hk : toks[k]? = some t)
    (hcode : t.code = .FINISH) (fuel i : Nat) (hi : i ≤ k) :
    Safe k (funcParams toks fuel i) := by
  unfold funcParams
  exact Safe.branch_safe (funcParam_safe hk hcode i hi)
    (fun j hj => Safe.andThen_safe (funcParamsLoop_safe hk hcode fuel j hj)
      (fun j' hj' => Safe.ret_safe _ hj'))
    (fun j hj => Safe.ret_safe _ hj)

theorem defFunc_safe {toks : List Token} {k : Nat} {t : Token} (hk : toks[k]? = some t)
    (hcode : t.code = .FINISH) (fuel i : Nat) (hi : i ≤ k) :
    Safe k (defFunc toks fuel i) := by
  have hb := (safeAll hk hcode fuel).hblock
  have hv := defVarLoop_safe hk hcode fuel
  have hp := funcParams_safe hk hcode fuel
  unfold defFunc baseType
  repeat' first
    | with_reducible exact Safe.ret_safe _ (by omega)
    | with_reducible exact Safe.tkerr_safe hk _ _ (by omega)
    | ((with_reducible refine Safe.consume_safe hk hcode ?_ (by omega)); decide)
    | with_reducible exact hb _ (by omega) | with_reducible exact hv _ (by omega)
    | with_reducible exact hp _ (by omega)
    | with_reducible apply Safe.branch_safe | with_reducible apply Safe.orElse_safe
    | with_reducible apply Safe.andThen_safe
    | intro i hi

theorem programLoop_safe {toks : List Token} {k : Nat} {t : Token} (hk : toks[k]? = some t)
    (hcode : t.code = .FINISH) : ∀ fuel i, i ≤ k → Safe k (programLoop toks fuel i) := by
  intro fuel
  induction fuel with
  | zero => intro i _; exact Safe.outOfFuel_safe k
  | succ n ih =>
    intro i hi
    rw [programLoop]
    exact Safe.branch_safe
      (Safe.orElse_safe (defVar_safe hk hcode i hi) fun j hj =>
        Safe.orElse_safe (defFunc_safe hk hcode n j hj) fun j' hj' =>
          (safeAll hk hcode n).hblock j' hj')
      (fun j hj => ih j hj) (fun j hj => Safe.ret_safe _ hj)

/-- `program`, started at or before the end-marker, reads inside the array
only; when it accepts, the cursor is one past an end-marker that
`consume(FINISH)` has just stepped over, its last step. -/
theorem program_safe {toks : List Token} {k : Nat} {t : Token} (hk : toks[k]? = some t)
    (hcode : t.code = .FINISH) (fuel i : Nat) (hi : i ≤ k) :
    (∀ j, program toks fuel i ≠ .outOfRange j) ∧
    (∀ b j, program toks fuel i = .ret b j → b = true ∧ ∃ u, j ≤ k + 1 ∧
      toks[j - 1]? = some u ∧ u.code = .FINISH ∧ 0 < j) := by
  have hlt : k < toks.length := by
    by_contra hn
    rw [List.getElem?_eq_none (by omega)] at hk
    cases hk
  have hl := programLoop_safe hk hcode fuel i hi
  unfold program
  cases hr : programLoop toks fuel i with
  | outOfFuel => exact ⟨fun j h => (by cases h), fun b j h => by cases h⟩
  | fatal j l m => exact ⟨fun j h => (by cases h), fun b j h => by cases h⟩
  | outOfRange j => exact absurd hr (hl.inb j)
  | ret b j =>
    have hj := hl.le b j hr
    have hkk : (Res.ret b j).andThen (fun i => (consume toks .FINISH i).branch
        (fun i => .ret true i) (tkerr toks "Expected end of program")) =
        (consume toks .FINISH j).branch (fun i => .ret true i)
          (tkerr toks "Expected end of program") := by
      cases b <;> rfl
    rw [hkk]
    have hget : toks[j]? = some toks[j] := List.getElem?_eq_getElem (by omega)
    by_cases hc : toks[j].code = .FINISH
    · have he : (consume toks .FINISH j).branch (fun i => .ret true i)
          (tkerr toks "Expected end of program") = .ret true (j + 1) := by
        simp [consume, hget, hc, Res.branch]
      rw [he]
      refine ⟨fun j' h => (by cases h), fun b' j' h => ?_⟩
      cases h
      exact ⟨rfl, toks[j], by omega, by rw [Nat.add_sub_cancel]; exact hget, hc, by omega⟩
    · have he : (consume toks .FINISH j).branch (fun i => .ret true i)
          (tkerr toks "Expected end of program") =
          .fatal j toks[j].line "Expected end of program" := by
        simp [consume, tkerr, hget, hc, Res.branch]
      rw [he]
      exact ⟨fun j' h => (by cases h), fun b' j' h => by cases h⟩

theorem consume_branch (toks : List Token) (c : Code) (p : Nat) (t e : Nat → Res) :
    (consume toks c p).branch t e =
      (consume toks c p).branch (fun _ => t (p + 1)) (fun _ => e p) := by
  unfold consume
  cases toks[p]? with
  | none => rfl
  | some u =>
    dsimp only
    by_cases h : u.code = c
    · rw [if_pos h]; rfl
    · rw [if_neg h]; rfl

/-- C19. On a token sequence whose only end-marker is its last token: `parse`
never reads `tokens[iTk]` outside the array (in the model such a read, in
`consume` or in `tkerr`, ends the run at once with the result `outOfRange`, so
a run that does not end so has made none), and neither does any procedure or
loop started at or before the end-marker; each of them returns with the cursor
at or before the end-marker, so that only the `consume(FINISH)` that closes
`program` steps over it, and `program` returns only `true`, with the cursor one
past the end-marker. The step back in `exprAssign`, taken when
`consume(ID)` succeeded and `consume(ASSIGN)` failed, goes on with `exprComp`
at the cursor `exprAssign` was entered with, never before it. -/
theorem cursor_in_bounds (init : List Token) (fin : Token) (hfin : fin.code = .FINISH)
    (hinit : ∀ t ∈ init, t.code ≠ .FINISH) :
    (∀ j, parse (init ++ [fin]) ≠ .outOfRange j) ∧
    (∀ fuel j, program (init ++ [fin]) fuel 0 ≠ .outOfRange j) ∧
    (∀ fuel, SafeAll (init ++ [fin]) init.length fuel) ∧
    (∀ fuel i, i ≤ init.length →
      Safe init.length (defVar (init ++ [fin]) i) ∧
      Safe init.length (defFunc (init ++ [fin]) fuel i) ∧
      Safe init.length (funcParams (init ++ [fin]) fuel i) ∧
      Safe init.length (programLoop (init ++ [fin]) fuel i)) ∧
    (∀ fuel b j, program (init ++ [fin]) fuel 0 = .ret b j →
      b = true ∧ j = init.length + 1) ∧
    (∀ (toks : List Token) (fuel p : Nat),
      exprAssign toks (fuel + 1) p =
        (consume toks .ID p).branch
          (fun _ => (consume toks .ASSIGN (p + 1)).branch
            (fun _ => (exprComp toks fuel (p + 2)).branch
              (fun q => .ret true q)
              (tkerr toks "Expected expression after '='"))
            (fun _ => exprComp toks fuel p))
          (fun _ => exprComp toks fuel p)) := by
  have hk : (init ++ [fin])[init.length]? = some fin := by simp
  have hp := fun fuel => program_safe hk hfin fuel 0 (Nat.zero_le _)
  refine ⟨fun j => (hp _).1 j, fun fuel j => (hp fuel).1 j, safeAll hk hfin, ?_, ?_, ?_⟩
  · intro fuel i hi
    exact ⟨defVar_safe hk hfin i hi, defFunc_safe hk hfin fuel i hi,
      funcParams_safe hk hfin fuel i hi, programLoop_safe hk hfin fuel i hi⟩
  · intro fuel b j h
    obtain ⟨hb, u, hj, hu, hc, hpos⟩ := (hp fuel).2 b j h
    refine ⟨hb, ?_⟩
    by_contra hne
    have hlt : j - 1 < init.length := by omega
    rw [List.getElem?_append_left hlt, List.getElem?_eq_getElem hlt] at hu
    cases hu
    exact hinit _ (List.getElem_mem _) hc
  · intro toks fuel p
    rw [exprAssign, consume_branch]
    congr 1
    funext _
    rw [consume_branch]
    rfl

/-- C19 at the tokens of `x;`: no read outside the three tokens, and `program`
returns true with the cursor at 3. -/
theorem cursor_in_bounds_witness :
    (∀ j, parse [⟨.ID, 1, .text ['x']⟩, ⟨.SEMICOLON, 1, .none⟩, ⟨.FINISH, 1, .none⟩] ≠
      .outOfRange j) ∧
    (∀ fuel b j, program [⟨.ID, 1, .text ['x']⟩, ⟨.SEMICOLON, 1, .none⟩, ⟨.FINISH, 1, .none⟩]
      fuel 0 = .ret b j → b = true ∧ j = 3) :=
  have h := cursor_in_bounds [⟨.ID, 1, .text ['x']⟩, ⟨.SEMICOLON, 1, .none⟩]
    ⟨.FINISH, 1, .none⟩ rfl (by decide)
  ⟨h.1, h.2.2.2.2.1⟩

theorem progresses_of {toks : List Token} {f : Nat → Nat → Res} {r : Nat}
    (hmono : ∀ n m, n ≤ m → ∀ i, FuelLe (f n i) (f m i))
    (hadv : ∀ B, toks.length ≤ B → ∀ fuel i, i ≤ B → 12 * B + r ≤ fuel + 12 * i →
      Adv B i (i + 1) (f fuel i)) : Progresses f := by
  intro fuel i j h
  have hF := hadv (toks.length + i) (Nat.le_add_right _ _)
    (fuel + (12 * (toks.length + i) + r)) i (Nat.le_add_left _ _) (by omega)
  have hm := hmono fuel (fuel + (12 * (toks.length + i) + r)) (Nat.le_add_right _ _) i
  rw [h] at hm
  have he := hm.eq_of_ne (by intro h'; cases h')
  exact hF.prog j he

theorem terminates_of {toks : List Token} {f : Nat → Nat → Res} {r : Nat}
    (hadv : ∀ B, toks.length ≤ B → ∀ fuel i, i ≤ B → 12 * B + r ≤ fuel + 12 * i →
      f fuel i ≠ .outOfFuel) : Terminates f := by
  intro i
  exact ⟨12 * (toks.length + i) + r, hadv (toks.length + i) (Nat.le_add_right _ _) _ i
    (Nat.le_add_left _ _) (by omega)⟩

/-- C20. Whatever the token sequence, the fuel and the start cursor, each of
`defVar`, `defFunc`, `funcParams`, `funcParam`, `block`, `instr`, `expr`,
`exprLogic`, `exprAssign`, `exprComp`, `exprAdd`, `exprMul`, `exprPrefix` and
`factor` that returns success has left the cursor strictly after its start.
Every procedure and every loop (of `program`, `defFunc`, `block`,
`funcParams`, `exprLogic`, `exprAdd`, `exprMul`, `factor`) ends from every
start cursor: some amount of fuel is enough for it. On a token sequence that
ends in FINISH the fuel of `parse` is enough, and `parse` ends with
acceptance or with a fatal diagnostic. -/
theorem progress_and_termination (toks : List Token)
    (hfin : ∃ init fin, toks = init ++ [fin] ∧ fin.code = .FINISH) :
    (Progresses (fun _ => defVar toks) ∧ Progresses (defFunc toks) ∧
      Progresses (funcParams toks) ∧ Progresses (fun _ => funcParam toks) ∧
      Progresses (block toks) ∧ Progresses (instr toks) ∧ Progresses (expr toks) ∧
      Progresses (exprLogic toks) ∧ Progresses (exprAssign toks) ∧
      Progresses (exprComp toks) ∧ Progresses (exprAdd toks) ∧ Progresses (exprMul toks) ∧
      Progresses ( exprPrefix toks) ∧ Progresses (factor toks)) ∧
    (Terminates (programLoop toks) ∧ Terminates (defVarLoop toks) ∧
      Terminates (blockLoop toks) ∧ Terminates (funcParamsLoop toks) ∧
      Terminates (exprLogicLoop toks) ∧ Terminates (exprAddLoop toks) ∧
      Terminates (exprMulLoop toks) ∧ Terminates (factorArgsLoop toks)) ∧
    (Terminates (program toks) ∧ Terminates (defFunc toks) ∧ Terminates (funcParams toks) ∧
      Terminates (block toks) ∧ Terminates (instr toks) ∧ Terminates (expr toks) ∧
      Terminates (exprLogic toks) ∧ Terminates (exprAssign toks) ∧
      Terminates (exprComp toks) ∧ Terminates (exprAdd toks) ∧ Terminates (exprMul toks) ∧
      Terminates ( exprPrefix toks) ∧ Terminates (factor toks)) ∧
    ((∃ j, parse toks = .ret true j) ∨ (∃ j l m, parse toks = .fatal j l m)) := by
  have hm := monoAll toks
  refine ⟨⟨?_, ?_, ?_, ?_, ?_, ?_, ?_, ?_, ?_, ?_, ?_, ?_, ?_, ?_⟩,
    ⟨?_, ?_, ?_, ?_, ?_, ?_, ?_, ?_⟩, ⟨?_, ?_, ?_, ?_, ?_, ?_, ?_, ?_, ?_, ?_, ?_, ?_, ?_⟩, ?_⟩
  · intro fuel i j h
    exact (defVar_adv (Nat.le_add_right toks.length i) i (Nat.le_add_left _ _)).prog j h
  · exact progresses_of (r := 1) (defFunc_mono toks)
      fun B hB fuel i hi hf => defFunc_adv hB fuel i hi hf
  · exact progresses_of (r := 1) (funcParams_mono toks)
      fun B hB fuel i hi hf => funcParams_adv hB fuel i hi (by omega)
  · intro fuel i j h
    exact (funcParam_adv (Nat.le_add_right toks.length i) i (Nat.le_add_left _ _)).prog j h
  · exact progresses_of (fun n m h => (hm n m h).hblock) fun B hB fuel => (advAll hB fuel).hblock
  · exact progresses_of (fun n m h => (hm n m h).hinstr) fun B hB fuel => (advAll hB fuel).hinstr
  · exact progresses_of (fun n m h => (hm n m h).hexpr) fun B hB fuel => (advAll hB fuel).hexpr
  · exact progresses_of (fun n m h => (hm n m h).hexprLogic)
      fun B hB fuel => (advAll hB fuel).hexprLogic
  · exact progresses_of (fun n m h => (hm n m h).hexprAssign)
      fun B hB fuel => (advAll hB fuel).hexprAssign
  · exact progresses_of (fun n m h => (hm n m h).hexprComp)
      fun B hB fuel => (advAll hB fuel).hexprComp
  · exact progresses_of (fun n m h => (hm n m h).hexprAdd)
      fun B hB fuel => (advAll hB fuel).hexprAdd
  · exact progresses_of (fun n m h => (hm n m h).hexprMul)
      fun B hB fuel => (advAll hB fuel).hexprMul
  · exact progresses_of (fun n m h => (hm n m h).hexprPre)
      fun B hB fuel => (advAll hB fuel).hexprPre
  · exact progresses_of (fun n m h => (hm n m h).hfactor)
      fun B hB fuel => (advAll hB fuel).hfactor
  · exact terminates_of (r := 11) fun B hB fuel i hi hf => (programLoop_adv hB fuel i hi hf).ne
  · exact terminates_of (r := 1) fun B hB fuel i hi hf =>
      (defVarLoop_adv hB fuel i hi (by omega)).ne
  · exact terminates_of fun B hB fuel i hi hf => ((advAll hB fuel).hblockLoop i hi hf).ne
  · exact terminates_of (r := 1) fun B hB fuel i hi hf =>
      (funcParamsLoop_adv hB fuel i hi (by omega)).ne
  · exact terminates_of fun B hB fuel i hi hf => ((advAll hB fuel).hexprLogicLoop i hi hf).ne
  · exact terminates_of fun B hB fuel i hi hf => ((advAll hB fuel).hexprAddLoop i hi hf).ne
  · exact terminates_of fun B hB fuel i hi hf => ((advAll hB fuel).hexprMulLoop i hi hf).ne
  · exact terminates_of fun B hB fuel i hi hf => ((advAll hB fuel).hfactorArgsLoop i hi hf).ne
  · intro i
    refine ⟨12 * toks.length + 11, ?_⟩
    rcases program_ends toks _ i (le_refl _) with ⟨j, h⟩ | ⟨j, l, m, h⟩ | ⟨j, h⟩ <;>
      rw [h] <;> intro h' <;> cases h'
  · exact terminates_of (r := 1) fun B hB fuel i hi hf => (defFunc_adv hB fuel i hi hf).ne
  · exact terminates_of (r := 1) fun B hB fuel i hi hf =>
      (funcParams_adv hB fuel i hi (by omega)).ne
  · exact terminates_of fun B hB fuel i hi hf => ((advAll hB fuel).hblock i hi hf).ne
  · exact terminates_of fun B hB fuel i hi hf => ((advAll hB fuel).hinstr i hi hf).ne
  · exact terminates_of fun B hB fuel i hi hf => ((advAll hB fuel).hexpr i hi hf).ne
  · exact terminates_of fun B hB fuel i hi hf => ((advAll hB fuel).hexprLogic i hi hf).ne
  · exact terminates_of fun B hB fuel i hi hf => ((advAll hB fuel).hexprAssign i hi hf).ne
  · exact terminates_of fun B hB fuel i hi hf => ((advAll hB fuel).hexprComp i hi hf).ne
  · exact terminates_of fun B hB fuel i hi hf => ((advAll hB fuel).hexprAdd i hi hf).ne
  · exact terminates_of fun B hB fuel i hi hf => ((advAll hB fuel).hexprMul i hi hf).ne
  · exact terminates_of fun B hB fuel i hi hf => ((advAll hB fuel).hexprPre i hi hf).ne
  · exact terminates_of fun B hB fuel i hi hf => ((advAll hB fuel).hfactor i hi hf).ne
  · obtain ⟨init, fin, rfl, hc⟩ := hfin
    have hk : (init ++ [fin])[init.length]? = some fin := by simp
    rcases parse_ends (init ++ [fin]) with h | h | ⟨j, h⟩
    · exact Or.inl h
    · exact Or.inr h
    · exact absurd h ((program_safe hk hc _ 0 (Nat.zero_le _)).1 j)

/-- C20 at the tokens of `x;`: `parse` ends, here with acceptance, and a
successful `instr` has moved the cursor forward. -/
theorem progress_and_termination_witness :
    Progresses (instr (ofCodes [.ID, .SEMICOLON, .FINISH])) ∧
    Terminates (blockLoop (ofCodes [.ID, .SEMICOLON, .FINISH])) ∧
    ((∃ j, parse (ofCodes [.ID, .SEMICOLON, .FINISH]) = .ret true j) ∨
      (∃ j l m, parse (ofCodes [.ID, .SEMICOLON, .FINISH]) = .fatal j l m)) :=
  have h := progress_and_termination (ofCodes [.ID, .SEMICOLON, .FINISH])
    ⟨ofCodes [.ID, .SEMICOLON], ⟨.FINISH, 1, .none⟩, rfl, rfl⟩
  ⟨h.1.2.2.2.2.2.1, h.2.1.2.2.1, h.2.2.2⟩

/-! ## A comma that no expression follows -/

theorem Below.branch_not_true {k : Nat} {r : Res} {t e : Nat → Res}
    (hr : ∀ j, r ≠ .ret true j) (he : ∀ j, Below k (e j)) : Below k (r.branch t e) := by
  cases r with
  | ret b i =>
    cases b
    · exact he i
    · exact absurd rfl (hr i)
  | fatal i l m => exact fatal_below _ _ _ _
  | outOfRange i => refine ⟨fun b j hj => ?_⟩; cases hj
  | outOfFuel => exact Below.outOfFuel k

/-- An identifier followed by a colon is an expression for `expr`: the
identifier alone. -/
theorem expr_ID_COLON {toks : List Token} {q : Nat} {t0 t1 : Token} (h0 : toks[q]? = some t0)
    (hc0 : t0.code = .ID) (h1 : toks[q + 1]? = some t1) (hc1 : t1.code = .COLON) :
    expr toks 8 q = .ret true (q + 1) := by
  simp [expr, exprLogic, exprLogicLoop, exprAssign, exprComp, exprAdd, exprAddLoop, exprMul,
    exprMulLoop, exprPrefix, factor, consume_eq h0, consume_eq h1, hc0, hc1, Res.branch,
    Res.orElse, Res.andThen]

theorem funcParam_not_true {toks : List Token} {q : Nat}
    (hx : ∀ fuel j, expr toks fuel q ≠ .ret true j) (j : Nat) :
    funcParam toks q ≠ .ret true j := by
  intro h
  unfold funcParam consume at h
  cases h0 : toks[q]? with
  | none => rw [h0] at h; cases h
  | some t0 =>
    rw [h0] at h
    dsimp only at h
    by_cases hc0 : t0.code = .ID
    · rw [if_pos hc0] at h
      dsimp only [Res.branch] at h
      cases h1 : toks[q + 1]? with
      | none => rw [h1] at h; cases h
      | some t1 =>
        rw [h1] at h
        dsimp only at h
        by_cases hc1 : t1.code = .COLON
        · exact hx 8 (q + 1) (expr_ID_COLON h0 hc0 h1 hc1)
        · rw [if_neg hc1] at h
          exact tkerr_ne_ret _ _ _ _ _ h
    · rw [if_neg hc0] at h
      cases h

theorem belowAll_comma {toks : List Token} {k : Nat} {t : Token} (w : CommaWall toks k t) :
    ∀ fuel, BelowAll toks k fuel := by
  have hk := w.tok
  have hcode := w.code
  have hx := w.next
  intro fuel
  induction fuel with
  | zero => constructor <;> intro i _ <;> exact Below.outOfFuel k
  | succ n ih =>
    constructor
    all_goals intro i hi
    all_goals first
      | rw [block] | rw [blockLoop] | rw [instr] | rw [expr] | rw [exprLogic] | rw [exprLogicLoop] | rw [exprAssign] | rw [exprComp] | rw [exprAdd] | rw [exprAddLoop] | rw [exprMul] | rw [exprMulLoop] | rw [ exprPrefix] | rw [factor] | rw [factorArgsLoop]
    all_goals repeat' first
      | with_reducible exact Below.ret _ (by assumption)
      | with_reducible exact Below.tkerr _ _ _ _
      | ((with_reducible refine Below.consume hk ?_ (by assumption)); rw [hcode]; decide)
      | with_reducible exact ih.hblock _ (by omega)
      | with_reducible exact ih.hblockLoop _ (by omega)
      | with_reducible exact ih.hinstr _ (by omega)
      | with_reducible exact ih.hexpr _ (by omega)
      | with_reducible exact ih.hexprLogic _ (by omega)
      | with_reducible exact ih.hexprLogicLoop _ (by omega)
      | with_reducible exact ih.hexprAssign _ (by omega)
      | with_reducible exact ih.hexprComp _ (by omega)
      | with_reducible exact ih.hexprAdd _ (by omega)
      | with_reducible exact ih.hexprAddLoop _ (by omega)
      | with_reducible exact ih.hexprMul _ (by omega)
      | with_reducible exact ih.hexprMulLoop _ (by omega)
      | with_reducible exact ih.hexprPre _ (by omega)
      | with_reducible exact ih.hfactor _ (by omega)
      | with_reducible exact ih.hfactorArgsLoop _ (by omega)
      | refine Below.consume_wall (c := .COMMA) hk (by assumption) ?_
          (fun _ => Below.branch_not_true (hx _) (fun _ => Below.tkerr _ _ _ _)) ?_
      | with_reducible apply Below.branch | with_reducible apply Below.orElse
      | with_reducible apply Below.andThen
      | intro i hi

theorem defVarLoop_below_comma {toks : List Token} {k : Nat} {t : Token}
    (w : CommaWall toks k t) : ∀ fuel i, i ≤ k → Below k (defVarLoop toks fuel i) := by
  have hk := w.tok
  have hcode := w.code
  intro fuel
  induction fuel with
  | zero => intro i _; exact Below.outOfFuel k
  | succ n ih =>
    intro i hi
    rw [defVarLoop]
    unfold defVar baseType
    repeat' first
      | with_reducible exact Below.ret _ (by assumption)
      | with_reducible exact Below.tkerr _ _ _ _
      | ((with_reducible refine Below.consume hk ?_ (by assumption)); rw [hcode]; decide)
      | with_reducible exact ih _ (by assumption)
      | with_reducible apply Below.branch | with_reducible apply Below.orElse
      | with_reducible apply Below.andThen
      | intro i hi

theorem funcParam_below_comma {toks : List Token} {k : Nat} {t : Token}
    (w : CommaWall toks k t) (i : Nat) (hi : i ≤ k) : Below k (funcParam toks i) := by
  have hk := w.tok
  have hcode := w.code
  unfold funcParam baseType
  repeat' first
    | with_reducible exact Below.ret _ (by assumption)
    | with_reducible exact Below.tkerr _ _ _ _
    | ((with_reducible refine Below.consume hk ?_ (by assumption)); rw [hcode]; decide)
    | with_reducible apply Below.branch | with_reducible apply Below.orElse
    | intro i hi

theorem funcParamsLoop_below_comma {toks : List Token} {k : Nat} {t : Token}
    (w : CommaWall toks k t) : ∀ fuel i, i ≤ k → Below k (funcParamsLoop toks fuel i) := by
  intro fuel
  induction fuel with
  | zero => intro i _; exact Below.outOfFuel k
  | succ n ih =>
    intro i hi
    rw [funcParamsLoop]
    refine Below.consume_wall (c := .COMMA) w.tok hi ?_
      (fun _ => Below.branch_not_true (funcParam_not_true w.next)
        (fun _ => Below.tkerr _ _ _ _)) (fun j hj => Below.ret _ hj)
    intro j hj
    exact Below.branch (funcParam_below_comma w j hj) (fun j' hj' => ih j' hj')
      (fun _ _ => Below.tkerr _ _ _ _)

theorem defFunc_below_comma {toks : List Token} {k : Nat} {t : Token}
    (w : CommaWall toks k t) (fuel i : Nat) (hi : i ≤ k) : Below k (defFunc toks fuel i) := by
  have hk := w.tok
  have hcode := w.code
  have hb := (belowAll_comma w fuel).hblock
  have hv := defVarLoop_below_comma w fuel
  have hp := funcParamsLoop_below_comma w fuel
  have hq := funcParam_below_comma w
  unfold defFunc funcParams baseType
  repeat' first
    | with_reducible exact Below.ret _ (by assumption)
    | with_reducible exact Below.tkerr _ _ _ _
    | ((with_reducible refine Below.consume hk ?_ (by assumption)); rw [hcode]; decide)
    | with_reducible exact hb _ (by assumption) | with_reducible exact hv _ (by assumption)
    | with_reducible exact hp _ (by assumption) | with_reducible exact hq _ (by assumption)
    | with_reducible apply Below.branch | with_reducible apply Below.orElse
    | with_reducible apply Below.andThen
    | intro i hi

theorem programLoop_below_comma {toks : List Token} {k : Nat} {t : Token}
    (w : CommaWall toks k t) : ∀ fuel i, i ≤ k → Below k (programLoop toks fuel i) := by
  have hk := w.tok
  have hcode := w.code
  intro fuel
  induction fuel with
  | zero => intro i _; exact Below.outOfFuel k
  | succ n ih =>
    intro i hi
    have hb := (belowAll_comma w n).hblock
    have hf := defFunc_below_comma w n
    rw [programLoop]
    unfold defVar baseType
    repeat' first
      | with_reducible exact Below.ret _ (by assumption)
      | with_reducible exact Below.tkerr _ _ _ _
      | ((with_reducible refine Below.consume hk ?_ (by assumption)); rw [hcode]; decide)
      | with_reducible exact ih _ (by assumption) | with_reducible exact hb _ (by assumption)
      | with_reducible exact hf _ (by assumption)
      | with_reducible apply Below.branch | with_reducible apply Below.orElse
      | with_reducible apply Below.andThen
      | intro i hi

/-- A token sequence with a COMMA that no expression follows, and no
end-marker before it, is never accepted, whatever the fuel. -/
theorem CommaWall.never_accepted {toks : List Token} {k : Nat} {t : Token}
    (w : CommaWall toks k t)
    (hfin : ∀ i u, i < k → toks[i]? = some u → u.code ≠ .FINISH) (fuel j : Nat) :
    program toks fuel 0 ≠ .ret true j := by
  intro h
  unfold program at h
  have hl := programLoop_below_comma w fuel 0 (Nat.zero_le _)
  cases hr : programLoop toks fuel 0 with
  | ret b i =>
    have hi := hl.le b i hr
    rw [hr, Res.andThen_ret] at h
    unfold consume at h
    split at h
    · cases h
    · rename_i u hu
      split at h
      · rename_i hcode
        rcases Nat.lt_or_eq_of_le hi with hlt | heq
        · exact hfin i u hlt hu hcode
        · subst heq
          rw [w.tok] at hu
          cases hu
          rw [w.code] at hcode
          cases hcode
      · exact tkerr_ne_ret _ _ _ _ _ h
  | fatal i l m => rw [hr] at h; cases h
  | outOfRange i => rw [hr] at h; cases h
  | outOfFuel => rw [hr] at h; cases h

/-! ## The arguments of a call -/

theorem tkerr_eq {toks : List Token} {j : Nat} {u : Token} (h : toks[j]? = some u)
    (msg : String) : tkerr toks msg j = .fatal j u.line msg := by
  unfold tkerr
  rw [h]

/-- What `program` returns on some amount of fuel is what `parse` returns. -/
theorem parse_of_run {toks : List Token} {fuel : Nat} {r : Res}
    (h : program toks fuel 0 = r) (hr : r ≠ .outOfFuel) : parse toks = r := by
  have hle := FuelLe.of_run (f := program toks) (program_mono toks) h hr (parseFuel toks)
  rcases hle with ho | he
  · exfalso
    rcases parse_ends toks with ⟨j, hj⟩ | ⟨j, l, m, hj⟩ | ⟨j, hj⟩ <;>
      · unfold parse at hj
        rw [ho] at hj
        cases hj
  · exact he

theorem BadArgs.returns {toks : List Token} {k j : Nat} (h : BadArgs toks k j) {u : Token}
    (hu : toks[j]? = some u) :
    Returns (factorArgsLoop toks) k (.fatal j u.line "Expected expression after ','") := by
  induction h with
  | here k j t hk hc he =>
    obtain ⟨f, he, -⟩ := he
    refine ⟨f + 1, ?_, by simp⟩
    rw [factorArgsLoop, consume_eq hk, if_pos hc, Res.branch, he, Res.branch, tkerr_eq hu]
  | next k k' j t hk hc he _ ih =>
    obtain ⟨f1, he, -⟩ := he
    obtain ⟨f2, hl, -⟩ := ih hu
    have he' := ((monoAll toks f1 (f1 + f2) (Nat.le_add_right _ _)).hexpr (k + 1)).eq_of_ne
      (by rw [he]; simp)
    have hl' := ((monoAll toks f2 (f1 + f2) (Nat.le_add_left _ _)).hfactorArgsLoop k').eq_of_ne
      (by rw [hl]; simp)
    refine ⟨f1 + f2 + 1, ?_, by simp⟩
    rw [factorArgsLoop, consume_eq hk, if_pos hc, Res.branch, he', he, Res.branch, hl', hl]

/-- A call whose argument list runs into a COMMA that no expression follows:
`factor`, started at the name of the function, ends in the diagnostic of that
COMMA. -/
theorem factor_bad_args {toks : List Token} {p k j : Nat} {t0 t1 u : Token}
    (h0 : toks[p]? = some t0) (hc0 : t0.code = .ID) (h1 : toks[p + 1]? = some t1)
    (hc1 : t1.code = .LPAR) (he : Returns (expr toks) (p + 2) (.ret true k))
    (hb : BadArgs toks k j) (hu : toks[j]? = some u) :
    ∃ fuel, factor toks (fuel + 1) p = .fatal j u.line "Expected expression after ','" := by
  obtain ⟨f1, he, -⟩ := he
  obtain ⟨f2, hl, -⟩ := hb.returns hu
  have he' := ((monoAll toks f1 (f1 + f2) (Nat.le_add_right _ _)).hexpr (p + 2)).eq_of_ne
    (by rw [he]; simp)
  have hl' := ((monoAll toks f2 (f1 + f2) (Nat.le_add_left _ _)).hfactorArgsLoop k).eq_of_ne
    (by rw [hl]; simp)
  refine ⟨f1 + f2, ?_⟩
  rw [factor]
  simp only [consume_eq h0, consume_eq h1, hc0, hc1, Res.orElse, Res.branch, Res.andThen,
    he', he, hl', hl, if_true, reduceCtorEq, if_false]

/-- A fatal diagnostic of `factor` at an identifier that opens a call goes up
through the expression procedures to `instr` and `block`. -/
theorem call_fatal_up {toks : List Token} {p : Nat} {t0 t1 : Token} (h0 : toks[p]? = some t0)
    (hc0 : t0.code = .ID) (h1 : toks[p + 1]? = some t1) (hc1 : t1.code = .LPAR)
    {n x l : Nat} {m : String} (hf : factor toks n p = .fatal x l m) :
    instr toks (n + 8) p = .fatal x l m ∧ block toks (n + 9) p = .fatal x l m := by
  have hi : instr toks (n + 8) p = .fatal x l m := by
    simp only [instr, expr, exprLogic, exprAssign, exprComp, exprAdd, exprMul, exprPrefix,
      consume_eq h0, consume_eq h1, hc0, hc1, Res.orElse, Res.branch, Res.andThen, hf,
      if_true, reduceCtorEq, if_false, Nat.add_sub_cancel]
  refine ⟨hi, ?_⟩
  rw [block, hi]
  rfl

/-! ## Failing without consuming -/

theorem NoFalse.ret_true_nf (i : Nat) : NoFalse (.ret true i) :=
  ⟨fun _ h => by cases h⟩

theorem NoFalse.tkerr_nf (toks : List Token) (msg : String) (i : Nat) :
    NoFalse (tkerr toks msg i) := by
  refine ⟨fun j h => ?_⟩
  unfold LFTC.tkerr at h
  split at h <;> cases h

theorem NoFalse.branch_nf {r : Res} {t e : Nat → Res} (ht : ∀ j, NoFalse (t j))
    (he : ∀ j, NoFalse (e j)) : NoFalse (r.branch t e) := by
  cases r with
  | ret b i => cases b; exact he i; exact ht i
  | fatal i l m => exact ⟨fun _ h => by cases h⟩
  | outOfRange i => exact ⟨fun _ h => by cases h⟩
  | outOfFuel => exact ⟨fun _ h => by cases h⟩

theorem NoFalse.andThen_nf {r : Res} {k : Nat → Res} (hk : ∀ j, NoFalse (k j)) :
    NoFalse (r.andThen k) :=
  NoFalse.branch_nf hk hk

theorem Atomic.ret_false_atomic (i : Nat) : Atomic i (.ret false i) :=
  ⟨fun _ h => by cases h; rfl⟩

theorem Atomic.consume_atomic (toks : List Token) (c : Code) (i : Nat) :
    Atomic i (consume toks c i) := by
  refine ⟨fun j h => ?_⟩
  unfold LFTC.consume at h
  split at h
  · cases h
  · split at h <;> cases h
    rfl

theorem Atomic.branch_atomic {i : Nat} {r : Res} {t e : Nat → Res} (hr : Atomic i r)
    (ht : ∀ j, NoFalse (t j)) (he : Atomic i (e i)) : Atomic i (r.branch t e) := by
  cases r with
  | ret b j =>
    cases b
    · have := hr.eq j rfl
      subst this
      exact he
    · exact ⟨fun j' h => absurd h ((ht j).nf j')⟩
  | fatal j l m => exact ⟨fun _ h => by cases h⟩
  | outOfRange j => exact ⟨fun _ h => by cases h⟩
  | outOfFuel => exact ⟨fun _ h => by cases h⟩

theorem Atomic.orElse_atomic {i : Nat} {r : Res} {e : Nat → Res} (hr : Atomic i r)
    (he : Atomic i (e i)) : Atomic i (r.orElse e) :=
  Atomic.branch_atomic hr (fun j => NoFalse.ret_true_nf j) he

theorem baseType_atomic (toks : List Token) (i : Nat) : Atomic i (baseType toks i) := by
  unfold baseType
  exact Atomic.orElse_atomic (Atomic.consume_atomic _ _ _)
    (Atomic.orElse_atomic (Atomic.consume_atomic _ _ _) (Atomic.consume_atomic _ _ _))

theorem defVar_atomic (toks : List Token) (i : Nat) : Atomic i (defVar toks i) := by
  unfold defVar
  refine Atomic.branch_atomic (Atomic.consume_atomic _ _ _) (fun j => ?_) (Atomic.ret_false_atomic i)
  repeat' first
    | with_reducible exact NoFalse.ret_true_nf _
    | with_reducible exact NoFalse.tkerr_nf _ _ _
    | with_reducible apply NoFalse.branch_nf
    | intro j

theorem funcParam_atomic (toks : List Token) (i : Nat) : Atomic i (funcParam toks i) := by
  unfold funcParam
  refine Atomic.branch_atomic (Atomic.consume_atomic _ _ _) (fun j => ?_) (Atomic.ret_false_atomic i)
  repeat' first
    | with_reducible exact NoFalse.ret_true_nf _
    | with_reducible exact NoFalse.tkerr_nf _ _ _
    | with_reducible apply NoFalse.branch_nf
    | intro j

theorem funcParams_atomic (toks : List Token) (fuel i : Nat) :
    Atomic i (funcParams toks fuel i) := by
  unfold funcParams
  exact Atomic.branch_atomic (funcParam_atomic toks i)
    (fun j => NoFalse.andThen_nf fun j' => NoFalse.ret_true_nf j') (Atomic.ret_false_atomic i)

theorem defFunc_atomic (toks : List Token) (fuel i : Nat) :
    Atomic i (defFunc toks fuel i) := by
  unfold defFunc
  refine Atomic.branch_atomic (Atomic.consume_atomic _ _ _) (fun j => ?_) (Atomic.ret_false_atomic i)
  repeat' first
    | with_reducible exact NoFalse.ret_true_nf _
    | with_reducible exact NoFalse.tkerr_nf _ _ _
    | with_reducible apply NoFalse.branch_nf
    | with_reducible apply NoFalse.andThen_nf
    | intro j

theorem factor_atomic (toks : List Token) (fuel i : Nat) : Atomic i (factor toks fuel i) := by
  cases fuel with
  | zero => rw [factor]; exact ⟨fun _ h => by cases h⟩
  | succ n =>
    rw [factor]
    refine Atomic.branch_atomic
      (Atomic.orElse_atomic (Atomic.consume_atomic _ _ _)
        (Atomic.orElse_atomic (Atomic.consume_atomic _ _ _) (Atomic.consume_atomic _ _ _)))
      (fun j => NoFalse.ret_true_nf j) ?_
    refine Atomic.branch_atomic (Atomic.consume_atomic _ _ _) (fun j => ?_) ?_
    · exact NoFalse.branch_nf (fun j' => NoFalse.branch_nf (fun j'' => NoFalse.ret_true_nf j'')
        (fun j'' => NoFalse.tkerr_nf _ _ j'')) (fun j' => NoFalse.tkerr_nf _ _ j')
    · refine Atomic.branch_atomic (Atomic.consume_atomic _ _ _) (fun j => ?_) (Atomic.ret_false_atomic i)
      refine NoFalse.branch_nf (fun j' => ?_) (fun j' => NoFalse.ret_true_nf j')
      exact NoFalse.andThen_nf fun j'' => NoFalse.branch_nf (fun q => NoFalse.ret_true_nf q)
        (fun q => NoFalse.tkerr_nf _ _ q)

/-- C16, the input `-;`. On its tokens SUB SEMICOLON FINISH, `exprPrefix`
entered at cursor 0 consumes the SUB and returns the failure of `factor` with
the cursor at 1, without a diagnostic; `exprMul`, `exprAdd`, `exprComp`,
`exprAssign`, `exprLogic`, `expr`, `instr` and `block` pass that failure on
with the cursor at 1. The procedures that do fail without consuming, on every
token sequence, at every cursor and fuel, are `baseType`, `defVar`,
`funcParam`, `funcParams`, `defFunc` and `factor`. -/
theorem failing_rule_consumes :
    tokenize ['-', ';'] = .tokens (ofCodes [.SUB, .SEMICOLON, .FINISH]) ∧
    exprPrefix (ofCodes [.SUB, .SEMICOLON, .FINISH]) 2 0 = .ret false 1 ∧
    exprMul (ofCodes [.SUB, .SEMICOLON, .FINISH]) 3 0 = .ret false 1 ∧
    exprAdd (ofCodes [.SUB, .SEMICOLON, .FINISH]) 4 0 = .ret false 1 ∧
    exprComp (ofCodes [.SUB, .SEMICOLON, .FINISH]) 5 0 = .ret false 1 ∧
    exprAssign (ofCodes [.SUB, .SEMICOLON, .FINISH]) 6 0 = .ret false 1 ∧
    exprLogic (ofCodes [.SUB, .SEMICOLON, .FINISH]) 7 0 = .ret false 1 ∧
    expr (ofCodes [.SUB, .SEMICOLON, .FINISH]) 8 0 = .ret false 1 ∧
    instr (ofCodes [.SUB, .SEMICOLON, .FINISH]) 9 0 = .ret false 1 ∧
    block (ofCodes [.SUB, .SEMICOLON, .FINISH]) 10 0 = .ret false 1 ∧
    (∀ (toks : List Token) (fuel i j : Nat),
      (baseType toks i = .ret false j → j = i) ∧ (defVar toks i = .ret false j → j = i) ∧
      (funcParam toks i = .ret false j → j = i) ∧
      (funcParams toks fuel i = .ret false j → j = i) ∧
      (defFunc toks fuel i = .ret false j → j = i) ∧
      (factor toks fuel i = .ret false j → j = i)) := by
  refine ⟨by decide, by decide, by decide, by decide, by decide, by decide, by decide,
    by decide, by decide, by decide, ?_⟩
  intro toks fuel i j
  exact ⟨(baseType_atomic toks i).eq j, (defVar_atomic toks i).eq j,
    (funcParam_atomic toks i).eq j, (funcParams_atomic toks fuel i).eq j,
    (defFunc_atomic toks fuel i).eq j, (factor_atomic toks fuel i).eq j⟩

/-! ## Operators without a rule -/

/-- A token whose code is NOTEQ, GREATER or GREATEREQ is one the cursor cannot
pass: no `consume` of the recognizer asks for its code. -/
theorem wall_of_operator {toks : List Token} {k : Nat} {t : Token} (hk : toks[k]? = some t)
    (hc : t.code = .NOTEQ ∨ t.code = .GREATER ∨ t.code = .GREATEREQ) : Wall toks k t := by
  refine ⟨hk, ?_, ?_, ?_, ?_⟩
  · rcases hc with h | h | h <;> rw [h] <;> rfl
  · intro h; rcases hc with h' | h' | h' <;> rw [h'] at h <;> cases h
  · intro h; rcases hc with h' | h' | h' <;> rw [h'] at h <;> cases h
  · intro h; rcases hc with h' | h' | h' <;> rw [h'] at h <;> cases h

/-- C21. In a round of its loop that finds room in the token array,
`tokenize` adds NOTEQ for `!=`, GREATEREQ for `>=` and GREATER for a `>` that
no `=` follows. A token sequence that holds a NOTEQ, GREATER or GREATEREQ
token with no end-marker before it is never accepted: `program` returns
success on no amount of fuel, and `parse` does not accept. When the sequence
is such tokens and others, none of them an end-marker, closed by the
end-marker, `parse` ends in a fatal diagnostic. -/
theorem unparsed_operators :
    (∀ (rest : List Char) (st : LexState), st.tokens.length < MAX_TOKENS →
      lexStep ('!' :: '=' :: rest) st =
        .ok (rest, ⟨st.tokens ++ [⟨.NOTEQ, st.line, .none⟩], st.line⟩) ∧
      lexStep ('>' :: '=' :: rest) st =
        .ok (rest, ⟨st.tokens ++ [⟨.GREATEREQ, st.line, .none⟩], st.line⟩) ∧
      (cur rest ≠ '=' → lexStep ('>' :: rest) st =
        .ok (rest, ⟨st.tokens ++ [⟨.GREATER, st.line, .none⟩], st.line⟩))) ∧
    (∀ (toks : List Token) (k : Nat) (t : Token), toks[k]? = some t →
      (t.code = .NOTEQ ∨ t.code = .GREATER ∨ t.code = .GREATEREQ) →
      (∀ i u, i < k → toks[i]? = some u → u.code ≠ .FINISH) →
      (∀ fuel j, program toks fuel 0 ≠ .ret true j) ∧ ¬ Accepts toks) ∧
    (∀ (init : List Token) (fin t : Token), fin.code = .FINISH →
      (∀ u ∈ init, u.code ≠ .FINISH) → t ∈ init →
      (t.code = .NOTEQ ∨ t.code = .GREATER ∨ t.code = .GREATEREQ) →
      ∃ j l m, parse (init ++ [fin]) = .fatal j l m) := by
  have hwall : ∀ (toks : List Token) (k : Nat) (t : Token), toks[k]? = some t →
      (t.code = .NOTEQ ∨ t.code = .GREATER ∨ t.code = .GREATEREQ) →
      (∀ i u, i < k → toks[i]? = some u → u.code ≠ .FINISH) →
      ∀ fuel j, program toks fuel 0 ≠ .ret true j :=
    fun toks k t hk hc hfin fuel j => (wall_of_operator hk hc).not_accepted hfin fuel j
  refine ⟨?_, ?_, ?_⟩
  · intro rest st h
    have hne : st.tokens.length ≠ MAX_TOKENS := Nat.ne_of_lt h
    refine ⟨?_, ?_, ?_⟩
    · rw [lexStep_not, if_pos (cur_cons _ _), List.tail_cons, emit_ok _ _ _ hne]
    · rw [lexStep_greater, if_pos (cur_cons _ _), List.tail_cons, emit_ok _ _ _ hne]
    · intro hc
      rw [lexStep_greater, if_neg hc, emit_ok _ _ _ hne]
  · intro toks k t hk hc hfin
    refine ⟨hwall toks k t hk hc hfin, ?_⟩
    rintro ⟨j, hj⟩
    exact hwall toks k t hk hc hfin _ j hj
  · intro init fin t hfin hinit ht hc
    obtain ⟨k, hlt, hkt⟩ := List.getElem_of_mem ht
    have hk : (init ++ [fin])[k]? = some t := by
      rw [List.getElem?_append_left hlt, List.getElem?_eq_getElem hlt, hkt]
    have hbefore : ∀ i u, i < k → (init ++ [fin])[i]? = some u → u.code ≠ .FINISH := by
      intro i u hi hu
      have hil : i < init.length := by omega
      rw [List.getElem?_append_left hil, List.getElem?_eq_getElem hil] at hu
      cases hu
      exact hinit _ (List.getElem_mem _)
    have hlast : (init ++ [fin])[init.length]? = some fin := by simp
    rcases parse_ends (init ++ [fin]) with ⟨j, hj⟩ | h | ⟨j, hj⟩
    · exact absurd hj (hwall _ k t hk hc hbefore _ j)
    · exact h
    · exact absurd hj ((program_safe hlast hfin _ 0 (Nat.zero_le _)).1 j)

/-- C21 at the inputs `a > b;`, `a != b;` and `a >= b;`: each lexes to ID,
the operator, ID, SEMICOLON and the end-marker, and `parse` ends on the
operator with "Expected ';' after expression". -/
theorem unparsed_operators_witness :
    (tokenize "a > b;".toList =
        .tokens [⟨.ID, 1, .text ['a']⟩, ⟨.GREATER, 1, .none⟩, ⟨.ID, 1, .text ['b']⟩,
          ⟨.SEMICOLON, 1, .none⟩, ⟨.FINISH, 1, .none⟩] ∧
      parse [⟨.ID, 1, .text ['a']⟩, ⟨.GREATER, 1, .none⟩, ⟨.ID, 1, .text ['b']⟩,
          ⟨.SEMICOLON, 1, .none⟩, ⟨.FINISH, 1, .none⟩] =
        .fatal 1 1 "Expected ';' after expression" ∧
      ¬ Accepts [⟨.ID, 1, .text ['a']⟩, ⟨.GREATER, 1, .none⟩, ⟨.ID, 1, .text ['b']⟩,
          ⟨.SEMICOLON, 1, .none⟩, ⟨.FINISH, 1, .none⟩]) ∧
    (tokenize "a != b;".toList =
        .tokens [⟨.ID, 1, .text ['a']⟩, ⟨.NOTEQ, 1, .none⟩, ⟨.ID, 1, .text ['b']⟩,
          ⟨.SEMICOLON, 1, .none⟩, ⟨.FINISH, 1, .none⟩] ∧
      parse [⟨.ID, 1, .text ['a']⟩, ⟨.NOTEQ, 1, .none⟩, ⟨.ID, 1, .text ['b']⟩,
          ⟨.SEMICOLON, 1, .none⟩, ⟨.FINISH, 1, .none⟩] =
        .fatal 1 1 "Expected ';' after expression" ∧
      ¬ Accepts [⟨.ID, 1, .text ['a']⟩, ⟨.NOTEQ, 1, .none⟩, ⟨.ID, 1, .text ['b']⟩,
          ⟨.SEMICOLON, 1, .none⟩, ⟨.FINISH, 1, .none⟩]) ∧
    (tokenize "a >= b;".toList =
        .tokens [⟨.ID, 1, .text ['a']⟩, ⟨.GREATEREQ, 1, .none⟩, ⟨.ID, 1, .text ['b']⟩,
          ⟨.SEMICOLON, 1, .none⟩, ⟨.FINISH, 1, .none⟩] ∧
      parse [⟨.ID, 1, .text ['a']⟩, ⟨.GREATEREQ, 1, .none⟩, ⟨.ID, 1, .text ['b']⟩,
          ⟨.SEMICOLON, 1, .none⟩, ⟨.FINISH, 1, .none⟩] =
        .fatal 1 1 "Expected ';' after expression" ∧
      ¬ Accepts [⟨.ID, 1, .text ['a']⟩, ⟨.GREATEREQ, 1, .none⟩, ⟨.ID, 1, .text ['b']⟩,
          ⟨.SEMICOLON, 1, .none⟩, ⟨.FINISH, 1, .none⟩]) :=
  ⟨⟨by decide, by decide,
     (unparsed_operators.2.1 _ 1 ⟨.GREATER, 1, .none⟩ rfl (Or.inr (Or.inl rfl))
       (by intro i u hi hu; obtain rfl : i = 0 := by omega
           cases hu; decide)).2⟩,
   ⟨by decide, by decide,
     (unparsed_operators.2.1 _ 1 ⟨.NOTEQ, 1, .none⟩ rfl (Or.inl rfl)
       (by intro i u hi hu; obtain rfl : i = 0 := by omega
           cases hu; decide)).2⟩,
   ⟨by decide, by decide,
     (unparsed_operators.2.1 _ 1 ⟨.GREATEREQ, 1, .none⟩ rfl (Or.inr (Or.inr rfl))
       (by intro i u hi hu; obtain rfl : i = 0 := by omega
           cases hu; decide)).2⟩⟩

/-! ## The first diagnostic at or after a construct -/

theorem factorArgsLoop_eq (toks : List Token) (fuel i : Nat) :
    factorArgsLoop toks (fuel + 1) i =
      (consume toks .COMMA i).branch (argsTail toks fuel) (fun i => .ret true i) := by
  rw [factorArgsLoop]; rfl

theorem argsTail_mono (toks : List Token) (n m : Nat) (h : n ≤ m) (i : Nat) :
    FuelLe (argsTail toks n i) (argsTail toks m i) := by
  have hl := (monoAll toks n m h).hfactorArgsLoop
  have he := (monoAll toks n m h).hexpr
  unfold argsTail
  repeat' first
    | with_reducible exact hl _ | with_reducible exact he _
    | with_reducible apply FuelLe.branch_mono
    | with_reducible exact FuelLe.refl _ | intro _

theorem Until.ret_until {k : Nat} {F : Res} {i : Nat} (b : Bool) (h : i ≤ k) :
    Until k F (.ret b i) := by
  refine ⟨fun b' j hj => ?_, fun j hj => ?_, fun c l m hj => ?_⟩
  · cases hj; exact h
  · cases hj
  · cases hj

theorem Until.outOfFuel_until (k : Nat) (F : Res) : Until k F .outOfFuel := by
  refine ⟨fun b' j hj => ?_, fun j hj => ?_, fun c l m hj => ?_⟩ <;> cases hj

/-- The diagnostic `F` itself. -/
theorem Until.fatal_self (k c l : Nat) (m : String) : Until k (.fatal c l m) (.fatal c l m) := by
  refine ⟨fun b' j hj => ?_, fun j hj => ?_, fun _ _ _ _ => Or.inr rfl⟩ <;> cases hj

theorem Until.fatal_le {k c : Nat} (F : Res) (l : Nat) (m : String) (h : c ≤ k) :
    Until k F (.fatal c l m) := by
  refine ⟨fun b' j hj => ?_, fun j hj => ?_, fun c' l' m' hj => ?_⟩
  · cases hj
  · cases hj
  · cases hj; exact Or.inl h

theorem lt_length_of_getElem? {toks : List Token} {k : Nat} {t : Token}
    (hk : toks[k]? = some t) : k < toks.length := by
  rcases Nat.lt_or_ge k toks.length with h | h
  · exact h
  · rw [List.getElem?_eq_none h] at hk; cases hk

theorem Sim.ret_sim {k : Nat} {F : Res} {i : Nat} (b : Bool) (h : i ≤ k) :
    Sim k F (.ret b i) (.ret b i) :=
  ⟨Until.ret_until b h, fun _ _ _ => rfl, fun _ _ _ _ _ => rfl⟩

theorem Sim.outOfFuel_sim (k : Nat) (F r' : Res) : Sim k F .outOfFuel r' := by
  refine ⟨Until.outOfFuel_until k F, fun b j hj => ?_, fun c l m hj => ?_⟩ <;> cases hj

/-- A run that ends in `F`, or is cut short by the fuel, whatever the other
run does. -/
theorem Sim.gate_sim {k : Nat} {F r : Res} (hF : ∃ c l m, F = .fatal c l m ∧ k < c)
    (h : FuelLe r F) (r' : Res) : Sim k F r r' := by
  rcases h with rfl | rfl
  · exact Sim.outOfFuel_sim k F r'
  · obtain ⟨c, l, m, rfl, hc⟩ := hF
    refine ⟨Until.fatal_self k c l m, fun b j hj => ?_, fun c' l' m' hj hle => ?_⟩
    · cases hj
    · cases hj
      omega

theorem Sim.tkerr_sim {toks toks' : List Token} {k : Nat} {t : Token} (F : Res)
    (ha : ∀ i, i ≤ k → toks'[i]? = toks[i]?) (hk : toks[k]? = some t) (msg : String)
    {i : Nat} (hi : i ≤ k) : Sim k F (tkerr toks msg i) (tkerr toks' msg i) := by
  have hlt := lt_length_of_getElem? hk
  have hi' : i < toks.length := by omega
  have hu := List.getElem?_eq_getElem hi'
  rw [tkerr_eq hu msg, tkerr_eq ((ha i hi).trans hu) msg]
  exact ⟨Until.fatal_le F _ _ hi, fun _ _ _ => rfl, fun _ _ _ _ _ => rfl⟩

theorem Sim.branch_eq {k : Nat} {F : Res} {r r' : Res} {t e t' e' : Nat → Res}
    (hr : Sim k F r r')
    (ht : ∀ i, r = .ret true i → i ≤ k → Sim k F (t i) (t' i))
    (he : ∀ i, r = .ret false i → i ≤ k → Sim k F (e i) (e' i)) :
    Sim k F (r.branch t e) (r'.branch t' e') := by
  cases r with
  | ret b i =>
    have hi := hr.unt.le b i rfl
    rw [hr.ret b i rfl]
    cases b
    · exact he i rfl hi
    · exact ht i rfl hi
  | fatal c l m =>
    refine ⟨hr.unt, fun b j hj => ?_, fun c' l' m' hj hle => ?_⟩
    · cases hj
    · rw [hr.fat c' l' m' hj hle]
      rfl
  | outOfRange i => exact absurd rfl (hr.unt.inb i)
  | outOfFuel => exact Sim.outOfFuel_sim k F _

theorem Sim.branch_sim {k : Nat} {F : Res} {r r' : Res} {t e t' e' : Nat → Res}
    (hr : Sim k F r r') (ht : ∀ i, i ≤ k → Sim k F (t i) (t' i))
    (he : ∀ i, i ≤ k → Sim k F (e i) (e' i)) :
    Sim k F (r.branch t e) (r'.branch t' e') :=
  Sim.branch_eq hr (fun i _ hi => ht i hi) (fun i _ hi => he i hi)

theorem Sim.orElse_sim {k : Nat} {F : Res} {r r' : Res} {e e' : Nat → Res}
    (hr : Sim k F r r') (he : ∀ i, i ≤ k → Sim k F (e i) (e' i)) :
    Sim k F (r.orElse e) (r'.orElse e') :=
  Sim.branch_sim hr (fun _ hi => Sim.ret_sim true hi) he

theorem Sim.andThen_sim {k : Nat} {F : Res} {r r' : Res} {c c' : Nat → Res}
    (hr : Sim k F r r') (hc : ∀ i, i ≤ k → Sim k F (c i) (c' i)) :
    Sim k F (r.andThen c) (r'.andThen c') :=
  Sim.branch_sim hr hc hc

/-- A `consume` before `k` stays at or before `k`, and does the same on both
token sequences. -/
theorem Sim.consume_lt {toks toks' : List Token} {k : Nat} {t : Token} (F : Res)
    (ha : ∀ i, i ≤ k → toks'[i]? = toks[i]?) (hk : toks[k]? = some t) (c : Code) {i : Nat}
    (hi : i < k) : Sim k F (consume toks c i) (consume toks' c i) := by
  have hlt := lt_length_of_getElem? hk
  have hi' : i < toks.length := by omega
  have hu := List.getElem?_eq_getElem hi'
  rw [consume_eq hu c, consume_eq ((ha i (Nat.le_of_lt hi)).trans hu) c]
  split
  · exact Sim.ret_sim true hi
  · exact Sim.ret_sim false (Nat.le_of_lt hi)

/-- A `consume` for a code other than the one at `k` cannot step over `k`. -/
theorem Sim.consume_ne {toks toks' : List Token} {k : Nat} {t : Token} (F : Res)
    (ha : ∀ i, i ≤ k → toks'[i]? = toks[i]?) (hk : toks[k]? = some t) {c : Code}
    (hc : t.code ≠ c) {i : Nat} (hi : i ≤ k) :
    Sim k F (consume toks c i) (consume toks' c i) := by
  rcases Nat.lt_or_eq_of_le hi with h | h
  · exact Sim.consume_lt F ha hk c h
  · subst h
    rw [consume_eq hk c, consume_eq ((ha i (Nat.le_refl _)).trans hk) c, if_neg hc]
    exact Sim.ret_sim false (Nat.le_refl _)

/-- The `consume` that opens a construct, at or before `k`: either it stays at
or before `k`, or the token at `k` is the one asked for and the rest of the
construct goes on from `k + 1`. -/
theorem Sim.consume_gate {toks toks' : List Token} {k : Nat} {t : Token} {F : Res} {c : Code}
    {i : Nat} {tl e tl' e' : Nat → Res} (ha : ∀ i, i ≤ k → toks'[i]? = toks[i]?)
    (hk : toks[k]? = some t) (hi : i ≤ k)
    (htl : ∀ j, j ≤ k → Sim k F (tl j) (tl' j))
    (hgate : t.code = c → ∀ r', Sim k F (tl (k + 1)) r')
    (he : ∀ j, j ≤ k → Sim k F (e j) (e' j)) :
    Sim k F ((LFTC.consume toks c i).branch tl e) ((LFTC.consume toks' c i).branch tl' e') := by
  rcases Nat.lt_or_eq_of_le hi with h | h
  · exact Sim.branch_sim (Sim.consume_lt F ha hk c h) htl he
  · subst h
    rw [consume_eq hk c, consume_eq ((ha i (Nat.le_refl _)).trans hk) c]
    split
    · rename_i hcode
      exact hgate hcode _
    · exact he _ (Nat.le_refl _)

theorem gate_ne {a c : Code} (hw : gateCode a = true) (hc : gateCode c = false) : a ≠ c := by
  intro h; rw [h, hc] at hw; cases hw

theorem Sim.consume_other {toks toks' : List Token} {k : Nat} {t : Token} (F : Res)
    (ha : ∀ i, i ≤ k → toks'[i]? = toks[i]?) (hk : toks[k]? = some t)
    (hw : gateCode t.code = true) {c : Code} (hc : gateCode c = false) {i : Nat}
    (hi : i ≤ k) : Sim k F (LFTC.consume toks c i) (LFTC.consume toks' c i) :=
  Sim.consume_ne F ha hk (gate_ne hw hc) hi

set_option maxHeartbeats 4000000 in
theorem simAll {toks toks' : List Token} {k : Nat} {t : Token} {F : Res}
    (ha : ∀ i, i ≤ k → toks'[i]? = toks[i]?) (g : Gate toks k t F) :
    ∀ fuel, SimAll toks toks' k F fuel := by
  have hk := g.tok
  have hw := g.code
  have hF := g.high
  have hI := g.cond
  have hW := g.loop
  have hA := g.args
  intro fuel
  induction fuel with
  | zero => constructor <;> intro i _ <;> exact Sim.outOfFuel_sim k F _
  | succ n ih =>
    constructor
    all_goals intro i hi
    all_goals first
      | rw [block, block] | rw [blockLoop, blockLoop] | rw [instr_eq, instr_eq]
      | rw [expr, expr] | rw [exprLogic, exprLogic] | rw [exprLogicLoop, exprLogicLoop]
      | rw [exprAssign, exprAssign] | rw [exprComp, exprComp] | rw [exprAdd, exprAdd]
      | rw [exprAddLoop, exprAddLoop] | rw [exprMul, exprMul] | rw [exprMulLoop, exprMulLoop]
      | rw [ exprPrefix, exprPrefix] | rw [factor, factor]
      | rw [factorArgsLoop_eq, factorArgsLoop_eq]
    all_goals repeat' first
      | with_reducible exact Sim.ret_sim _ (by assumption)
      | with_reducible exact Sim.tkerr_sim _ ha hk _ (by assumption)
      | ((with_reducible refine Sim.consume_other _ ha hk hw ?_ (by assumption)); rfl)
      | with_reducible exact ih.hblock _ (by omega) | with_reducible exact ih.hblockLoop _ (by omega)
      | with_reducible exact ih.hinstr _ (by omega) | with_reducible exact ih.hexpr _ (by omega)
      | with_reducible exact ih.hexprLogic _ (by omega) | with_reducible exact ih.hexprLogicLoop _ (by omega)
      | with_reducible exact ih.hexprAssign _ (by omega) | with_reducible exact ih.hexprComp _ (by omega)
      | with_reducible exact ih.hexprAdd _ (by omega) | with_reducible exact ih.hexprAddLoop _ (by omega)
      | with_reducible exact ih.hexprMul _ (by omega) | with_reducible exact ih.hexprMulLoop _ (by omega)
      | with_reducible exact ih.hexprPre _ (by omega) | with_reducible exact ih.hfactor _ (by omega)
      | with_reducible exact ih.hfactorArgsLoop _ (by omega)
      | refine Sim.consume_gate (c := .IF) ha hk (by assumption) ?_
          (fun h => Sim.gate_sim hF (hI h _)) ?_
      | refine Sim.consume_gate (c := .WHILE) ha hk (by assumption) ?_
          (fun h => Sim.gate_sim hF (hW h _)) ?_
      | refine Sim.consume_gate (c := .COMMA) ha hk (by assumption) ?_
          (fun h => Sim.gate_sim hF (hA h _)) ?_
      | with_reducible apply Sim.branch_sim | with_reducible apply Sim.orElse_sim
      | with_reducible apply Sim.andThen_sim
      | unfold ifTail | unfold whileTail | unfold argsTail
      | intro i hi

theorem Res.branch_ret_true {r : Res} {t e : Nat → Res} {j : Nat}
    (h : r.branch t e = .ret true j) :
    (∃ i, r = .ret true i ∧ t i = .ret true j) ∨ (∃ i, r = .ret false i ∧ e i = .ret true j) := by
  cases r with
  | ret b i =>
    cases b
    · exact Or.inr ⟨i, rfl, h⟩
    · exact Or.inl ⟨i, rfl, h⟩
  | fatal i l m => cases h
  | outOfRange i => cases h
  | outOfFuel => cases h

theorem consume_ret_true {toks : List Token} {c : Code} {i j : Nat}
    (h : consume toks c i = .ret true j) :
    ∃ u, toks[j - 1]? = some u ∧ u.code = c := by
  unfold consume at h
  split at h
  · cases h
  · rename_i u hu
    split at h
    · rename_i hc
      cases h
      exact ⟨u, by rw [Nat.add_sub_cancel]; exact hu, hc⟩
    · cases h

/-- Where `baseType` succeeds, the token before the cursor it leaves is a base
type. -/
theorem baseType_prev {toks : List Token} {i j : Nat} (h : baseType toks i = .ret true j) :
    ∃ u, toks[j - 1]? = some u ∧ isBaseType u.code = true := by
  unfold baseType Res.orElse at h
  rcases Res.branch_ret_true h with ⟨i1, h1, h2⟩ | ⟨i1, -, h2⟩
  · cases h2
    obtain ⟨u, hu, hc⟩ := consume_ret_true h1
    exact ⟨u, hu, by rw [hc]; rfl⟩
  · rcases Res.branch_ret_true h2 with ⟨i2, h3, h4⟩ | ⟨i2, -, h4⟩
    · cases h4
      obtain ⟨u, hu, hc⟩ := consume_ret_true h3
      exact ⟨u, hu, by rw [hc]; rfl⟩
    · obtain ⟨u, hu, hc⟩ := consume_ret_true h4
      exact ⟨u, hu, by rw [hc]; rfl⟩

/-- Where `funcParam` succeeds, the token before the cursor it leaves is a
base type. -/
theorem funcParam_prev {toks : List Token} {i j : Nat} (h : funcParam toks i = .ret true j) :
    ∃ u, toks[j - 1]? = some u ∧ isBaseType u.code = true := by
  unfold funcParam at h
  rcases Res.branch_ret_true h with ⟨i1, -, h1⟩ | ⟨i1, -, h1⟩
  · rcases Res.branch_ret_true h1 with ⟨i2, -, h2⟩ | ⟨i2, -, h2⟩
    · rcases Res.branch_ret_true h2 with ⟨i3, h3, h4⟩ | ⟨i3, -, h4⟩
      · cases h4
        exact baseType_prev h3
      · exact absurd h4 (tkerr_ne_ret _ _ _ _ _)
    · exact absurd h2 (tkerr_ne_ret _ _ _ _ _)
  · cases h1

theorem baseType_sim {toks toks' : List Token} {k : Nat} {t : Token} {F : Res}
    (ha : ∀ i, i ≤ k → toks'[i]? = toks[i]?) (g : Gate toks k t F) (i : Nat) (hi : i ≤ k) :
    Sim k F (baseType toks i) (baseType toks' i) := by
  have hk := g.tok
  have hw := g.code
  unfold baseType
  repeat' first
    | ((with_reducible refine Sim.consume_other _ ha hk hw ?_ (by assumption)); rfl)
    | with_reducible apply Sim.orElse_sim
    | intro i hi

theorem defVar_sim {toks toks' : List Token} {k : Nat} {t : Token} {F : Res}
    (ha : ∀ i, i ≤ k → toks'[i]? = toks[i]?) (g : Gate toks k t F) (i : Nat) (hi : i ≤ k) :
    Sim k F (defVar toks i) (defVar toks' i) := by
  have hk := g.tok
  have hw := g.code
  have hb := baseType_sim ha g
  unfold defVar
  repeat' first
    | with_reducible exact Sim.ret_sim _ (by assumption)
    | with_reducible exact Sim.tkerr_sim _ ha hk _ (by assumption)
    | ((with_reducible refine Sim.consume_other _ ha hk hw ?_ (by assumption)); rfl)
    | with_reducible exact hb _ (by assumption)
    | with_reducible apply Sim.branch_sim
    | intro i hi

theorem defVarLoop_sim {toks toks' : List Token} {k : Nat} {t : Token} {F : Res}
    (ha : ∀ i, i ≤ k → toks'[i]? = toks[i]?) (g : Gate toks k t F) :
    ∀ fuel i, i ≤ k → Sim k F (defVarLoop toks fuel i) (defVarLoop toks' fuel i) := by
  intro fuel
  induction fuel with
  | zero => intro i _; exact Sim.outOfFuel_sim k F _
  | succ n ih =>
    intro i hi
    rw [defVarLoop, defVarLoop]
    exact Sim.branch_sim (defVar_sim ha g i hi) ih (fun j hj => Sim.ret_sim true hj)

theorem funcParam_sim {toks toks' : List Token} {k : Nat} {t : Token} {F : Res}
    (ha : ∀ i, i ≤ k → toks'[i]? = toks[i]?) (g : Gate toks k t F) (i : Nat) (hi : i ≤ k) :
    Sim k F (funcParam toks i) (funcParam toks' i) := by
  have hk := g.tok
  have hw := g.code
  have hb := baseType_sim ha g
  unfold funcParam
  repeat' first
    | with_reducible exact Sim.ret_sim _ (by assumption)
    | with_reducible exact Sim.tkerr_sim _ ha hk _ (by assumption)
    | ((with_reducible refine Sim.consume_other _ ha hk hw ?_ (by assumption)); rfl)
    | with_reducible exact hb _ (by assumption)
    | with_reducible apply Sim.branch_sim
    | intro i hi

/-- The loop over the parameters of a header is entered behind a base type
only, so it does not stand at a COMMA that opens the construct at `k`. -/
theorem funcParamsLoop_sim {toks toks' : List Token} {k : Nat} {t : Token} {F : Res}
    (ha : ∀ i, i ≤ k → toks'[i]? = toks[i]?) (g : Gate toks k t F) : ∀ fuel i, i ≤ k →
      (i = k → ∃ u, toks[k - 1]? = some u ∧ isBaseType u.code = true) →
      Sim k F (funcParamsLoop toks fuel i) (funcParamsLoop toks' fuel i) := by
  intro fuel
  induction fuel with
  | zero => intro i _ _; exact Sim.outOfFuel_sim k F _
  | succ n ih =>
    intro i hi hpre
    rw [funcParamsLoop, funcParamsLoop]
    rcases Nat.lt_or_eq_of_le hi with h | h
    · refine Sim.branch_sim (Sim.consume_lt F ha g.tok _ h) ?_
        (fun j hj => Sim.ret_sim true hj)
      intro j hj
      refine Sim.branch_eq (funcParam_sim ha g j hj) ?_
        (fun j' _ hj' => Sim.tkerr_sim F ha g.tok _ hj')
      intro j' hr hj'
      refine ih j' hj' ?_
      intro hjk
      rw [← hjk]
      exact funcParam_prev hr
    · subst h
      rw [consume_eq g.tok, consume_eq ((ha i (Nat.le_refl _)).trans g.tok)]
      split
      · rename_i hc
        obtain ⟨u, hu, hb⟩ := hpre rfl
        rw [g.params hc u hu] at hb
        cases hb
      · exact Sim.ret_sim true (Nat.le_refl _)

theorem funcParams_sim {toks toks' : List Token} {k : Nat} {t : Token} {F : Res}
    (ha : ∀ i, i ≤ k → toks'[i]? = toks[i]?) (g : Gate toks k t F) (fuel i : Nat)
    (hi : i ≤ k) : Sim k F (funcParams toks fuel i) (funcParams toks' fuel i) := by
  unfold funcParams
  refine Sim.branch_eq (funcParam_sim ha g i hi) ?_ (fun j _ hj => Sim.ret_sim false hj)
  intro j hr hj
  refine Sim.andThen_sim (funcParamsLoop_sim ha g fuel j hj ?_)
    (fun j' hj' => Sim.ret_sim true hj')
  intro hjk
  rw [← hjk]
  exact funcParam_prev hr

theorem defFunc_sim {toks toks' : List Token} {k : Nat} {t : Token} {F : Res}
    (ha : ∀ i, i ≤ k → toks'[i]? = toks[i]?) (g : Gate toks k t F) (fuel i : Nat)
    (hi : i ≤ k) : Sim k F (defFunc toks fuel i) (defFunc toks' fuel i) := by
  have hk := g.tok
  have hw := g.code
  have hF := g.high
  have hT := g.func
  have hb := (simAll ha g fuel).hblock
  have hv := defVarLoop_sim ha g fuel
  have hp := funcParams_sim ha g fuel
  have ht := baseType_sim ha g
  rw [defFunc_eq, defFunc_eq]
  refine Sim.consume_gate (c := .FUNCTION) ha hk hi ?_
    (fun h => Sim.gate_sim hF (hT h _)) ?_
  · intro j hj
    unfold defFuncTail
    repeat' first
      | with_reducible exact Sim.ret_sim _ (by assumption)
      | with_reducible exact Sim.tkerr_sim _ ha hk _ (by assumption)
      | ((with_reducible refine Sim.consume_other _ ha hk hw ?_ (by assumption)); rfl)
      | with_reducible exact hb _ (by assumption) | with_reducible exact hv _ (by assumption)
      | with_reducible exact hp _ (by assumption) | with_reducible exact ht _ (by assumption)
      | with_reducible apply Sim.branch_sim | with_reducible apply Sim.orElse_sim
      | with_reducible apply Sim.andThen_sim
      | intro i hi
  · intro j hj; exact Sim.ret_sim _ hj

theorem programLoop_sim {toks toks' : List Token} {k : Nat} {t : Token} {F : Res}
    (ha : ∀ i, i ≤ k → toks'[i]? = toks[i]?) (g : Gate toks k t F) :
    ∀ fuel i, i ≤ k → Sim k F (programLoop toks fuel i) (programLoop toks' fuel i) := by
  intro fuel
  induction fuel with
  | zero => intro i _; exact Sim.outOfFuel_sim k F _
  | succ n ih =>
    intro i hi
    have hb := (simAll ha g n).hblock
    have hf := defFunc_sim ha g n
    have hv := defVar_sim ha g
    rw [programLoop, programLoop]
    repeat' first
      | with_reducible exact Sim.ret_sim _ (by assumption)
      | with_reducible exact ih _ (by assumption) | with_reducible exact hb _ (by assumption)
      | with_reducible exact hf _ (by assumption) | with_reducible exact hv _ (by assumption)
      | with_reducible apply Sim.branch_sim | with_reducible apply Sim.orElse_sim
      | intro i hi

/-- The closing `consume(FINISH)` of `program` at or before `k`, where no
end-marker stands before `k`: the diagnostic "Expected end of program". -/
theorem program_end_fatal {toks : List Token} {k : Nat} {t : Token} {F : Res}
    (g : Gate toks k t F) (hfin : ∀ i u, i < k → toks[i]? = some u → u.code ≠ .FINISH)
    (i : Nat) (hi : i ≤ k) :
    ∃ l, (consume toks .FINISH i).branch (fun i => .ret true i)
      (tkerr toks "Expected end of program") = .fatal i l "Expected end of program" := by
  have hlt := lt_length_of_getElem? g.tok
  have hi' : i < toks.length := by omega
  have hu := List.getElem?_eq_getElem hi'
  have hne : toks[i].code ≠ .FINISH := by
    rcases Nat.lt_or_eq_of_le hi with h | h
    · exact hfin i _ h hu
    · subst h
      rw [g.tok] at hu
      cases hu
      exact gate_ne g.code (show gateCode .FINISH = false from rfl)
  exact ⟨toks[i].line, by rw [consume_eq hu, if_neg hne, Res.branch, tkerr_eq hu]⟩

/-- The two runs of `program`, under the same hypotheses. -/
theorem program_sim {toks toks' : List Token} {k : Nat} {t : Token} {F : Res}
    (ha : ∀ i, i ≤ k → toks'[i]? = toks[i]?) (g : Gate toks k t F)
    (hfin : ∀ i u, i < k → toks[i]? = some u → u.code ≠ .FINISH) (fuel : Nat) :
    Sim k F (program toks fuel 0) (program toks' fuel 0) := by
  unfold program
  refine Sim.andThen_sim (programLoop_sim ha g fuel 0 (Nat.zero_le _)) ?_
  intro i hi
  have hlt := lt_length_of_getElem? g.tok
  have hi' : i < toks.length := by omega
  have hu := List.getElem?_eq_getElem hi'
  have hu' := (ha i hi).trans hu
  have hne : toks[i].code ≠ .FINISH := by
    rcases Nat.lt_or_eq_of_le hi with h | h
    · exact hfin i _ h hu
    · subst h
      rw [g.tok] at hu
      cases hu
      exact gate_ne g.code (show gateCode .FINISH = false from rfl)
  rw [consume_eq hu, consume_eq hu', if_neg hne, Res.branch, Res.branch]
  exact Sim.tkerr_sim F ha g.tok _ hi

/-- The run of `parse` on a token sequence with a construct that, once opened
at the token at index `k`, ends in the diagnostic `F`, and with no end-marker
before `k`: `parse` ends in `F`, or else in a diagnostic raised with the cursor
at or before `k`. -/
theorem Gate.parse_result {toks : List Token} {k : Nat} {t : Token} {F : Res}
    (g : Gate toks k t F) (hfin : ∀ i u, i < k → toks[i]? = some u → u.code ≠ .FINISH) :
    parse toks = F ∨ ∃ c l m, c ≤ k ∧ parse toks = .fatal c l m := by
  have hs := (program_sim (fun _ _ => rfl) g hfin (parseFuel toks)).unt
  have hp : program toks (parseFuel toks) 0 = parse toks := rfl
  rw [hp] at hs
  rcases parse_ends toks with ⟨j, hj⟩ | ⟨j, l, m, hj⟩ | ⟨j, hj⟩
  · exfalso
    have hle := hs.le true j hj
    unfold parse program at hj
    cases hr : programLoop toks (parseFuel toks) 0 with
    | ret b i =>
      have hi := (programLoop_sim (fun _ _ => rfl) g (parseFuel toks) 0
        (Nat.zero_le _)).unt.le b i hr
      obtain ⟨l, hl⟩ := program_end_fatal g hfin i hi
      rw [hr, Res.andThen_ret, hl] at hj
      cases hj
    | fatal c l m => rw [hr] at hj; cases hj
    | outOfRange i => rw [hr] at hj; cases hj
    | outOfFuel => rw [hr] at hj; cases hj
  · rcases hs.fat j l m hj with h | h
    · exact Or.inr ⟨j, l, m, h, hj⟩
    · exact Or.inl h
  · exact absurd hj (hs.inb j)

/-- The same run, where the tokens up to the one at `k` are the beginning of
a token sequence that `parse` accepts: `parse` ends in `F`. -/
theorem Gate.parse_viable {toks toks' : List Token} {k : Nat} {t : Token} {F : Res}
    (g : Gate toks k t F) (hfin : ∀ i u, i < k → toks[i]? = some u → u.code ≠ .FINISH)
    (ha : toks'.take (k + 1) = toks.take (k + 1)) (hacc : Accepts toks') :
    parse toks = F := by
  rcases g.parse_result hfin with h | ⟨c, l, m, hc, h⟩
  · exact h
  · exfalso
    have ha' : ∀ i, i ≤ k → toks'[i]? = toks[i]? := by
      intro i hi
      have h1 := List.getElem?_take_of_lt (l := toks') (show i < k + 1 by omega)
      have h2 := List.getElem?_take_of_lt (l := toks) (show i < k + 1 by omega)
      rw [← h1, ← h2, ha]
    have hs := program_sim ha' g hfin (parseFuel toks + parseFuel toks')
    have h1 : program toks (parseFuel toks + parseFuel toks') 0 = .fatal c l m := by
      have hm := program_mono toks (parseFuel toks) _ (Nat.le_add_right _ (parseFuel toks')) 0
      have hp : program toks (parseFuel toks) 0 = .fatal c l m := h
      rw [hp] at hm
      exact hm.eq_of_ne (by simp)
    have h2 := hs.fat c l m h1 hc
    rw [h1] at h2
    have h3 := parse_of_run h2 (by simp)
    obtain ⟨j, hj⟩ := hacc
    rw [hj] at h3
    cases h3

/-- A run of `expr` that returns does not leave the cursor before its
start. -/
theorem expr_ret_ge {toks : List Token} {fuel i : Nat} {b : Bool} {j : Nat}
    (h : expr toks fuel i = .ret b j) : i ≤ j := by
  have hF := (advAll (Nat.le_add_right toks.length i)
    (fuel + (12 * (toks.length + i) + 8))).hexpr i (Nat.le_add_left _ _) (by omega)
  have hm := (monoAll toks fuel (fuel + (12 * (toks.length + i) + 8))
    (Nat.le_add_right _ _)).hexpr i
  rw [h] at hm
  have he := hm.eq_of_ne (by intro h'; cases h')
  exact (hF.mono b j he).1

/-- A FUNCTION token after which `defFunc` ends in a diagnostic. -/
theorem Gate.of_function {toks : List Token} {k fuel0 c l : Nat} {m : String} {t : Token}
    (h0 : toks[k]? = some t) (hc0 : t.code = .FUNCTION) (hkc : k < c)
    (hr : defFuncTail toks fuel0 (k + 1) = .fatal c l m) : Gate toks k t (.fatal c l m) := by
  refine ⟨h0, by rw [hc0]; rfl, ⟨c, l, m, rfl, hkc⟩, ?_, ?_, ?_, ?_, ?_⟩
  · intro _ fuel
    exact FuelLe.of_run (defFuncTail_mono toks) hr (by simp) fuel
  all_goals intro hc; rw [hc0] at hc; cases hc

/-- An IF token after which `instr` ends in a diagnostic. -/
theorem Gate.of_if {toks : List Token} {k fuel0 c l : Nat} {m : String} {t : Token}
    (h0 : toks[k]? = some t) (hc0 : t.code = .IF) (hkc : k < c)
    (hr : ifTail toks fuel0 (k + 1) = .fatal c l m) : Gate toks k t (.fatal c l m) := by
  refine ⟨h0, by rw [hc0]; rfl, ⟨c, l, m, rfl, hkc⟩, ?_, ?_, ?_, ?_, ?_⟩
  · intro hc; rw [hc0] at hc; cases hc
  · intro _ fuel
    exact FuelLe.of_run (ifTail_mono toks) hr (by simp) fuel
  all_goals intro hc; rw [hc0] at hc; cases hc

/-- A WHILE token after which `instr` ends in a diagnostic. -/
theorem Gate.of_while {toks : List Token} {k fuel0 c l : Nat} {m : String} {t : Token}
    (h0 : toks[k]? = some t) (hc0 : t.code = .WHILE) (hkc : k < c)
    (hr : whileTail toks fuel0 (k + 1) = .fatal c l m) : Gate toks k t (.fatal c l m) := by
  refine ⟨h0, by rw [hc0]; rfl, ⟨c, l, m, rfl, hkc⟩, ?_, ?_, ?_, ?_, ?_⟩
  · intro hc; rw [hc0] at hc; cases hc
  · intro hc; rw [hc0] at hc; cases hc
  · intro _ fuel
    exact FuelLe.of_run (whileTail_mono toks) hr (by simp) fuel
  all_goals intro hc; rw [hc0] at hc; cases hc

/-- A COMMA, not behind a base type, after which the loop over the arguments
of a call ends in a diagnostic. -/
theorem Gate.of_comma {toks : List Token} {k fuel0 c l : Nat} {m : String} {t : Token}
    (h0 : toks[k]? = some t) (hc0 : t.code = .COMMA)
    (hprev : ∀ u, toks[k - 1]? = some u → isBaseType u.code = false) (hkc : k < c)
    (hr : argsTail toks fuel0 (k + 1) = .fatal c l m) : Gate toks k t (.fatal c l m) := by
  refine ⟨h0, by rw [hc0]; rfl, ⟨c, l, m, rfl, hkc⟩, ?_, ?_, ?_, ?_, ?_⟩
  · intro hc; rw [hc0] at hc; cases hc
  · intro hc; rw [hc0] at hc; cases hc
  · intro hc; rw [hc0] at hc; cases hc
  · intro _ fuel
    exact FuelLe.of_run (argsTail_mono toks) hr (by simp) fuel
  · intro _ u hu
    exact hprev u hu

/-- The hypothesis that no end-marker stands before index `k`, from a check of
the first `k` tokens. -/
theorem no_end_before (toks : List Token) (k : Nat)
    (h : ∀ u ∈ toks.take k, u.code ≠ .FINISH) :
    ∀ i u, i < k → toks[i]? = some u → u.code ≠ .FINISH := by
  intro i u hi hu
  refine h u ?_
  have : (toks.take k)[i]? = some u := by
    rw [List.getElem?_take_of_lt hi, hu]
  exact (List.mem_iff_getElem?.2 ⟨i, this⟩)

/-! ## The claim on empty bodies -/

/-- C9, where the claim fails as stated: in the tokens of
`x function f(): int end` a complete function header is followed at once by
END, and `parse` raises another diagnostic, "Expected ';' after expression",
with the cursor on the FUNCTION token: the statement `x` before the header is
not finished, and the first error ends the run. -/
theorem empty_body_other_diagnostic :
    ∃ ts, tokenize "x function f(): int end".toList = .tokens ts ∧
      CodesAt ts 1 (headerCodes [] .TYPE_INT [] ++ [.END]) ∧
      parse ts = .fatal 1 1 "Expected ';' after expression" :=
  ⟨[⟨.ID, 1, .text ['x']⟩, ⟨.FUNCTION, 1, .none⟩, ⟨.ID, 1, .text ['f']⟩, ⟨.LPAR, 1, .none⟩,
    ⟨.RPAR, 1, .none⟩, ⟨.COLON, 1, .none⟩, ⟨.TYPE_INT, 1, .none⟩, ⟨.END, 1, .none⟩,
    ⟨.FINISH, 1, .none⟩], by decide, ⟨[.FINISH], rfl⟩, by decide⟩

/-- C9, amended. (1) Where a complete function header FUNCTION ID LPAR
funcParams? RPAR COLON baseType defVar* is followed at once by END, `defFunc`
started at the header ends in the fatal diagnostic "Expected block in function
body" with the cursor on that END, and `parse` ends so when the header opens
the sequence. Wherever the header stands, at the top level or inside another
construct, with no end-marker before it: `parse` ends in that diagnostic,
unless it ends in a diagnostic raised with the cursor at or before the
FUNCTION token (what precedes the header is malformed or unfinished, and the
first error ends the run); `parse` ends in that diagnostic whenever the tokens
up to and including the FUNCTION token are the beginning of some token
sequence that `parse` accepts; and `parse` does not accept the sequence.
(2), (3) Where IF LPAR, or WHILE LPAR, is followed by tokens on which `expr`
succeeds, then RPAR, then END, `instr` started at the IF or WHILE ends in the
fatal diagnostic "Expected block after 'if' condition", or "Expected block
after 'while' condition", with the cursor on that END; and wherever the IF or
WHILE stands, with no end-marker before it, the same three statements hold of
`parse`, with the IF or WHILE token in the place of the FUNCTION token. -/
theorem empty_body_fatal :
    (∀ (toks : List Token) (p : Nat) (ps : List Code) (ret : Code) (vs : List Code),
      (∀ b ∈ ps, isBaseType b = true) → isBaseType ret = true →
      (∀ b ∈ vs, isBaseType b = true) →
      CodesAt toks p (headerCodes ps ret vs ++ [.END]) →
      ∃ t, toks[p + (headerCodes ps ret vs).length]? = some t ∧ t.code = .END ∧
        Returns (defFunc toks) p
          (.fatal (p + (headerCodes ps ret vs).length) t.line
            "Expected block in function body") ∧
        (p = 0 → parse toks =
          .fatal (headerCodes ps ret vs).length t.line "Expected block in function body") ∧
        ((∀ i u, i < p → toks[i]? = some u → u.code ≠ .FINISH) →
          (parse toks = .fatal (p + (headerCodes ps ret vs).length) t.line
              "Expected block in function body" ∨
            ∃ c l m, c ≤ p ∧ parse toks = .fatal c l m) ∧
          (∀ toks', toks'.take (p + 1) = toks.take (p + 1) → Accepts toks' →
            parse toks = .fatal (p + (headerCodes ps ret vs).length) t.line
              "Expected block in function body") ∧
          ¬ Accepts toks)) ∧
    (∀ (toks : List Token) (k j : Nat) (t0 t1 t2 t : Token),
      toks[k]? = some t0 → t0.code = .IF → toks[k + 1]? = some t1 → t1.code = .LPAR →
      Returns (expr toks) (k + 2) (.ret true j) →
      toks[j]? = some t2 → t2.code = .RPAR → toks[j + 1]? = some t → t.code = .END →
      Returns (instr toks) k (.fatal (j + 1) t.line "Expected block after 'if' condition") ∧
      ((∀ i u, i < k → toks[i]? = some u → u.code ≠ .FINISH) →
        (parse toks = .fatal (j + 1) t.line "Expected block after 'if' condition" ∨
          ∃ c l m, c ≤ k ∧ parse toks = .fatal c l m) ∧
        (∀ toks', toks'.take (k + 1) = toks.take (k + 1) → Accepts toks' →
          parse toks = .fatal (j + 1) t.line "Expected block after 'if' condition") ∧
        ¬ Accepts toks)) ∧
    (∀ (toks : List Token) (k j : Nat) (t0 t1 t2 t : Token),
      toks[k]? = some t0 → t0.code = .WHILE → toks[k + 1]? = some t1 → t1.code = .LPAR →
      Returns (expr toks) (k + 2) (.ret true j) →
      toks[j]? = some t2 → t2.code = .RPAR → toks[j + 1]? = some t → t.code = .END →
      Returns (instr toks) k
        (.fatal (j + 1) t.line "Expected block after 'while' condition") ∧
      ((∀ i u, i < k → toks[i]? = some u → u.code ≠ .FINISH) →
        (parse toks = .fatal (j + 1) t.line "Expected block after 'while' condition" ∨
          ∃ c l m, c ≤ k ∧ parse toks = .fatal c l m) ∧
        (∀ toks', toks'.take (k + 1) = toks.take (k + 1) → Accepts toks' →
          parse toks = .fatal (j + 1) t.line "Expected block after 'while' condition") ∧
        ¬ Accepts toks)) := by
  have hno : ∀ (toks : List Token) (k : Nat) (F : Res),
      (parse toks = F ∨ ∃ c l m, c ≤ k ∧ parse toks = .fatal c l m) →
      (∀ b j, F ≠ .ret b j) → ¬ Accepts toks := by
    intro toks k F h hF hacc
    obtain ⟨j, hj⟩ := hacc
    rcases h with h | ⟨c, l, m, -, h⟩
    · rw [hj] at h
      exact hF true j h.symm
    · rw [hj] at h
      cases h
  refine ⟨?_, ?_, ?_⟩
  · intro toks p ps ret vs hps hret hvs h
    have h1 : CodesAt toks p (.FUNCTION :: (.ID :: .LPAR ::
        (paramCodes ps ++ .RPAR :: .COLON :: ret :: (defVarCodes vs ++ [.END])))) := by
      simpa [headerCodes] using h
    have hrun : ∀ fuel, ps.length + vs.length + 10 ≤ fuel →
        ∃ t, toks[p + (headerCodes ps ret vs).length]? = some t ∧ t.code = .END ∧
          defFunc toks fuel p = .fatal (p + (headerCodes ps ret vs).length) t.line
            "Expected block in function body" := by
      intro fuel hf
      obtain ⟨t, ht, hc, hr⟩ := defFuncTail_header ps ret vs h hps hret hvs fuel hf
      exact ⟨t, ht, hc, by rw [defFunc_eq, consume_hit h1, Res.branch, hr]⟩
    obtain ⟨t, ht, hc, hr⟩ := hrun _ (le_refl _)
    refine ⟨t, ht, hc, ⟨_, hr, by simp⟩, ?_, ?_⟩
    · intro hp
      subst hp
      have hlen := h.length_le (by simp)
      simp only [headerCodes, List.length_append, List.length_cons, List.length_nil] at hlen
      have hpl := length_le_paramCodes ps
      have hvl := length_le_defVarCodes vs
      obtain ⟨t', ht', -, hr'⟩ := hrun (12 * toks.length + 11) (by omega)
      rw [ht] at ht'
      cases ht'
      unfold parse parseFuel program
      rw [show 12 * (toks.length + 1) = 12 * toks.length + 11 + 1 by omega, programLoop]
      unfold defVar
      rw [consume_miss (c := .VAR) h1 (by decide), Res.branch, Res.orElse, Res.branch, hr']
      simp [Res.orElse, Res.branch, Res.andThen]
    · intro hfin
      obtain ⟨t0, ht0, hc0⟩ := h1.head
      obtain ⟨t', ht', -, hr'⟩ := defFuncTail_header ps ret vs h hps hret hvs _ (le_refl _)
      rw [ht] at ht'
      cases ht'
      have hg := Gate.of_function ht0 hc0
        (show p < p + (headerCodes ps ret vs).length by
          simp only [headerCodes, List.length_append, List.length_cons, List.length_nil]
          omega) hr'
      have hres := hg.parse_result hfin
      exact ⟨hres, fun toks' ha hacc => hg.parse_viable hfin ha hacc,
        hno toks p _ hres (fun b j hF => by cases hF)⟩
  · intro toks k j t0 t1 t2 t h0 hc0 h1 hc1 he h2 hc2 h3 hc3
    obtain ⟨fuel0, he, -⟩ := he
    have htail := ifTail_no_block h1 hc1 he h2 hc2 h3 hc3
    refine ⟨⟨fuel0 + 10 + 1, ?_, by simp⟩, ?_⟩
    · have hx := expr_fails h0 (by rw [hc0]; rfl) (fuel0 + 2)
      rw [instr_eq, show fuel0 + 10 = fuel0 + 2 + 8 from rfl, hx, Res.branch,
        consume_eq h0, if_pos hc0, Res.branch]
      exact htail _ (by omega) (by omega)
    · intro hfin
      have hg := Gate.of_if h0 hc0 (show k < j + 1 by have := expr_ret_ge he; omega)
        (htail (fuel0 + 10) (by omega) (by omega))
      have hres := hg.parse_result hfin
      exact ⟨hres, fun toks' ha hacc => hg.parse_viable hfin ha hacc,
        hno toks k _ hres (fun b j hF => by cases hF)⟩
  · intro toks k j t0 t1 t2 t h0 hc0 h1 hc1 he h2 hc2 h3 hc3
    obtain ⟨fuel0, he, -⟩ := he
    have htail := whileTail_no_block h1 hc1 he h2 hc2 h3 hc3
    refine ⟨⟨fuel0 + 10 + 1, ?_, by simp⟩, ?_⟩
    · have hx := expr_fails h0 (by rw [hc0]; rfl) (fuel0 + 2)
      rw [instr_eq, show fuel0 + 10 = fuel0 + 2 + 8 from rfl, hx, Res.branch,
        consume_eq h0, if_neg (by rw [hc0]; decide), Res.branch,
        consume_eq h0, if_neg (by rw [hc0]; decide), Res.branch,
        consume_eq h0, if_pos hc0, Res.branch]
      exact htail _ (by omega) (by omega)
    · intro hfin
      have hg := Gate.of_while h0 hc0 (show k < j + 1 by have := expr_ret_ge he; omega)
        (htail (fuel0 + 10) (by omega) (by omega))
      have hres := hg.parse_result hfin
      exact ⟨hres, fun toks' ha hacc => hg.parse_viable hfin ha hacc,
        hno toks k _ hres (fun b j hF => by cases hF)⟩

/-- C9 at the tokens of `function f(): int end`, `if (a) end` and
`while (a) end`, and where the construct does not open the sequence: at the
tokens of `var x: int; function f(): int end`, of `x; if (a) end`, of
`x; while (a) end` and of `function g(): int if (a) end end`. In each case the
tokens up to the FUNCTION, IF or WHILE begin an accepted sequence, the one
with the statement `x;` as the body. -/
theorem empty_body_fatal_witness :
    parse (ofCodes [.FUNCTION, .ID, .LPAR, .RPAR, .COLON, .TYPE_INT, .END, .FINISH]) =
      .fatal 6 1 "Expected block in function body" ∧
    parse (ofCodes [.IF, .LPAR, .ID, .RPAR, .END, .FINISH]) =
      .fatal 4 1 "Expected block after 'if' condition" ∧
    parse (ofCodes [.WHILE, .LPAR, .ID, .RPAR, .END, .FINISH]) =
      .fatal 4 1 "Expected block after 'while' condition" ∧
    parse (ofCodes [.VAR, .ID, .COLON, .TYPE_INT, .SEMICOLON,
        .FUNCTION, .ID, .LPAR, .RPAR, .COLON, .TYPE_INT, .END, .FINISH]) =
      .fatal 11 1 "Expected block in function body" ∧
    parse (ofCodes [.ID, .SEMICOLON, .IF, .LPAR, .ID, .RPAR, .END, .FINISH]) =
      .fatal 6 1 "Expected block after 'if' condition" ∧
    parse (ofCodes [.ID, .SEMICOLON, .WHILE, .LPAR, .ID, .RPAR, .END, .FINISH]) =
      .fatal 6 1 "Expected block after 'while' condition" ∧
    parse (ofCodes [.FUNCTION, .ID, .LPAR, .RPAR, .COLON, .TYPE_INT,
        .IF, .LPAR, .ID, .RPAR, .END, .END, .FINISH]) =
      .fatal 10 1 "Expected block after 'if' condition" := by
  refine ⟨?_, ?_, ?_, ?_, ?_, ?_, ?_⟩
  · obtain ⟨t, ht, -, -, hp, -⟩ := empty_body_fatal.1
      (ofCodes [.FUNCTION, .ID, .LPAR, .RPAR, .COLON, .TYPE_INT, .END, .FINISH]) 0 []
      .TYPE_INT [] (by decide) rfl (by decide) ⟨[.FINISH], rfl⟩
    have ht' : t = ⟨.END, 1, .none⟩ := by
      have : (ofCodes [.FUNCTION, .ID, .LPAR, .RPAR, .COLON, .TYPE_INT, .END, .FINISH])[6]? =
          some t := ht
      cases this
      rfl
    subst ht'
    exact hp rfl
  · exact ((empty_body_fatal.2.1 (ofCodes [.IF, .LPAR, .ID, .RPAR, .END, .FINISH]) 0 3
      ⟨.IF, 1, .none⟩ ⟨.LPAR, 1, .none⟩ ⟨.RPAR, 1, .none⟩ ⟨.END, 1, .none⟩ rfl rfl rfl rfl
      ⟨8, by decide, by decide⟩ rfl rfl rfl rfl).2 (no_end_before _ _ (by decide))).2.1
      (ofCodes [.IF, .LPAR, .ID, .RPAR, .ID, .SEMICOLON, .END, .FINISH]) rfl ⟨8, by decide⟩
  · exact ((empty_body_fatal.2.2 (ofCodes [.WHILE, .LPAR, .ID, .RPAR, .END, .FINISH]) 0 3
      ⟨.WHILE, 1, .none⟩ ⟨.LPAR, 1, .none⟩ ⟨.RPAR, 1, .none⟩ ⟨.END, 1, .none⟩
      rfl rfl rfl rfl ⟨8, by decide, by decide⟩ rfl rfl rfl rfl).2
      (no_end_before _ _ (by decide))).2.1
      (ofCodes [.WHILE, .LPAR, .ID, .RPAR, .ID, .SEMICOLON, .END, .FINISH]) rfl
      ⟨8, by decide⟩
  · obtain ⟨t, ht, -, -, -, hp⟩ := empty_body_fatal.1
      (ofCodes [.VAR, .ID, .COLON, .TYPE_INT, .SEMICOLON,
        .FUNCTION, .ID, .LPAR, .RPAR, .COLON, .TYPE_INT, .END, .FINISH]) 5 []
      .TYPE_INT [] (by decide) rfl (by decide) ⟨[.FINISH], rfl⟩
    have ht' : t = ⟨.END, 1, .none⟩ := by
      have : (ofCodes [.VAR, .ID, .COLON, .TYPE_INT, .SEMICOLON,
          .FUNCTION, .ID, .LPAR, .RPAR, .COLON, .TYPE_INT, .END, .FINISH])[11]? =
          some t := ht
      cases this
      rfl
    subst ht'
    exact (hp (no_end_before _ _ (by decide))).2.1
      (ofCodes [.VAR, .ID, .COLON, .TYPE_INT, .SEMICOLON,
        .FUNCTION, .ID, .LPAR, .RPAR, .COLON, .TYPE_INT, .ID, .SEMICOLON, .END, .FINISH])
      rfl ⟨15, by decide⟩
  · exact ((empty_body_fatal.2.1
      (ofCodes [.ID, .SEMICOLON, .IF, .LPAR, .ID, .RPAR, .END, .FINISH]) 2 5
      ⟨.IF, 1, .none⟩ ⟨.LPAR, 1, .none⟩ ⟨.RPAR, 1, .none⟩ ⟨.END, 1, .none⟩ rfl rfl rfl rfl
      ⟨8, by decide, by decide⟩ rfl rfl rfl rfl).2 (no_end_before _ _ (by decide))).2.1
      (ofCodes [.ID, .SEMICOLON, .IF, .LPAR, .ID, .RPAR, .ID, .SEMICOLON, .END, .FINISH])
      rfl ⟨10, by decide⟩
  · exact ((empty_body_fatal.2.2
      (ofCodes [.ID, .SEMICOLON, .WHILE, .LPAR, .ID, .RPAR, .END, .FINISH]) 2 5
      ⟨.WHILE, 1, .none⟩ ⟨.LPAR, 1, .none⟩ ⟨.RPAR, 1, .none⟩ ⟨.END, 1, .none⟩
      rfl rfl rfl rfl ⟨8, by decide, by decide⟩ rfl rfl rfl rfl).2
      (no_end_before _ _ (by decide))).2.1
      (ofCodes [.ID, .SEMICOLON, .WHILE, .LPAR, .ID, .RPAR, .ID, .SEMICOLON, .END, .FINISH])
      rfl ⟨10, by decide⟩
  · exact ((empty_body_fatal.2.1
      (ofCodes [.FUNCTION, .ID, .LPAR, .RPAR, .COLON, .TYPE_INT,
        .IF, .LPAR, .ID, .RPAR, .END, .END, .FINISH]) 6 9
      ⟨.IF, 1, .none⟩ ⟨.LPAR, 1, .none⟩ ⟨.RPAR, 1, .none⟩ ⟨.END, 1, .none⟩ rfl rfl rfl rfl
      ⟨8, by decide, by decide⟩ rfl rfl rfl rfl).2 (no_end_before _ _ (by decide))).2.1
      (ofCodes [.FUNCTION, .ID, .LPAR, .RPAR, .COLON, .TYPE_INT,
        .IF, .LPAR, .ID, .RPAR, .ID, .SEMICOLON, .END, .END, .FINISH])
      rfl ⟨15, by decide⟩

/-! ## The claim on the arguments of a call -/

/-- C17, where the claim fails as stated. In `f(a,();` the COMMA of the
argument list is followed by `(`, at which `expr` does not succeed: it ends in
the diagnostic of the parenthesis, and that is the diagnostic `parse` raises,
not "Expected expression after ','". In `x f(a,);` the call `f(a,)` has a
COMMA followed by `)`, and `parse` ends before it reaches the call, on the
unfinished statement `x`. -/
theorem call_arguments_other_diagnostic :
    (∃ ts, tokenize "f(a,();".toList = .tokens ts ∧
      CodesAt ts 0 [.ID, .LPAR, .ID, .COMMA, .LPAR] ∧
      expr ts 16 4 = .fatal 5 1 "Expected expression after '('" ∧
      parse ts = .fatal 5 1 "Expected expression after '('") ∧
    (∃ ts, tokenize "x f(a,);".toList = .tokens ts ∧
      CodesAt ts 1 [.ID, .LPAR, .ID, .COMMA, .RPAR] ∧
      expr ts 8 5 = .ret false 5 ∧
      parse ts = .fatal 1 1 "Expected ';' after expression") :=
  ⟨⟨[⟨.ID, 1, .text ['f']⟩, ⟨.LPAR, 1, .none⟩, ⟨.ID, 1, .text ['a']⟩, ⟨.COMMA, 1, .none⟩,
      ⟨.LPAR, 1, .none⟩, ⟨.RPAR, 1, .none⟩, ⟨.SEMICOLON, 1, .none⟩, ⟨.FINISH, 1, .none⟩],
      by decide, ⟨[.RPAR, .SEMICOLON, .FINISH], rfl⟩, by decide, by decide⟩,
   ⟨[⟨.ID, 1, .text ['x']⟩, ⟨.ID, 1, .text ['f']⟩, ⟨.LPAR, 1, .none⟩, ⟨.ID, 1, .text ['a']⟩,
      ⟨.COMMA, 1, .none⟩, ⟨.RPAR, 1, .none⟩, ⟨.SEMICOLON, 1, .none⟩, ⟨.FINISH, 1, .none⟩],
      by decide, ⟨[.SEMICOLON, .FINISH], rfl⟩, by decide, by decide⟩⟩

/-- C17, amended. (1) Every token sequence ID LPAR RPAR SEMICOLON FINISH, as
the tokens of `f();`, is accepted by `parse`. (2) Where the loop over the
arguments of a call reaches a COMMA after which `expr` returns failure, the
loop ends in the fatal diagnostic "Expected expression after ','", with the
cursor where `expr` left it. (3) So do `factor` and `instr` started at the
name of a call whose argument list runs into such a COMMA, and so does `parse`
when the call opens the sequence. (4) A token sequence with a COMMA after
which `expr` does not succeed, and no end-marker before that COMMA, is never
accepted by `parse`, wherever the COMMA stands. (5) Wherever a COMMA stands
after which `expr` returns failure, at the top level or inside any other
construct, when the token before it is not a base type (the COMMA is not one
between the parameters of a function header) and no end-marker precedes it:
`parse` ends in the fatal diagnostic "Expected expression after ','", with the
cursor where `expr` left it, unless it ends in a diagnostic raised with the
cursor at or before the COMMA (what precedes the COMMA is malformed or
unfinished, and the first error ends the run); and `parse` ends in that
diagnostic whenever the tokens up to and including the COMMA are the beginning
of some token sequence that `parse` accepts. -/
theorem call_arguments :
    (∀ toks : List Token, codes toks = [.ID, .LPAR, .RPAR, .SEMICOLON, .FINISH] →
      parse toks = .ret true 5) ∧
    (∀ (toks : List Token) (k j : Nat) (u : Token), BadArgs toks k j → toks[j]? = some u →
      Returns (factorArgsLoop toks) k (.fatal j u.line "Expected expression after ','")) ∧
    (∀ (toks : List Token) (p k j : Nat) (t0 t1 u : Token),
      toks[p]? = some t0 → t0.code = .ID → toks[p + 1]? = some t1 → t1.code = .LPAR →
      Returns (expr toks) (p + 2) (.ret true k) → BadArgs toks k j → toks[j]? = some u →
      Returns (factor toks) p (.fatal j u.line "Expected expression after ','") ∧
      Returns (instr toks) p (.fatal j u.line "Expected expression after ','") ∧
      (p = 0 → parse toks = .fatal j u.line "Expected expression after ','")) ∧
    (∀ (toks : List Token) (k : Nat) (t : Token), toks[k]? = some t → t.code = .COMMA →
      (∀ fuel j, expr toks fuel (k + 1) ≠ .ret true j) →
      (∀ i u, i < k → toks[i]? = some u → u.code ≠ .FINISH) → ¬ Accepts toks) ∧
    (∀ (toks : List Token) (k j : Nat) (t u : Token), toks[k]? = some t → t.code = .COMMA →
      (∀ v, toks[k - 1]? = some v → isBaseType v.code = false) →
      Returns (expr toks) (k + 1) (.ret false j) → toks[j]? = some u →
      (∀ i v, i < k → toks[i]? = some v → v.code ≠ .FINISH) →
      (parse toks = .fatal j u.line "Expected expression after ','" ∨
        ∃ c l m, c ≤ k ∧ parse toks = .fatal c l m) ∧
      (∀ toks', toks'.take (k + 1) = toks.take (k + 1) → Accepts toks' →
        parse toks = .fatal j u.line "Expected expression after ','")) := by
  refine ⟨?_, ?_, ?_, ?_, ?_⟩
  · intro toks hts
    match toks, hts with
    | [⟨c0, l0, p0⟩, ⟨c1, l1, p1⟩, ⟨c2, l2, p2⟩, ⟨c3, l3, p3⟩, ⟨c4, l4, p4⟩], hts =>
      simp only [codes, List.map_cons, List.map_nil, List.cons.injEq, and_true] at hts
      obtain ⟨rfl, rfl, rfl, rfl, rfl⟩ := hts
      rfl
  · intro toks k j u hb hu
    exact hb.returns hu
  · intro toks p k j t0 t1 u h0 hc0 h1 hc1 he hb hu
    obtain ⟨n, hf⟩ := factor_bad_args h0 hc0 h1 hc1 he hb hu
    have hup := call_fatal_up h0 hc0 h1 hc1 hf
    refine ⟨⟨n + 1, hf, by simp⟩, ⟨n + 1 + 8, hup.1, by simp⟩, ?_⟩
    intro hp
    subst hp
    refine parse_of_run (show program toks (n + 1 + 9 + 1) 0 = _ from ?_) (by simp)
    unfold program
    rw [programLoop]
    unfold defVar defFunc
    simp only [consume_eq h0, hc0, Res.orElse, Res.branch, Res.andThen, hup.2, reduceCtorEq,
      if_false]
  · intro toks k t hk hc hx hfin hacc
    obtain ⟨j, hj⟩ := hacc
    exact CommaWall.never_accepted ⟨hk, hc, hx⟩ hfin _ j hj
  · intro toks k j t u hk hc hprev he hu hfin
    obtain ⟨fuel0, he, -⟩ := he
    have hr : argsTail toks fuel0 (k + 1) =
        .fatal j u.line "Expected expression after ','" := by
      unfold argsTail
      rw [he, Res.branch, tkerr_eq hu]
    have hg := Gate.of_comma hk hc hprev (show k < j by have := expr_ret_ge he; omega) hr
    exact ⟨hg.parse_result hfin, fun toks' ha hacc => hg.parse_viable hfin ha hacc⟩

/-- C17 at the tokens of `f();` and of `f(a,);`, and where the call does not
open the sequence: at the tokens of `x = f(a,);`, of `y; f(a,);` and of
`function g(): int return f(a,); end`. In each of these the tokens up to the
COMMA begin an accepted sequence, the one with the argument `b` after the
COMMA. -/
theorem call_arguments_witness :
    parse (ofCodes [.ID, .LPAR, .RPAR, .SEMICOLON, .FINISH]) = .ret true 5 ∧
    parse (ofCodes [.ID, .LPAR, .ID, .COMMA, .RPAR, .SEMICOLON, .FINISH]) =
      .fatal 4 1 "Expected expression after ','" ∧
    parse (ofCodes [.ID, .ASSIGN, .ID, .LPAR, .ID, .COMMA, .RPAR, .SEMICOLON, .FINISH]) =
      .fatal 6 1 "Expected expression after ','" ∧
    parse (ofCodes [.ID, .SEMICOLON, .ID, .LPAR, .ID, .COMMA, .RPAR, .SEMICOLON, .FINISH]) =
      .fatal 6 1 "Expected expression after ','" ∧
    parse (ofCodes [.FUNCTION, .ID, .LPAR, .RPAR, .COLON, .TYPE_INT, .RETURN,
        .ID, .LPAR, .ID, .COMMA, .RPAR, .SEMICOLON, .END, .FINISH]) =
      .fatal 11 1 "Expected expression after ','" := by
  refine ⟨call_arguments.1 _ rfl, ?_, ?_, ?_, ?_⟩
  · exact (call_arguments.2.2.1
      (ofCodes [.ID, .LPAR, .ID, .COMMA, .RPAR, .SEMICOLON, .FINISH]) 0 3 4
      ⟨.ID, 1, .none⟩ ⟨.LPAR, 1, .none⟩ ⟨.RPAR, 1, .none⟩ rfl rfl rfl rfl
      ⟨8, by decide, by decide⟩
      (.here 3 4 ⟨.COMMA, 1, .none⟩ rfl rfl ⟨8, by decide, by decide⟩) rfl).2.2 rfl
  · exact (call_arguments.2.2.2.2
      (ofCodes [.ID, .ASSIGN, .ID, .LPAR, .ID, .COMMA, .RPAR, .SEMICOLON, .FINISH]) 5 6
      ⟨.COMMA, 1, .none⟩ ⟨.RPAR, 1, .none⟩ rfl rfl (fun v hv => by cases hv; rfl)
      ⟨8, by decide, by decide⟩ rfl (no_end_before _ _ (by decide))).2
      (ofCodes [.ID, .ASSIGN, .ID, .LPAR, .ID, .COMMA, .ID, .RPAR, .SEMICOLON, .FINISH])
      rfl ⟨10, by decide⟩
  · exact (call_arguments.2.2.2.2
      (ofCodes [.ID, .SEMICOLON, .ID, .LPAR, .ID, .COMMA, .RPAR, .SEMICOLON, .FINISH]) 5 6
      ⟨.COMMA, 1, .none⟩ ⟨.RPAR, 1, .none⟩ rfl rfl (fun v hv => by cases hv; rfl)
      ⟨8, by decide, by decide⟩ rfl (no_end_before _ _ (by decide))).2
      (ofCodes [.ID, .SEMICOLON, .ID, .LPAR, .ID, .COMMA, .ID, .RPAR, .SEMICOLON, .FINISH])
      rfl ⟨10, by decide⟩
  · exact (call_arguments.2.2.2.2
      (ofCodes [.FUNCTION, .ID, .LPAR, .RPAR, .COLON, .TYPE_INT, .RETURN,
        .ID, .LPAR, .ID, .COMMA, .RPAR, .SEMICOLON, .END, .FINISH]) 10 11
      ⟨.COMMA, 1, .none⟩ ⟨.RPAR, 1, .none⟩ rfl rfl (fun v hv => by cases hv; rfl)
      ⟨8, by decide, by decide⟩ rfl (no_end_before _ _ (by decide))).2
      (ofCodes [.FUNCTION, .ID, .LPAR, .RPAR, .COLON, .TYPE_INT, .RETURN,
        .ID, .LPAR, .ID, .COMMA, .ID, .RPAR, .SEMICOLON, .END, .FINISH])
      rfl ⟨16, by decide⟩

end LFTC
